import Mathlib

/-!
# TaskMaster (`task.cpp`): persistence and display-index resolution

A shallow embedding of `class Task` and `class TaskManager` of `src/task.cpp`.

* `std::string` is a `List Char` (one `Char` per `char`), `size_t` is a `Nat` taken
  modulo `2 ^ 64`, `int` is an `Int` (the loader's `std::stoi` range-checks it).
* The text file is the list of characters written to / read from `tasks.json`.
* Exceptions that the source does not catch are the `error` results of `Except Exn`.
* The library routine `std::sort` is a parameter `S : StdSort` of the functions that call
  it; `libstdcxxSort` is the `std::sort` of libstdc++, the library of g++, written out from
  its headers. The console input of an operation (the task number, the new description,
  ...) is an argument of the function, and what it prints is left out.
-/

namespace TaskMaster

/-! ## `std::string` primitives -/

/-- The modulus of `size_t` arithmetic. -/
def sizeMod : Nat := 2 ^ 64

/-- The constant `std::string::npos`, the largest `size_t`. -/
def npos : Nat := 2 ^ 64 - 1

/-- The C++ exceptions thrown by the library calls of the source. -/
inductive Exn where
  | invalid_argument
  | out_of_range
  deriving DecidableEq, Repr

/-- First position `i + k` at which `pat` occurs in the remaining text, `i` being the
position of the head of the remaining text. -/
def searchFrom (pat : List Char) : List Char → Nat → Option Nat
  | [], i => if pat = [] then some i else none
  | c :: cs, i => if pat.isPrefixOf (c :: cs) then some i else searchFrom pat cs (i + 1)

/-- The call `s.find(pat, pos)`: position of the first occurrence of `pat` at or after
`pos`, or `npos`. -/
def find (s pat : List Char) (pos : Nat) : Nat :=
  if s.length < pos then npos
  else match searchFrom pat (s.drop pos) pos with
    | some i => i
    | none => npos

/-- Last position `i + k` of the remaining text that holds a character of `chars`. -/
def searchLastOf (chars : List Char) : List Char → Nat → Option Nat
  | [], _ => none
  | c :: cs, i =>
    match searchLastOf chars cs (i + 1) with
    | some j => some j
    | none => if chars.contains c then some i else none

/-- The call `s.find_last_of(chars)`: last position holding a character of `chars`, or
`npos`. -/
def find_last_of (s chars : List Char) : Nat :=
  match searchLastOf chars s 0 with
  | some i => i
  | none => npos

/-- The call `s.substr(pos, n)`: throws `std::out_of_range` when `pos > s.size()`, else the
at most `n` characters from `pos` on. -/
def substr (s : List Char) (pos n : Nat) : Except Exn (List Char) :=
  if s.length < pos then .error .out_of_range else .ok ((s.drop pos).take n)

/-- The call `s.replace(pos, len, str)` for `pos <= s.size()` (the only call of the source
passes a position that `find` has just returned). -/
def replace (s : List Char) (pos len : Nat) (str : List Char) : List Char :=
  s.take pos ++ str ++ s.drop (pos + len)

/-- The C function `isspace` in the "C" locale. -/
def isspace (c : Char) : Bool :=
  c = ' ' || c = '\t' || c = '\n' || c = '\x0b' || c = '\x0c' || c = '\r'

/-- Value of a decimal digit character. -/
def digitVal (c : Char) : Nat := c.toNat - 48

/-- Value of a string of decimal digits, most significant first. -/
def digitsVal (ds : List Char) : Nat :=
  ds.foldl (fun acc c => acc * 10 + digitVal c) 0

/-- The call `std::stoi(s)` (base 10): skips leading white space, reads an optional sign and
the longest run of digits; `std::invalid_argument` when there is no digit,
`std::out_of_range` when the value does not fit an `int`. -/
def stoi (s : List Char) : Except Exn Int :=
  let s1 := s.dropWhile isspace
  let neg := s1.head? = some '-'
  let s2 := if s1.head? = some '-' ∨ s1.head? = some '+' then s1.tail else s1
  let ds := s2.takeWhile Char.isDigit
  if ds = [] then .error .invalid_argument
  else
    let v : Int := if neg then -(digitsVal ds : Int) else (digitsVal ds : Int)
    if v < -2147483648 ∨ 2147483647 < v then .error .out_of_range else .ok v

/-- Decimal digits of `n`, most significant first, with `fuel` bounding the recursion. -/
def natDigits : Nat → Nat → List Char
  | 0, _ => []
  | fuel + 1, n =>
    if n < 10 then [Char.ofNat (48 + n)]
    else natDigits fuel (n / 10) ++ [Char.ofNat (48 + n % 10)]

/-- What `outFile << n` writes for an `int` `n`. -/
def intToStr (n : Int) : List Char :=
  if n < 0 then '-' :: natDigits (n.natAbs + 1) n.natAbs else natDigits (n.natAbs + 1) n.natAbs

/-! ## `class Task` -/

/-- The class `Task`: its four private fields. -/
structure Task where
  description : List Char
  priority : Int
  dueDate : List Char
  isDone : Bool
  deriving DecidableEq, Repr

namespace Task

/-- The setter `Task::setDescription`. -/
def setDescription (t : Task) (desc : List Char) : Task := { t with description := desc }

/-- The setter `Task::setPriority` (no range check). -/
def setPriority (t : Task) (prio : Int) : Task := { t with priority := prio }

/-- The setter `Task::markDone`. -/
def markDone (t : Task) : Task := { t with isDone := true }

end Task

/-! ## `TaskManager::saveTasksToFile` -/

/-- The escaping loop of `saveTasksToFile`:
`while ((pos = escapedDesc.find("\"", pos)) != npos) { escapedDesc.replace(pos, 1, "\\\""); pos += 2; }`.
One unit of fuel per evaluation of the loop condition; `none` when the fuel runs out. -/
def escapeLoop : Nat → List Char → Nat → Option (List Char)
  | 0, _, _ => none
  | fuel + 1, escapedDesc, pos =>
    let p := find escapedDesc ['"'] pos
    if p ≠ npos then escapeLoop fuel (replace escapedDesc p 1 ['\\', '"']) ((p + 2) % sizeMod)
    else some escapedDesc

/-- The value of `escapedDesc` after the loop, started at `pos = 0` on the description. -/
def escapeDesc (description : List Char) : Option (List Char) :=
  escapeLoop (description.length + 1) description 0

/-- The text written by one iteration `i` of the `for` loop of `saveTasksToFile`. -/
def saveTask (size i : Nat) (t : Task) : Option (List Char) :=
  (escapeDesc t.description).map fun escapedDesc =>
    "    \x7b\n".toList
    ++ "      \"description\": \"".toList ++ escapedDesc ++ "\",\n".toList
    ++ "      \"priority\": ".toList ++ intToStr t.priority ++ ",\n".toList
    ++ "      \"dueDate\": \"".toList ++ t.dueDate ++ "\",\n".toList
    ++ "      \"isDone\": ".toList ++ (if t.isDone then "true".toList else "false".toList)
    ++ "\n".toList
    ++ "    \x7d".toList ++ (if i = (size + sizeMod - 1) % sizeMod then [] else ",".toList)
    ++ "\n".toList

/-- The `for` loop of `saveTasksToFile` from index `i` on, over the tasks not yet written. -/
def saveLoop (size : Nat) : Nat → List Task → Option (List Char)
  | _, [] => some []
  | i, t :: ts =>
    match saveTask size i t, saveLoop size (i + 1) ts with
    | some a, some b => some (a ++ b)
    | _, _ => none

/-- The text that `saveTasksToFile` writes to the file once it is open for writing. -/
def saveTasksToFile (tasks : List Task) : Option (List Char) :=
  (saveLoop tasks.length 0 tasks).map fun body =>
    "\x7b\n".toList ++ "  \"tasks\": [\n".toList ++ body ++ "  ]\n".toList ++ "\x7d\n".toList

/-! ## `TaskManager::loadTasksFromFile` -/

/-- The lines that successive `getline(inFile, line)` calls read: the text is cut at each
line feed, the line feed is dropped, and a last line without line feed is read when it is
not empty. -/
def getlines : List Char → List (List Char)
  | [] => []
  | c :: cs =>
    if c = '\n' then [] :: getlines cs
    else match getlines cs with
      | [] => [[c]]
      | l :: ls => (c :: l) :: ls

/-- The local variables of `loadTasksFromFile` that live across the iterations of its
`while` loop, with the member `tasks`. -/
structure LoadState where
  desc : List Char
  prio : Int
  due : List Char
  tasks : List Task
  deriving DecidableEq, Repr

/-- The extraction `line.substr(start, end - start)` of the two quoted-field branches, with
`start = line.find(": \"") + 3` and `end = line.find_last_of("\"")` in `size_t`. -/
def quotedField (line : List Char) : Except Exn (List Char) :=
  let start := (find line [':', ' ', '"'] 0 + 3) % sizeMod
  let end_ := find_last_of line ['"']
  substr line start ((end_ + sizeMod - start) % sizeMod)

/-- One iteration of the `while (getline(inFile, line))` loop of `loadTasksFromFile`. -/
def loadLine (st : LoadState) (line : List Char) : Except Exn LoadState :=
  if find line "\"description\"".toList 0 ≠ npos then
    match quotedField line with
    | .ok d => .ok { st with desc := d }
    | .error e => .error e
  else if find line "\"priority\"".toList 0 ≠ npos then
    let start := (find line [':', ' '] 0 + 2) % sizeMod
    match substr line start npos with
    | .error e => .error e
    | .ok sub =>
      match stoi sub with
      | .ok v => .ok { st with prio := v }
      | .error .invalid_argument => .ok { st with prio := 1 }
      | .error .out_of_range => .error .out_of_range
  else if find line "\"dueDate\"".toList 0 ≠ npos then
    match quotedField line with
    | .ok d => .ok { st with due := d }
    | .error e => .error e
  else if find line "\"isDone\"".toList 0 ≠ npos then
    let isDone : Bool := find line "true".toList 0 ≠ npos
    .ok { st with tasks := st.tasks ++ [⟨st.desc, st.prio, st.due, isDone⟩] }
  else .ok st

/-- The `while` loop of `loadTasksFromFile` over the lines still to be read. -/
def loadLoop : LoadState → List (List Char) → Except Exn LoadState
  | st, [] => .ok st
  | st, line :: rest =>
    match loadLine st line with
    | .ok st1 => loadLoop st1 rest
    | .error e => .error e

/-- The member `tasks` after `loadTasksFromFile`: `file` is the content of `tasks.json`, or
`none` when the file cannot be opened (then `tasks` is left as it is); an `error` is an
exception that leaves the function. -/
def loadTasksFromFile (file : Option (List Char)) (tasks : List Task) :
    Except Exn (List Task) :=
  match file with
  | none => .ok tasks
  | some text =>
    match loadLoop ⟨[], 0, [], []⟩ (getlines text) with
    | .ok st => .ok st.tasks
    | .error e => .error e

/-! ## `std::sort` -/

/-- A strict weak ordering: what `std::sort` requires of its comparison `comp`. -/
def StrictWeak {α : Type} (comp : α → α → Bool) : Prop :=
  (∀ a, comp a a = false) ∧
  (∀ a b c, comp a b = true → comp b c = true → comp a c = true) ∧
  (∀ a b c, comp a b = false → comp b c = false → comp a c = false)

/-- The library routine `std::sort(first, last, comp)`, whose code is not part of the
program. For a strict weak ordering `comp` the C++ standard fixes that the result is a
rearrangement of the range (`perm`) in which no element is `comp`-before an earlier one
(`sorted`); the order of elements that `comp` does not tell apart is left open (it is not
`std::stable_sort`). -/
structure StdSort where
  sort : {α : Type} → (α → α → Bool) → List α → List α
  perm : ∀ {α : Type} (comp : α → α → Bool) (l : List α),
    StrictWeak comp → (sort comp l).Perm l
  sorted : ∀ {α : Type} (comp : α → α → Bool) (l : List α),
    StrictWeak comp → (sort comp l).Pairwise (fun a b => comp b a = false)

/-! ### `std::sort` of libstdc++

The GNU C++ library libstdc++ implements `std::sort` in `bits/stl_algo.h` and
`bits/stl_heap.h` (GCC 12) as an introsort: quicksort with a median-of-three pivot on ranges
of more than 16 elements, heapsort once the depth limit `2 * lg n` is used up, and one
insertion sort over the whole range at the end. The functions below follow those of the
library one by one, for every element type `α` as the templates do. A vector is a `List α`,
an iterator is its offset from `begin()`, a move of an element copies it, and a loop variable
that counts down to an end the loop always reaches is the argument the definition recurses
on. -/

/-- The call `comp(i, j)` on two iterators, given as offsets from `begin()`; it is `false`
when one of them is outside the vector, which ends the loop that asks. -/
def iterLt {α : Type} (comp : α → α → Bool) (v : List α) (i j : Nat) : Bool :=
  match v[i]?, v[j]? with
  | some x, some y => comp x y
  | _, _ => false

/-- The call `comp(val, j)` on a saved value and an iterator. -/
def valLt {α : Type} (comp : α → α → Bool) (val : α) (v : List α) (j : Nat) : Bool :=
  match v[j]? with
  | some y => comp val y
  | none => false

/-- The call `comp(i, val)` on an iterator and a saved value. -/
def iterLtVal {α : Type} (comp : α → α → Bool) (v : List α) (i : Nat) (val : α) : Bool :=
  match v[i]? with
  | some x => comp x val
  | none => false

/-- The assignment `*dst = std::move(*src)`. -/
def iterMove {α : Type} (v : List α) (dst src : Nat) : List α :=
  match v[src]? with
  | some x => v.set dst x
  | none => v

/-- The call `std::iter_swap(i, j)`. -/
def iterSwap {α : Type} (v : List α) (i j : Nat) : List α :=
  match v[i]?, v[j]? with
  | some x, some y => (v.set i y).set j x
  | _, _ => v

/-- The number `std::__lg(n)`: the position of the highest set bit of `n`. -/
def lg : Nat → Nat → Nat
  | 0, _ => 0
  | fuel + 1, n => if n < 2 then 0 else lg fuel (n / 2) + 1

/-- The function `std::__move_median_to_first` (bits/stl_algo.h). -/
def moveMedianToFirst {α : Type} (comp : α → α → Bool) (v : List α) (result a b c : Nat) :
    List α :=
  if iterLt comp v a b then
    if iterLt comp v b c then iterSwap v result b
    else if iterLt comp v a c then iterSwap v result c
    else iterSwap v result a
  else if iterLt comp v a c then iterSwap v result a
  else if iterLt comp v b c then iterSwap v result c
  else iterSwap v result b

/-- The loop `while (__comp(__first, __pivot)) ++__first;` of `std::__unguarded_partition`;
the first argument counts the positions left up to the end of the vector. -/
def scanUp {α : Type} (comp : α → α → Bool) (v : List α) (pivot : Nat) : Nat → Nat → Nat
  | 0, first => first
  | left + 1, first =>
    if iterLt comp v first pivot then scanUp comp v pivot left (first + 1) else first

/-- The loop `while (__comp(__pivot, __last)) --__last;` of `std::__unguarded_partition`. -/
def scanDown {α : Type} (comp : α → α → Bool) (v : List α) (pivot : Nat) : Nat → Nat
  | 0 => 0
  | last + 1 =>
    if iterLt comp v pivot (last + 1) then scanDown comp v pivot last else last + 1

/-- The function `std::__unguarded_partition` (bits/stl_algo.h): the vector and the
iterator it returns. Every turn of its `while (true)` moves `__first` up, so the loop ends
within `__last - __first` turns, which is the first argument. -/
def unguardedPartition {α : Type} (comp : α → α → Bool) (pivot : Nat) :
    Nat → List α → Nat → Nat → List α × Nat
  | 0, v, first, _ => (v, scanUp comp v pivot (v.length - first) first)
  | turns + 1, v, first, last =>
    let first1 := scanUp comp v pivot (v.length - first) first
    let last1 := scanDown comp v pivot (last - 1)
    if first1 < last1 then
      unguardedPartition comp pivot turns (iterSwap v first1 last1) (first1 + 1) last1
    else (v, first1)

/-- The function `std::__unguarded_partition_pivot` (bits/stl_algo.h). -/
def unguardedPartitionPivot {α : Type} (comp : α → α → Bool) (v : List α) (first last : Nat) :
    List α × Nat :=
  let mid := first + (last - first) / 2
  let v1 := moveMedianToFirst comp v first (first + 1) mid (last - 1)
  unguardedPartition comp first (last - (first + 1)) v1 (first + 1) last

/-- The function `std::__push_heap` (bits/stl_heap.h); the first argument bounds the turns
of its loop, each of which lowers `__holeIndex`. -/
def pushHeap {α : Type} (comp : α → α → Bool) (first : Nat) :
    Nat → List α → Nat → Nat → α → List α
  | 0, v, holeIndex, _, value => v.set (first + holeIndex) value
  | turns + 1, v, holeIndex, topIndex, value =>
    let parent := (holeIndex - 1) / 2
    if holeIndex > topIndex && iterLtVal comp v (first + parent) value then
      pushHeap comp first turns (iterMove v (first + holeIndex) (first + parent)) parent
        topIndex value
    else v.set (first + holeIndex) value

/-- The `while (__secondChild < (__len - 1) / 2)` loop of `std::__adjust_heap`: the vector,
`__holeIndex` and `__secondChild` after it. -/
def adjustHeapLoop {α : Type} (comp : α → α → Bool) (first len : Nat) :
    Nat → List α → Nat → Nat → List α × Nat × Nat
  | 0, v, holeIndex, secondChild => (v, holeIndex, secondChild)
  | turns + 1, v, holeIndex, secondChild =>
    if secondChild < (len - 1) / 2 then
      let secondChild1 := 2 * (secondChild + 1)
      let secondChild2 :=
        if iterLt comp v (first + secondChild1) (first + (secondChild1 - 1)) then
          secondChild1 - 1
        else secondChild1
      adjustHeapLoop comp first len turns (iterMove v (first + holeIndex) (first + secondChild2))
        secondChild2 secondChild2
    else (v, holeIndex, secondChild)

/-- The function `std::__adjust_heap` (bits/stl_heap.h); `std::sort` calls it with `__len` at
least 1. -/
def adjustHeap {α : Type} (comp : α → α → Bool) (v : List α) (first holeIndex len : Nat)
    (value : α) : List α :=
  let topIndex := holeIndex
  let r := adjustHeapLoop comp first len len v holeIndex holeIndex
  let v1 := r.1
  let holeIndex1 := r.2.1
  let secondChild := r.2.2
  if len % 2 = 0 ∧ secondChild = (len - 2) / 2 then
    let secondChild1 := 2 * (secondChild + 1)
    pushHeap comp first (secondChild1 - 1)
      (iterMove v1 (first + holeIndex1) (first + (secondChild1 - 1))) (secondChild1 - 1)
      topIndex value
  else pushHeap comp first holeIndex1 v1 holeIndex1 topIndex value

/-- The function `std::__pop_heap` (bits/stl_heap.h). -/
def popHeap {α : Type} (comp : α → α → Bool) (v : List α) (first last result : Nat) : List α :=
  match v[result]? with
  | some value => adjustHeap comp (iterMove v result first) first 0 (last - first) value
  | none => v

/-- The `while (true)` loop of `std::__make_heap`, from `__parent` down to 0. -/
def makeHeapLoop {α : Type} (comp : α → α → Bool) (first len : Nat) : Nat → List α → List α
  | 0, v =>
    match v[first]? with
    | some value => adjustHeap comp v first 0 len value
    | none => v
  | parent + 1, v =>
    match v[first + (parent + 1)]? with
    | some value =>
      makeHeapLoop comp first len parent (adjustHeap comp v first (parent + 1) len value)
    | none => v

/-- The function `std::__make_heap` (bits/stl_heap.h). -/
def makeHeap {α : Type} (comp : α → α → Bool) (v : List α) (first last : Nat) : List α :=
  if last - first < 2 then v
  else makeHeapLoop comp first (last - first) ((last - first - 2) / 2) v

/-- The function `std::__sort_heap` (bits/stl_heap.h); the first argument is
`__last - __first`. -/
def sortHeap {α : Type} (comp : α → α → Bool) (first : Nat) : Nat → List α → List α
  | 0, v => v
  | n + 1, v =>
    if n + 1 > 1 then sortHeap comp first n (popHeap comp v first (first + n) (first + n))
    else v

/-- The `for` loop of `std::__heap_select`, over the iterators from `__i` to `__last`. -/
def heapSelectLoop {α : Type} (comp : α → α → Bool) (first middle : Nat) :
    Nat → Nat → List α → List α
  | 0, _, v => v
  | n + 1, i, v =>
    heapSelectLoop comp first middle n (i + 1)
      (if iterLt comp v i first then popHeap comp v first middle i else v)

/-- The function `std::__heap_select` (bits/stl_algo.h). -/
def heapSelect {α : Type} (comp : α → α → Bool) (v : List α) (first middle last : Nat) :
    List α :=
  heapSelectLoop comp first middle (last - middle) middle (makeHeap comp v first middle)

/-- The function `std::__partial_sort` (bits/stl_algo.h). -/
def partialSort {α : Type} (comp : α → α → Bool) (v : List α) (first middle last : Nat) :
    List α :=
  sortHeap comp first (middle - first) (heapSelect comp v first middle last)

/-- The function `std::__introsort_loop` (bits/stl_algo.h), by recursion on
`__depth_limit`, which every turn of its loop lowers before the recursive call. -/
def introsortLoop {α : Type} (comp : α → α → Bool) : Nat → List α → Nat → Nat → List α
  | 0, v, first, last =>
    if last - first > 16 then partialSort comp v first last last else v
  | depth_limit + 1, v, first, last =>
    if last - first > 16 then
      let r := unguardedPartitionPivot comp v first last
      introsortLoop comp depth_limit (introsortLoop comp depth_limit r.1 r.2 last) first r.2
    else v

/-- The loop of `std::__unguarded_linear_insert` (bits/stl_algo.h) with `__val` saved:
the vector after `*__last = __val`. The source has no test for the begin of the vector
(a smaller or equivalent element stops the loop there); here the loop ends at offset 0. -/
def unguardedLinearInsertLoop {α : Type} (comp : α → α → Bool) (val : α) : Nat → List α → List α
  | 0, v => v.set 0 val
  | next + 1, v =>
    if valLt comp val v next then
      unguardedLinearInsertLoop comp val next (iterMove v (next + 1) next)
    else v.set (next + 1) val

/-- The function `std::__unguarded_linear_insert` (bits/stl_algo.h). -/
def unguardedLinearInsert {α : Type} (comp : α → α → Bool) (v : List α) (last : Nat) : List α :=
  match v[last]? with
  | some val => unguardedLinearInsertLoop comp val last v
  | none => v

/-- The statements `__val = *__i; std::move_backward(__first, __i, __i + 1);
*__first = __val;` of `std::__insertion_sort`. -/
def moveToFirst {α : Type} (v : List α) (first i : Nat) : List α :=
  match v[i]? with
  | some val => v.take first ++ val :: ((v.take i).drop first ++ v.drop (i + 1))
  | none => v

/-- The `for` loop of `std::__insertion_sort`, over the iterators from `__i` on; the first
argument is `__last - __i`. -/
def insertionSortLoop {α : Type} (comp : α → α → Bool) (first : Nat) :
    Nat → Nat → List α → List α
  | 0, _, v => v
  | n + 1, i, v =>
    insertionSortLoop comp first n (i + 1)
      (if iterLt comp v i first then moveToFirst v first i else unguardedLinearInsert comp v i)

/-- The function `std::__insertion_sort` (bits/stl_algo.h). -/
def insertionSort {α : Type} (comp : α → α → Bool) (v : List α) (first last : Nat) : List α :=
  if first = last then v
  else insertionSortLoop comp first (last - (first + 1)) (first + 1) v

/-- The function `std::__unguarded_insertion_sort` (bits/stl_algo.h); the first argument
is `__last - __i`. -/
def unguardedInsertionSort {α : Type} (comp : α → α → Bool) : Nat → Nat → List α → List α
  | 0, _, v => v
  | n + 1, i, v => unguardedInsertionSort comp n (i + 1) (unguardedLinearInsert comp v i)

/-- The function `std::__final_insertion_sort` (bits/stl_algo.h). -/
def finalInsertionSort {α : Type} (comp : α → α → Bool) (v : List α) (first last : Nat) :
    List α :=
  if last - first > 16 then
    unguardedInsertionSort comp (last - (first + 16)) (first + 16)
      (insertionSort comp v first (first + 16))
  else insertionSort comp v first last

/-- The function `std::__sort` (bits/stl_algo.h), which `std::sort(first, last, comp)`
calls on the whole vector. -/
def libstdcxxSortBy {α : Type} (comp : α → α → Bool) (l : List α) : List α :=
  if l.length = 0 then l
  else
    finalInsertionSort comp
      (introsortLoop comp (lg l.length l.length * 2) l 0 l.length) 0 l.length

/-- The effect of `std::__unguarded_linear_insert` on the elements before `__last`, read
from `__last - 1` down: `val` goes behind the elements it is `comp`-before. -/
def insertBackward {α : Type} (comp : α → α → Bool) (val : α) : List α → List α
  | [] => [val]
  | x :: rs => if comp val x then x :: insertBackward comp val rs else val :: x :: rs


/-! ## `TaskManager`: index resolution, listing and the mutations -/

/-- The comparison lambda of `listTasks`: `a.getPriority() > b.getPriority()`. -/
def byPriority (a b : Task) : Bool := decide (a.priority > b.priority)

/-- The vector `indices` of `getOriginalIndex` after its `for` loop: the storage indices
`i` with `tasks[i].getIsDone() != isForPendingTasks`, ascending. A storage index is kept
as a `Fin tasks.length` (the source keeps it in an `int`, which holds every index of a
store of fewer than `2 ^ 31` records). -/
def collectIndices (tasks : List Task) (isForPendingTasks : Bool) : List (Fin tasks.length) :=
  (List.finRange tasks.length).filter fun i => (tasks.get i).isDone != isForPendingTasks

/-- The vector `indices` of `getOriginalIndex` after its `std::sort`, whose lambda is
`tasks[a].getPriority() > tasks[b].getPriority()`. -/
def sortedIndices (S : StdSort) (tasks : List Task) (isForPendingTasks : Bool) :
    List (Fin tasks.length) :=
  S.sort (fun a b => byPriority (tasks.get a) (tasks.get b)) (collectIndices tasks isForPendingTasks)

/-- The function `TaskManager::getOriginalIndex`; the result `-1` is "not found". -/
def getOriginalIndex (S : StdSort) (tasks : List Task) (displayIndex : Int)
    (isForPendingTasks : Bool) : Int :=
  let indices := sortedIndices S tasks isForPendingTasks
  if h : displayIndex > 0 ∧ displayIndex.toNat ≤ indices.length then
    ((indices.get ⟨displayIndex.toNat - 1, by omega⟩ : Fin tasks.length) : Nat)
  else -1

/-- The vector `toDisplay` that `TaskManager::listTasks` prints as `Task #1`, `Task #2`, ...
(nothing is printed as a task when it is empty). -/
def listTasks (S : StdSort) (tasks : List Task) (showCompleted : Bool) : List Task :=
  let toDisplay := tasks.filter fun task => task.isDone == showCompleted
  if toDisplay.isEmpty then []
  else S.sort byPriority toDisplay

/-- The count `std::count_if(..., !t.getIsDone())` of `markTaskDone` and `editTask`. -/
def pendingCount (tasks : List Task) : Nat := tasks.countP fun t => !t.isDone

/-- The member `tasks` after `TaskManager::markTaskDone` when the user enters `choice`. -/
def markTaskDone (S : StdSort) (tasks : List Task) (choice : Int) : List Task :=
  if pendingCount tasks = 0 then tasks
  else
    let original_index := getOriginalIndex S tasks choice true
    if original_index ≠ -1 then List.modify Task.markDone original_index.toNat tasks
    else tasks

/-- The member `tasks` after `TaskManager::editTask` when the user enters `choice`, then
the line `new_desc` and the number `new_prio`. -/
def editTask (S : StdSort) (tasks : List Task) (choice : Int) (new_desc : List Char)
    (new_prio : Int) : List Task :=
  if pendingCount tasks = 0 then tasks
  else
    let original_index := getOriginalIndex S tasks choice true
    if original_index ≠ -1 then
      let tasks1 :=
        if new_desc ≠ [] then
          List.modify (fun t => t.setDescription new_desc) original_index.toNat tasks
        else tasks
      if new_prio ≥ 1 ∧ new_prio ≤ 5 then
        List.modify (fun t => t.setPriority new_prio) original_index.toNat tasks1
      else tasks1
    else tasks

/-- The member `tasks` after `TaskManager::deleteTask` when the user enters `choice`. -/
def deleteTask (S : StdSort) (tasks : List Task) (choice : Int) : List Task :=
  if tasks.isEmpty then tasks
  else
    let original_index := getOriginalIndex S tasks choice true
    let original_index :=
      if original_index = -1 then getOriginalIndex S tasks choice false else original_index
    if original_index ≠ -1 then tasks.eraseIdx original_index.toNat
    else tasks

/-- The member `tasks` after `TaskManager::addTask`, `prio` being the number that left the
`1 <= prio <= 5` input loop. -/
def addTask (tasks : List Task) (desc : List Char) (prio : Int) (due : List Char) :
    List Task :=
  tasks ++ [⟨desc, prio, due, false⟩]

/-! ## Definitions used to state the properties -/

/-- The priority of the record in storage slot `n`, and 0 where there is no slot `n`. -/
def priorityAt (tasks : List Task) (n : Nat) : Int :=
  match tasks[n]? with
  | some t => t.priority
  | none => 0

/-- Spec side of the escaping in `saveTasksToFile`: every double quote replaced by a
backslash followed by a double quote, every other character kept. -/
def escapeQuotes : List Char → List Char
  | [] => []
  | c :: cs => if c = '"' then '\\' :: '"' :: escapeQuotes cs else c :: escapeQuotes cs

/-- Lines joined as a text, each followed by a line feed. -/
def unlines : List (List Char) → List Char
  | [] => []
  | l :: ls => l ++ '\n' :: unlines ls

/-- The six lines of one record in the saved text, `esc` being the escaped description and
`sep` the text written after the closing brace. -/
def taskLines (esc : List Char) (t : Task) (sep : List Char) : List (List Char) :=
  [ "    \x7b".toList,
    "      \"description\": \"".toList ++ esc ++ "\",".toList,
    "      \"priority\": ".toList ++ intToStr t.priority ++ ",".toList,
    "      \"dueDate\": \"".toList ++ t.dueDate ++ "\",".toList,
    "      \"isDone\": ".toList ++ (if t.isDone then "true".toList else "false".toList),
    "    \x7d".toList ++ sep ]

/-- The record with the description as it stands in the saved text. -/
def reloaded (t : Task) : Task :=
  ⟨escapeQuotes t.description, t.priority, t.dueDate, t.isDone⟩

/-- Neither the description nor the due date holds a double quote or a line feed. -/
@[reducible] def Plain (t : Task) : Prop :=
  '"' ∉ t.description ∧ '\n' ∉ t.description ∧ '"' ∉ t.dueDate ∧ '\n' ∉ t.dueDate

/-- The field values are values of the C++ types: a `std::string` has fewer than `2 ^ 64`
characters and an `int` has 32 bits. -/
@[reducible] def Representable (t : Task) : Prop :=
  t.description.length < sizeMod ∧ t.dueDate.length < sizeMod ∧
  -2147483648 ≤ t.priority ∧ t.priority ≤ 2147483647

/-- The due date is not the name of a key that the loader looks for before `"dueDate"`. -/
@[reducible] def DueDateNotKey (t : Task) : Prop :=
  t.dueDate ≠ "description".toList ∧ t.dueDate ≠ "priority".toList

/-- The conditions on one record under which the loader reads each of its saved lines as
the line of its own field: the description may hold double quotes. -/
@[reducible] def Readable (t : Task) : Prop :=
  '\n' ∉ t.description ∧ t.description.length + t.description.count '"' < sizeMod ∧
  '"' ∉ t.dueDate ∧ '\n' ∉ t.dueDate ∧ t.dueDate.length < sizeMod ∧
  t.dueDate ≠ "description".toList ∧ t.dueDate ≠ "priority".toList ∧
  -2147483648 ≤ t.priority ∧ t.priority ≤ 2147483647

/-- A store of two pending and three completed records. -/
def sampleStore : List Task :=
  [⟨"Buy milk".toList, 3, "2024-01-01".toList, false⟩,
   ⟨"Ship release".toList, 5, [], false⟩,
   ⟨"Pay rent".toList, 4, [], true⟩,
   ⟨"Call bank".toList, 2, [], true⟩,
   ⟨"File taxes".toList, 5, [], true⟩]

/-- A store of one pending and one completed record. -/
def mixedStore : List Task :=
  [⟨"pending".toList, 1, [], false⟩, ⟨"completed".toList, 1, [], true⟩]

/-- A store whose only record has the due date `description`. -/
def keyStore : List Task :=
  [⟨"a".toList, 1, "description".toList, false⟩]

/-- A store whose only record has double quotes in its description. -/
def quotedStore : List Task :=
  [⟨"say \"hi\"".toList, 3, [], false⟩]

/-! ## Definitions for the input loop, the reachable stores and the loader's lines -/

/-- The priority that leaves the input loop of `addTask`,
`while (!(std::cin >> prio) || prio < 1 || prio > 5)`: `attempts` lists what the successive
extractions `std::cin >> prio` yield, `none` for a failed extraction; the result is `none`
when no attempt ends the loop. -/
def readPriority : List (Option Int) → Option Int
  | [] => none
  | none :: rest => readPriority rest
  | some prio :: rest => if prio < 1 ∨ prio > 5 then readPriority rest else some prio

/-- The member `tasks` after `TaskManager::addTask` when the user enters the line `desc`,
the priority attempts and the line `due`. -/
def addTaskFromInput (tasks : List Task) (desc : List Char) (attempts : List (Option Int))
    (due : List Char) : Option (List Task) :=
  (readPriority attempts).map fun prio => addTask tasks desc prio due

/-- Every record of the store has a priority from 1 to 5. -/
@[reducible] def InRange (tasks : List Task) : Prop :=
  ∀ t ∈ tasks, 1 ≤ t.priority ∧ t.priority ≤ 5

/-- The stores that the four mutating operations produce from the empty store. -/
inductive Reachable (S : StdSort) : List Task → Prop
  | empty : Reachable S []
  | add (tasks : List Task) (desc : List Char) (attempts : List (Option Int))
      (due : List Char) (tasks1 : List Task) :
      Reachable S tasks → addTaskFromInput tasks desc attempts due = some tasks1 →
      Reachable S tasks1
  | markDone (tasks : List Task) (choice : Int) :
      Reachable S tasks → Reachable S (markTaskDone S tasks choice)
  | edit (tasks : List Task) (choice : Int) (new_desc : List Char) (new_prio : Int) :
      Reachable S tasks → Reachable S (editTask S tasks choice new_desc new_prio)
  | delete (tasks : List Task) (choice : Int) :
      Reachable S tasks → Reachable S (deleteTask S tasks choice)

/-- Spec side (C12): the text left after optional white space and one optional sign. -/
def afterSign (s : List Char) : List Char :=
  if (s.dropWhile isspace).head? = some '-' ∨ (s.dropWhile isspace).head? = some '+' then
    (s.dropWhile isspace).tail
  else s.dropWhile isspace

/-- Spec side (C12): after optional white space and an optional sign the text does not begin
with a decimal digit. -/
@[reducible] def NoLeadingDigit (s : List Char) : Prop :=
  (afterSign s).head?.map Char.isDigit ≠ some true

/-- The priority line that `saveTasksToFile` writes for priority 1. -/
def priorityOneLine : List Char := "      \"priority\": 1,".toList

/-- The text of a file with one record, description `x`, no due date, pending, whose
priority line is `prioLine`. -/
def sampleFile (prioLine : List Char) : List Char :=
  unlines ["\x7b".toList, "  \"tasks\": [".toList, "    \x7b".toList,
    "      \"description\": \"x\",".toList, prioLine, "      \"dueDate\": \"\",".toList,
    "      \"isDone\": false".toList, "    \x7d".toList, "  ]".toList, "\x7d".toList]

/-- Spec side (C16): a line on which the loader appends a record, one that contains `"isDone"`
and none of `"description"`, `"priority"`, `"dueDate"`. -/
@[reducible] def IsDoneLine (line : List Char) : Prop :=
  "\"isDone\"".toList <:+: line ∧ ¬ "\"description\"".toList <:+: line ∧
  ¬ "\"priority\"".toList <:+: line ∧ ¬ "\"dueDate\"".toList <:+: line

/-- A store of 16 pending records of equal priority, `t01` to `t16`. -/
def sixteenTied : List Task :=
  [⟨"t01".toList, 3, [], false⟩, ⟨"t02".toList, 3, [], false⟩, ⟨"t03".toList, 3, [], false⟩,
   ⟨"t04".toList, 3, [], false⟩, ⟨"t05".toList, 3, [], false⟩, ⟨"t06".toList, 3, [], false⟩,
   ⟨"t07".toList, 3, [], false⟩, ⟨"t08".toList, 3, [], false⟩, ⟨"t09".toList, 3, [], false⟩,
   ⟨"t10".toList, 3, [], false⟩, ⟨"t11".toList, 3, [], false⟩, ⟨"t12".toList, 3, [], false⟩,
   ⟨"t13".toList, 3, [], false⟩, ⟨"t14".toList, 3, [], false⟩, ⟨"t15".toList, 3, [], false⟩,
   ⟨"t16".toList, 3, [], false⟩]

/-- A store of 17 pending records of equal priority, `t01` to `t17`. -/
def seventeenTied : List Task :=
  [⟨"t01".toList, 3, [], false⟩, ⟨"t02".toList, 3, [], false⟩, ⟨"t03".toList, 3, [], false⟩,
   ⟨"t04".toList, 3, [], false⟩, ⟨"t05".toList, 3, [], false⟩, ⟨"t06".toList, 3, [], false⟩,
   ⟨"t07".toList, 3, [], false⟩, ⟨"t08".toList, 3, [], false⟩, ⟨"t09".toList, 3, [], false⟩,
   ⟨"t10".toList, 3, [], false⟩, ⟨"t11".toList, 3, [], false⟩, ⟨"t12".toList, 3, [], false⟩,
   ⟨"t13".toList, 3, [], false⟩, ⟨"t14".toList, 3, [], false⟩, ⟨"t15".toList, 3, [], false⟩,
   ⟨"t16".toList, 3, [], false⟩, ⟨"t17".toList, 3, [], false⟩]

/-- A store of 18 pending records of equal priority, `t01` to `t18`. -/
def eighteenTied : List Task :=
  [⟨"t01".toList, 3, [], false⟩, ⟨"t02".toList, 3, [], false⟩, ⟨"t03".toList, 3, [], false⟩,
   ⟨"t04".toList, 3, [], false⟩, ⟨"t05".toList, 3, [], false⟩, ⟨"t06".toList, 3, [], false⟩,
   ⟨"t07".toList, 3, [], false⟩, ⟨"t08".toList, 3, [], false⟩, ⟨"t09".toList, 3, [], false⟩,
   ⟨"t10".toList, 3, [], false⟩, ⟨"t11".toList, 3, [], false⟩, ⟨"t12".toList, 3, [], false⟩,
   ⟨"t13".toList, 3, [], false⟩, ⟨"t14".toList, 3, [], false⟩, ⟨"t15".toList, 3, [], false⟩,
   ⟨"t16".toList, 3, [], false⟩, ⟨"t17".toList, 3, [], false⟩, ⟨"t18".toList, 3, [], false⟩]

/-- A file of five lines: the three field lines and the `"isDone"` line of a record, then
one more `"isDone"` line. -/
def inheritingText : List Char :=
  unlines ["      \"description\": \"a\",".toList, "      \"priority\": 2,".toList,
    "      \"dueDate\": \"d\",".toList, "      \"isDone\": false".toList,
    "      \"isDone\": true".toList]

/-- A file of two lines: a priority line whose number does not fit an `int`, then an
`"isDone"` line. -/
def abortingText : List Char :=
  unlines ["      \"priority\": 99999999999,".toList, "      \"isDone\": true".toList]

/-! ## Lemmas on `std::sort` of libstdc++

Its result is a rearrangement of the range, it is ordered by `comp`, it is the same
rearrangement for every element type (`libstdcxxSortBy_map`), and on at most 16 elements it
keeps elements that `comp` does not order in their input order (`libstdcxxSortBy_filter`). -/

theorem lt_of_getElem_some {α : Type} {v : List α} {i : Nat} {x : α} (h : v[i]? = some x) :
    i < v.length := by
  by_contra hn
  rw [List.getElem?_eq_none (by omega)] at h
  exact absurd h (by simp)

theorem set_of_getElem_some {α : Type} {v : List α} {i : Nat} {x : α} (h : v[i]? = some x) :
    v.set i x = v := by
  apply List.ext_getElem?
  intro j
  rw [List.getElem?_set]
  by_cases hij : i = j
  · subst hij
    rw [if_pos rfl, if_pos (lt_of_getElem_some h), h]
  · rw [if_neg hij]

theorem set_set_perm {α : Type} (v : List α) (i j : Nat) (x y : α) (hi : v[i]? = some x)
    (hj : v[j]? = some y) : ((v.set i y).set j x).Perm v := by
  classical
  have hil := lt_of_getElem_some hi
  have hjl := lt_of_getElem_some hj
  by_cases hij : i = j
  · subst hij
    rw [List.set_set, set_of_getElem_some hi]
  · have hxi : v[i] = x := by
      rw [List.getElem?_eq_getElem hil] at hi
      exact Option.some.inj hi
    have hjl2 : j < (v.set i y).length := by rw [List.length_set]; exact hjl
    have hyj : (v.set i y)[j] = y := by
      rw [List.getElem_set_ne hij]
      rw [List.getElem?_eq_getElem hjl] at hj
      exact Option.some.inj hj
    have hyj0 : v[j] = y := by
      rw [List.getElem?_eq_getElem hjl] at hj
      exact Option.some.inj hj
    rw [List.perm_iff_count]
    intro a
    rw [List.count_set _ _ _ _ hjl2, List.count_set _ _ _ _ hil,
      hyj, hxi]
    by_cases hxa : x = a
    · have hpos : 0 < List.count a v := by
        rw [List.count_pos_iff]
        rw [← hxa, ← hxi]
        exact List.getElem_mem _
      by_cases hya : y = a
      · simp [hxa, hya]; omega
      · simp [hxa, hya]; omega
    · by_cases hya : y = a
      · have hpos : 0 < List.count a v := by
          rw [List.count_pos_iff]
          rw [← hya, ← hyj0]
          exact List.getElem_mem _
        simp [hxa, hya]
      · simp [hxa, hya]

theorem hole_step {α : Type} (v : List α) (h j : Nat) (value y : α) (hh : h < v.length)
    (hj : v[j]? = some y) : ((v.set h y).set j value).Perm (v.set h value) := by
  by_cases hjh : j = h
  · subst hjh
    rw [List.set_set]
  · have h1 : (v.set h value)[h]? = some value := List.getElem?_set_self hh
    have h2 : (v.set h value)[j]? = some y := by
      rw [List.getElem?_set_ne (Ne.symm hjh)]
      exact hj
    have := set_set_perm (v.set h value) h j value y h1 h2
    rw [List.set_set] at this
    exact this

theorem length_iterMove {α : Type} (v : List α) (dst src : Nat) :
    (iterMove v dst src).length = v.length := by
  unfold iterMove
  split
  · rw [List.length_set]
  · rfl

theorem length_iterSwap {α : Type} (v : List α) (i j : Nat) :
    (iterSwap v i j).length = v.length := by
  unfold iterSwap
  split
  · rw [List.length_set, List.length_set]
  · rfl

theorem iterSwap_perm {α : Type} (v : List α) (i j : Nat) : (iterSwap v i j).Perm v := by
  unfold iterSwap
  split
  · next x y hx hy => exact set_set_perm v i j x y hx hy
  · exact List.Perm.refl _

theorem length_moveMedianToFirst {α : Type} (comp : α → α → Bool) (v : List α)
    (result a b c : Nat) : (moveMedianToFirst comp v result a b c).length = v.length := by
  unfold moveMedianToFirst
  repeat' split
  all_goals exact length_iterSwap _ _ _

theorem moveMedianToFirst_perm {α : Type} (comp : α → α → Bool) (v : List α)
    (result a b c : Nat) : (moveMedianToFirst comp v result a b c).Perm v := by
  unfold moveMedianToFirst
  repeat' split
  all_goals exact iterSwap_perm _ _ _

theorem scanUp_le {α : Type} (comp : α → α → Bool) (v : List α) (pivot : Nat) :
    ∀ (left first : Nat), scanUp comp v pivot left first ≤ first + left := by
  intro left
  induction left with
  | zero => intro first; simp [scanUp]
  | succ n ih =>
    intro first
    simp only [scanUp]
    split
    · have := ih (first + 1)
      omega
    · omega

theorem scanDown_le {α : Type} (comp : α → α → Bool) (v : List α) (pivot : Nat) :
    ∀ (last : Nat), scanDown comp v pivot last ≤ last := by
  intro last
  induction last with
  | zero => simp [scanDown]
  | succ n ih =>
    simp only [scanDown]
    split
    · omega
    · omega

theorem unguardedPartition_inv {α : Type} (comp : α → α → Bool) (pivot : Nat) :
    ∀ (turns : Nat) (v : List α) (first last : Nat), first ≤ v.length → last ≤ v.length →
      (unguardedPartition comp pivot turns v first last).1.Perm v ∧
      (unguardedPartition comp pivot turns v first last).1.length = v.length ∧
      (unguardedPartition comp pivot turns v first last).2 ≤ v.length := by
  intro turns
  induction turns with
  | zero =>
    intro v first last hf _
    simp only [unguardedPartition]
    refine ⟨List.Perm.refl _, by trivial, ?_⟩
    have := scanUp_le comp v pivot (v.length - first) first
    omega
  | succ n ih =>
    intro v first last hf hl
    simp only [unguardedPartition]
    have h1 := scanUp_le comp v pivot (v.length - first) first
    have h2 := scanDown_le comp v pivot (last - 1)
    split
    · next hlt =>
      have := ih (iterSwap v (scanUp comp v pivot (v.length - first) first)
        (scanDown comp v pivot (last - 1))) (scanUp comp v pivot (v.length - first) first + 1)
        (scanDown comp v pivot (last - 1)) (by rw [length_iterSwap]; omega)
        (by rw [length_iterSwap]; omega)
      rw [length_iterSwap] at this
      exact ⟨this.1.trans (iterSwap_perm _ _ _), this.2.1, this.2.2⟩
    · exact ⟨List.Perm.refl _, by trivial, by omega⟩

theorem unguardedPartitionPivot_inv {α : Type} (comp : α → α → Bool) (v : List α)
    (first last : Nat) (hf : first < last) (hl : last ≤ v.length) :
    (unguardedPartitionPivot comp v first last).1.Perm v ∧
    (unguardedPartitionPivot comp v first last).1.length = v.length ∧
    (unguardedPartitionPivot comp v first last).2 ≤ v.length := by
  unfold unguardedPartitionPivot
  have := unguardedPartition_inv comp first (last - (first + 1))
    (moveMedianToFirst comp v first (first + 1) (first + (last - first) / 2) (last - 1))
    (first + 1) last (by rw [length_moveMedianToFirst]; omega)
    (by rw [length_moveMedianToFirst]; omega)
  rw [length_moveMedianToFirst] at this
  exact ⟨this.1.trans (moveMedianToFirst_perm _ _ _ _ _ _), this.2.1, this.2.2⟩

theorem iterMove_of_getElem_some {α : Type} (v : List α) (dst src : Nat) (y : α)
    (h : v[src]? = some y) : iterMove v dst src = v.set dst y := by
  unfold iterMove
  rw [h]

theorem iterLtVal_some {α : Type} {comp : α → α → Bool} {v : List α} {i : Nat} {val : α}
    (h : iterLtVal comp v i val = true) : ∃ y, v[i]? = some y := by
  unfold iterLtVal at h
  cases hy : v[i]? with
  | none => rw [hy] at h; exact absurd h (by simp)
  | some y => exact ⟨y, rfl⟩

theorem pushHeap_inv {α : Type} (comp : α → α → Bool) (first : Nat) (orig : List α) :
    ∀ (turns : Nat) (v : List α) (hole top : Nat) (value : α),
      first + hole < v.length → (v.set (first + hole) value).Perm orig →
      (pushHeap comp first turns v hole top value).Perm orig := by
  intro turns
  induction turns with
  | zero => intro v hole top value _ hp; exact hp
  | succ n ih =>
    intro v hole top value hh hp
    simp only [pushHeap]
    split
    · next hc =>
      rw [Bool.and_eq_true] at hc
      obtain ⟨y, hy⟩ := iterLtVal_some hc.2
      rw [iterMove_of_getElem_some _ _ _ _ hy]
      apply ih
      · rw [List.length_set]; exact lt_of_getElem_some hy
      · exact (hole_step v (first + hole) (first + (hole - 1) / 2) value y hh hy).trans hp
    · exact hp

theorem adjustHeapLoop_inv {α : Type} (comp : α → α → Bool) (first len : Nat) (value : α)
    (orig : List α) :
    ∀ (turns : Nat) (v : List α) (hole sc : Nat), first + len ≤ v.length →
      first + hole < v.length → (v.set (first + hole) value).Perm orig →
      first + len ≤ (adjustHeapLoop comp first len turns v hole sc).1.length ∧
      first + (adjustHeapLoop comp first len turns v hole sc).2.1 <
        (adjustHeapLoop comp first len turns v hole sc).1.length ∧
      ((adjustHeapLoop comp first len turns v hole sc).1.set
        (first + (adjustHeapLoop comp first len turns v hole sc).2.1) value).Perm orig := by
  intro turns
  induction turns with
  | zero => intro v hole sc hl hh hp; exact ⟨hl, hh, hp⟩
  | succ n ih =>
    intro v hole sc hl hh hp
    simp only [adjustHeapLoop]
    split
    · next hc =>
      split
      · have hlt : first + (2 * (sc + 1) - 1) < v.length := by omega
        have hy : v[first + (2 * (sc + 1) - 1)]? = some v[first + (2 * (sc + 1) - 1)] :=
          List.getElem?_eq_getElem hlt
        rw [iterMove_of_getElem_some _ _ _ _ hy]
        apply ih
        · rw [List.length_set]; exact hl
        · rw [List.length_set]; exact hlt
        · exact (hole_step v (first + hole) _ value _ hh hy).trans hp
      · have hlt : first + (2 * (sc + 1)) < v.length := by omega
        have hy : v[first + (2 * (sc + 1))]? = some v[first + (2 * (sc + 1))] :=
          List.getElem?_eq_getElem hlt
        rw [iterMove_of_getElem_some _ _ _ _ hy]
        apply ih
        · rw [List.length_set]; exact hl
        · rw [List.length_set]; exact hlt
        · exact (hole_step v (first + hole) _ value _ hh hy).trans hp
    · exact ⟨hl, hh, hp⟩

theorem adjustHeap_inv {α : Type} (comp : α → α → Bool) (v : List α) (first hole len : Nat)
    (value : α) (orig : List α) (hlen : 0 < len) (hl : first + len ≤ v.length)
    (hh : first + hole < v.length) (hp : (v.set (first + hole) value).Perm orig) :
    (adjustHeap comp v first hole len value).Perm orig := by
  unfold adjustHeap
  obtain ⟨h1, h2, h3⟩ := adjustHeapLoop_inv comp first len value orig len v hole hole hl hh hp
  dsimp only
  split
  · next hc =>
    have hlt : first + (2 * ((adjustHeapLoop comp first len len v hole hole).2.2 + 1) - 1) <
        (adjustHeapLoop comp first len len v hole hole).1.length := by omega
    have hy := List.getElem?_eq_getElem hlt
    rw [iterMove_of_getElem_some _ _ _ _ hy]
    apply pushHeap_inv
    · rw [List.length_set]; exact hlt
    · exact (hole_step _ _ _ value _ h2 hy).trans h3
  · exact pushHeap_inv comp first orig _ _ _ _ _ h2 h3

theorem length_pushHeap {α : Type} (comp : α → α → Bool) (first : Nat) :
    ∀ (turns : Nat) (v : List α) (hole top : Nat) (value : α),
      (pushHeap comp first turns v hole top value).length = v.length := by
  intro turns
  induction turns with
  | zero => intro v hole top value; simp [pushHeap]
  | succ n ih =>
    intro v hole top value
    simp only [pushHeap]
    split
    · rw [ih, length_iterMove]
    · rw [List.length_set]

theorem length_adjustHeapLoop {α : Type} (comp : α → α → Bool) (first len : Nat) :
    ∀ (turns : Nat) (v : List α) (hole sc : Nat),
      (adjustHeapLoop comp first len turns v hole sc).1.length = v.length := by
  intro turns
  induction turns with
  | zero => intro v hole sc; rfl
  | succ n ih =>
    intro v hole sc
    simp only [adjustHeapLoop]
    split
    · rw [ih, length_iterMove]
    · rfl

theorem length_adjustHeap {α : Type} (comp : α → α → Bool) (v : List α) (first hole len : Nat)
    (value : α) : (adjustHeap comp v first hole len value).length = v.length := by
  unfold adjustHeap
  dsimp only
  split
  · rw [length_pushHeap, length_iterMove, length_adjustHeapLoop]
  · rw [length_pushHeap, length_adjustHeapLoop]

theorem length_popHeap {α : Type} (comp : α → α → Bool) (v : List α) (first last result : Nat) :
    (popHeap comp v first last result).length = v.length := by
  unfold popHeap
  split
  · rw [length_adjustHeap, length_iterMove]
  · rfl

theorem popHeap_perm {α : Type} (comp : α → α → Bool) (v : List α) (first last result : Nat)
    (hf : first < last) (hl : last ≤ v.length) :
    (popHeap comp v first last result).Perm v := by
  unfold popHeap
  split
  · next value hv =>
    have hfl : first < v.length := by omega
    have hy := List.getElem?_eq_getElem hfl
    rw [iterMove_of_getElem_some _ _ _ _ hy]
    apply adjustHeap_inv
    · omega
    · rw [List.length_set]; omega
    · rw [List.length_set]; omega
    · have := hole_step v result first value v[first] (lt_of_getElem_some hv) hy
      rw [set_of_getElem_some hv] at this
      exact this
  · exact List.Perm.refl _

theorem makeHeapLoop_inv {α : Type} (comp : α → α → Bool) (first len : Nat) (hlen : 0 < len) :
    ∀ (parent : Nat) (v : List α), first + len ≤ v.length →
      (makeHeapLoop comp first len parent v).Perm v ∧
      (makeHeapLoop comp first len parent v).length = v.length := by
  intro parent
  induction parent with
  | zero =>
    intro v hl
    simp only [makeHeapLoop]
    split
    · next value hv =>
      refine ⟨?_, length_adjustHeap _ _ _ _ _ _⟩
      apply adjustHeap_inv _ _ _ _ _ _ _ hlen hl (by omega)
      rw [Nat.add_zero, set_of_getElem_some hv]
    · exact ⟨List.Perm.refl _, rfl⟩
  | succ n ih =>
    intro v hl
    simp only [makeHeapLoop]
    split
    · next value hv =>
      have h := ih (adjustHeap comp v first (n + 1) len value)
        (by rw [length_adjustHeap]; exact hl)
      rw [length_adjustHeap] at h
      refine ⟨h.1.trans ?_, h.2⟩
      apply adjustHeap_inv _ _ _ _ _ _ _ hlen hl (lt_of_getElem_some hv)
      rw [set_of_getElem_some hv]
    · exact ⟨List.Perm.refl _, rfl⟩

theorem makeHeap_inv {α : Type} (comp : α → α → Bool) (v : List α) (first last : Nat)
    (hl : last ≤ v.length) :
    (makeHeap comp v first last).Perm v ∧ (makeHeap comp v first last).length = v.length := by
  unfold makeHeap
  split
  · exact ⟨List.Perm.refl _, rfl⟩
  · exact makeHeapLoop_inv comp first (last - first) (by omega) _ v (by omega)

theorem sortHeap_inv {α : Type} (comp : α → α → Bool) (first : Nat) :
    ∀ (n : Nat) (v : List α), first + n ≤ v.length →
      (sortHeap comp first n v).Perm v ∧ (sortHeap comp first n v).length = v.length := by
  intro n
  induction n with
  | zero => intro v _; exact ⟨List.Perm.refl _, rfl⟩
  | succ n ih =>
    intro v hl
    simp only [sortHeap]
    split
    · have h := ih (popHeap comp v first (first + n) (first + n))
        (by rw [length_popHeap]; omega)
      rw [length_popHeap] at h
      exact ⟨h.1.trans (popHeap_perm comp v first (first + n) (first + n) (by omega) (by omega)),
        h.2⟩
    · exact ⟨List.Perm.refl _, rfl⟩

theorem partialSort_inv {α : Type} (comp : α → α → Bool) (v : List α) (first last : Nat)
    (hl : last ≤ v.length) :
    (partialSort comp v first last last).Perm v ∧
    (partialSort comp v first last last).length = v.length := by
  unfold partialSort heapSelect
  rw [Nat.sub_self]
  simp only [heapSelectLoop]
  have h1 := makeHeap_inv comp v first last hl
  by_cases hfl : first ≤ last
  · have h2 := sortHeap_inv comp first (last - first) (makeHeap comp v first last)
      (by rw [h1.2]; omega)
    exact ⟨h2.1.trans h1.1, h2.2.trans h1.2⟩
  · have : last - first = 0 := by omega
    rw [this]
    simp only [sortHeap]
    exact h1

/-- The quicksort and heapsort part of `std::sort` rearranges the vector. -/
theorem introsortLoop_inv {α : Type} (comp : α → α → Bool) :
    ∀ (depth : Nat) (v : List α) (first last : Nat), last ≤ v.length →
      (introsortLoop comp depth v first last).Perm v ∧
      (introsortLoop comp depth v first last).length = v.length := by
  intro depth
  induction depth with
  | zero =>
    intro v first last hl
    simp only [introsortLoop]
    split
    · exact partialSort_inv comp v first last hl
    · exact ⟨List.Perm.refl _, rfl⟩
  | succ d ih =>
    intro v first last hl
    simp only [introsortLoop]
    split
    · next hgt =>
      obtain ⟨p1, p2, p3⟩ := unguardedPartitionPivot_inv comp v first last (by omega) hl
      have h1 := ih (unguardedPartitionPivot comp v first last).1
        (unguardedPartitionPivot comp v first last).2 last (by rw [p2]; exact hl)
      have h2 := ih (introsortLoop comp d (unguardedPartitionPivot comp v first last).1
        (unguardedPartitionPivot comp v first last).2 last) first
        (unguardedPartitionPivot comp v first last).2 (by rw [h1.2, p2]; exact p3)
      exact ⟨h2.1.trans (h1.1.trans p1), h2.2.trans (h1.2.trans p2)⟩
    · exact ⟨List.Perm.refl _, rfl⟩

theorem take_succ_of_lt {α : Type} (v : List α) (k : Nat) (h : k < v.length) :
    v.take (k + 1) = v.take k ++ [v[k]] := by
  rw [List.take_succ, List.getElem?_eq_getElem h]
  rfl

theorem set_eq_take_cons_drop {α : Type} (v : List α) (k : Nat) (x : α) (h : k < v.length) :
    v.set k x = v.take k ++ x :: v.drop (k + 1) := by
  rw [List.set_eq_take_append_cons_drop, if_pos h]

theorem valLt_of_lt {α : Type} (comp : α → α → Bool) (val : α) (v : List α) (j : Nat)
    (h : j < v.length) : valLt comp val v j = comp val v[j] := by
  unfold valLt
  rw [List.getElem?_eq_getElem h]

theorem unguardedLinearInsertLoop_eq {α : Type} (comp : α → α → Bool) (val : α) :
    ∀ (h : Nat) (v : List α), h < v.length →
      unguardedLinearInsertLoop comp val h v =
        (insertBackward comp val (v.take h).reverse).reverse ++ v.drop (h + 1) := by
  intro h
  induction h with
  | zero =>
    intro v hv
    cases v with
    | nil => exact absurd hv (by simp)
    | cons x t => simp [unguardedLinearInsertLoop, insertBackward]
  | succ k ih =>
    intro v hv
    have hk : k < v.length := by omega
    simp only [unguardedLinearInsertLoop]
    rw [valLt_of_lt comp val v k hk, take_succ_of_lt v k hk, List.reverse_append,
      List.reverse_singleton, List.singleton_append]
    simp only [insertBackward]
    split
    · rw [iterMove_of_getElem_some _ _ _ _ (List.getElem?_eq_getElem hk),
        ih _ (by rw [List.length_set]; exact hk),
        List.take_set_of_lt _ _ (by omega), List.reverse_cons, List.append_assoc]
      congr 1
      rw [set_eq_take_cons_drop v (k + 1) _ hv,
        List.drop_append_of_le_length (by rw [List.length_take]; omega)]
      rw [List.drop_of_length_le (by rw [List.length_take]; omega)]
      rfl
    · rw [set_eq_take_cons_drop v (k + 1) _ hv, take_succ_of_lt v k hk]
      simp

theorem insertBackward_perm {α : Type} (comp : α → α → Bool) (val : α) :
    ∀ rs : List α, (insertBackward comp val rs).Perm (val :: rs) := by
  intro rs
  induction rs with
  | nil => exact List.Perm.refl _
  | cons x rs ih =>
    simp only [insertBackward]
    split
    · exact (List.Perm.cons x ih).trans (List.Perm.swap val x rs)
    · exact List.Perm.refl _

theorem unguardedLinearInsert_eq {α : Type} (comp : α → α → Bool) (v : List α) (i : Nat)
    (h : i < v.length) :
    unguardedLinearInsert comp v i =
      (insertBackward comp v[i] (v.take i).reverse).reverse ++ v.drop (i + 1) := by
  unfold unguardedLinearInsert
  rw [List.getElem?_eq_getElem h]
  exact unguardedLinearInsertLoop_eq comp v[i] i v h

theorem unguardedLinearInsert_perm {α : Type} (comp : α → α → Bool) (v : List α) (i : Nat) :
    (unguardedLinearInsert comp v i).Perm v := by
  by_cases h : i < v.length
  · rw [unguardedLinearInsert_eq comp v i h]
    have h1 : ((insertBackward comp v[i] (v.take i).reverse).reverse).Perm (v.take i ++ [v[i]]) :=
      (List.reverse_perm _).trans ((insertBackward_perm comp v[i] _).trans
        ((List.Perm.cons _ (List.reverse_perm _)).trans
          (@List.perm_append_comm _ [v[i]] (v.take i))))
    have h2 : v.take i ++ [v[i]] ++ v.drop (i + 1) = v := by
      rw [← take_succ_of_lt v i h, List.take_append_drop]
    exact (List.Perm.append_right _ h1).trans (by rw [h2])
  · unfold unguardedLinearInsert
    rw [List.getElem?_eq_none (by omega)]

theorem length_unguardedLinearInsert {α : Type} (comp : α → α → Bool) (v : List α) (i : Nat) :
    (unguardedLinearInsert comp v i).length = v.length :=
  (unguardedLinearInsert_perm comp v i).length_eq

theorem moveToFirst_zero {α : Type} (v : List α) (i : Nat) (h : i < v.length) :
    moveToFirst v 0 i = v[i] :: (v.take i ++ v.drop (i + 1)) := by
  unfold moveToFirst
  rw [List.getElem?_eq_getElem h]
  simp

theorem moveToFirst_perm {α : Type} (v : List α) (first i : Nat) (hfi : first ≤ i) :
    (moveToFirst v first i).Perm v := by
  unfold moveToFirst
  cases hv : v[i]? with
  | none => exact List.Perm.refl _
  | some val =>
    have hi := lt_of_getElem_some hv
    have hval : v[i] = val := by
      rw [List.getElem?_eq_getElem hi] at hv
      exact Option.some.inj hv
    dsimp only
    have h1 : v = v.take first ++ ((v.take i).drop first ++ val :: v.drop (i + 1)) := by
      have ht : v.take first = (v.take i).take first := by
        rw [List.take_take, Nat.min_eq_left hfi]
      rw [← List.append_assoc, ht, List.take_append_drop, ← hval]
      have : v[i] :: v.drop (i + 1) = v.drop i := List.getElem_cons_drop v i hi
      rw [this, List.take_append_drop]
    conv_rhs => rw [h1]
    apply List.Perm.append_left
    exact (@List.perm_middle _ val ((v.take i).drop first) (v.drop (i + 1))).symm

theorem StrictWeak.asymm {α : Type} {comp : α → α → Bool} (h : StrictWeak comp) {a b : α}
    (hab : comp a b = true) : comp b a = false := by
  cases hba : comp b a
  · rfl
  · have := h.2.1 a b a hab hba
    rw [h.1 a] at this
    exact absurd this (by decide)

theorem insertBackward_pairwise {α : Type} (comp : α → α → Bool) (hsw : StrictWeak comp)
    (val : α) : ∀ rs : List α, rs.Pairwise (fun a b => comp a b = false) →
      (insertBackward comp val rs).Pairwise (fun a b => comp a b = false) := by
  intro rs
  induction rs with
  | nil => intro _; simp [insertBackward]
  | cons x rs ih =>
    intro hp
    rw [List.pairwise_cons] at hp
    simp only [insertBackward]
    split
    · next hc =>
      rw [List.pairwise_cons]
      refine ⟨?_, ih hp.2⟩
      intro z hz
      rw [(insertBackward_perm comp val rs).mem_iff, List.mem_cons] at hz
      rcases hz with hz | hz
      · rw [hz]; exact hsw.asymm hc
      · exact hp.1 z hz
    · next hc =>
      rw [List.pairwise_cons]
      refine ⟨?_, List.pairwise_cons.mpr hp⟩
      intro z hz
      rw [List.mem_cons] at hz
      rcases hz with hz | hz
      · rw [hz]; simpa using hc
      · exact hsw.2.2 val x z (by simpa using hc) (hp.1 z hz)

theorem length_insertBackward {α : Type} (comp : α → α → Bool) (val : α) (rs : List α) :
    (insertBackward comp val rs).length = rs.length + 1 := by
  rw [(insertBackward_perm comp val rs).length_eq, List.length_cons]

theorem unguardedLinearInsert_take {α : Type} (comp : α → α → Bool) (v : List α) (i : Nat)
    (h : i < v.length) :
    (unguardedLinearInsert comp v i).take (i + 1) =
      (insertBackward comp v[i] (v.take i).reverse).reverse := by
  rw [unguardedLinearInsert_eq comp v i h]
  apply List.take_left'
  rw [List.length_reverse, length_insertBackward, List.length_reverse, List.length_take]
  omega

theorem unguardedLinearInsert_sorted {α : Type} (comp : α → α → Bool) (hsw : StrictWeak comp)
    (v : List α) (i : Nat) (h : i < v.length)
    (hs : (v.take i).Pairwise (fun a b => comp b a = false)) :
    ((unguardedLinearInsert comp v i).take (i + 1)).Pairwise (fun a b => comp b a = false) := by
  rw [unguardedLinearInsert_take comp v i h, List.pairwise_reverse]
  apply insertBackward_pairwise comp hsw
  rw [List.pairwise_reverse]
  exact hs

theorem moveToFirst_sorted {α : Type} (comp : α → α → Bool) (hsw : StrictWeak comp)
    (v : List α) (i : Nat) (h : i < v.length) (hc : iterLt comp v i 0 = true)
    (hs : (v.take i).Pairwise (fun a b => comp b a = false)) :
    ((moveToFirst v 0 i).take (i + 1)).Pairwise (fun a b => comp b a = false) := by
  rw [moveToFirst_zero v i h, List.take_succ_cons,
    List.take_append_of_le_length (by rw [List.length_take]; omega),
    List.take_of_length_le (by rw [List.length_take]; omega), List.pairwise_cons]
  refine ⟨?_, hs⟩
  intro z hz
  cases v with
  | nil => exact absurd h (by simp)
  | cons x t =>
    cases i with
    | zero => simp at hz
    | succ j =>
      have hlt : comp (x :: t)[j + 1] x = true := by
        unfold iterLt at hc
        rw [List.getElem?_eq_getElem h] at hc
        simpa using hc
      rw [List.take_succ_cons, List.pairwise_cons] at hs
      rw [List.take_succ_cons, List.mem_cons] at hz
      cases hzc : comp z (x :: t)[j + 1]
      · rfl
      · have hzx := hsw.2.1 _ _ _ hzc hlt
        rcases hz with hz | hz
        · rw [hz, hsw.1 x] at hzx
          exact absurd hzx (by decide)
        · rw [hs.1 z hz] at hzx
          exact absurd hzx (by decide)

theorem insertionSortLoop_inv {α : Type} (comp : α → α → Bool) (hsw : StrictWeak comp) :
    ∀ (n i : Nat) (v : List α), i + n ≤ v.length →
      (v.take i).Pairwise (fun a b => comp b a = false) →
      (insertionSortLoop comp 0 n i v).Perm v ∧
      ((insertionSortLoop comp 0 n i v).take (i + n)).Pairwise (fun a b => comp b a = false) := by
  intro n
  induction n with
  | zero => intro i v _ hs; exact ⟨List.Perm.refl _, hs⟩
  | succ n ih =>
    intro i v hl hs
    simp only [insertionSortLoop]
    have hi : i < v.length := by omega
    split
    · next hc =>
      have hp := moveToFirst_perm v 0 i (Nat.zero_le i)
      have h := ih (i + 1) (moveToFirst v 0 i) (by rw [hp.length_eq]; omega)
        (moveToFirst_sorted comp hsw v i hi hc hs)
      exact ⟨h.1.trans hp, by rw [← Nat.add_assoc, Nat.add_right_comm]; exact h.2⟩
    · have hp := unguardedLinearInsert_perm comp v i
      have h := ih (i + 1) (unguardedLinearInsert comp v i) (by rw [hp.length_eq]; omega)
        (unguardedLinearInsert_sorted comp hsw v i hi hs)
      exact ⟨h.1.trans hp, by rw [← Nat.add_assoc, Nat.add_right_comm]; exact h.2⟩

theorem unguardedInsertionSort_inv {α : Type} (comp : α → α → Bool) (hsw : StrictWeak comp) :
    ∀ (n i : Nat) (v : List α), i + n ≤ v.length →
      (v.take i).Pairwise (fun a b => comp b a = false) →
      (unguardedInsertionSort comp n i v).Perm v ∧
      ((unguardedInsertionSort comp n i v).take (i + n)).Pairwise
        (fun a b => comp b a = false) := by
  intro n
  induction n with
  | zero => intro i v _ hs; exact ⟨List.Perm.refl _, hs⟩
  | succ n ih =>
    intro i v hl hs
    simp only [unguardedInsertionSort]
    have hi : i < v.length := by omega
    have hp := unguardedLinearInsert_perm comp v i
    have h := ih (i + 1) (unguardedLinearInsert comp v i) (by rw [hp.length_eq]; omega)
      (unguardedLinearInsert_sorted comp hsw v i hi hs)
    exact ⟨h.1.trans hp, by rw [← Nat.add_assoc, Nat.add_right_comm]; exact h.2⟩

theorem insertionSort_inv {α : Type} (comp : α → α → Bool) (hsw : StrictWeak comp)
    (v : List α) (last : Nat) (hl : last ≤ v.length) :
    (insertionSort comp v 0 last).Perm v ∧
    ((insertionSort comp v 0 last).take last).Pairwise (fun a b => comp b a = false) := by
  unfold insertionSort
  split
  · next h => rw [← h]; exact ⟨List.Perm.refl _, by simp⟩
  · next h =>
    have hs : (v.take (0 + 1)).Pairwise (fun a b => comp b a = false) := by
      cases v with
      | nil => simp
      | cons x t => simp
    have := insertionSortLoop_inv comp hsw (last - (0 + 1)) (0 + 1) v (by omega) hs
    have he : 0 + 1 + (last - (0 + 1)) = last := by omega
    rw [he] at this
    exact this

theorem finalInsertionSort_inv {α : Type} (comp : α → α → Bool) (hsw : StrictWeak comp)
    (v : List α) :
    (finalInsertionSort comp v 0 v.length).Perm v ∧
    (finalInsertionSort comp v 0 v.length).Pairwise (fun a b => comp b a = false) := by
  unfold finalInsertionSort
  split
  · next h =>
    have h1 := insertionSort_inv comp hsw v (0 + 16) (by omega)
    have h2 := unguardedInsertionSort_inv comp hsw (v.length - (0 + 16)) (0 + 16)
      (insertionSort comp v 0 (0 + 16)) (by rw [h1.1.length_eq]; omega) h1.2
    refine ⟨h2.1.trans h1.1, ?_⟩
    have h3 := h2.2
    rw [List.take_of_length_le (by rw [h2.1.length_eq, h1.1.length_eq]; omega)] at h3
    exact h3
  · have h1 := insertionSort_inv comp hsw v v.length (Nat.le_refl _)
    refine ⟨h1.1, ?_⟩
    have h3 := h1.2
    rw [List.take_of_length_le (by rw [h1.1.length_eq])] at h3
    exact h3

/-- The result of `std::sort` of libstdc++ is a rearrangement of the range. -/
theorem libstdcxxSortBy_perm {α : Type} (comp : α → α → Bool) (hsw : StrictWeak comp)
    (l : List α) : (libstdcxxSortBy comp l).Perm l := by
  unfold libstdcxxSortBy
  split
  · exact List.Perm.refl _
  · have h1 := introsortLoop_inv comp (lg l.length l.length * 2) l 0 l.length (Nat.le_refl _)
    have h2 := finalInsertionSort_inv comp hsw
      (introsortLoop comp (lg l.length l.length * 2) l 0 l.length)
    rw [h1.2] at h2
    exact h2.1.trans h1.1

/-- The result of `std::sort` of libstdc++ is ordered by `comp`: its last pass is an
insertion sort over the whole range. -/
theorem libstdcxxSortBy_sorted {α : Type} (comp : α → α → Bool) (hsw : StrictWeak comp)
    (l : List α) : (libstdcxxSortBy comp l).Pairwise (fun a b => comp b a = false) := by
  unfold libstdcxxSortBy
  split
  · next h =>
    rw [List.length_eq_zero] at h
    rw [h]
    exact List.Pairwise.nil
  · have h1 := introsortLoop_inv comp (lg l.length l.length * 2) l 0 l.length (Nat.le_refl _)
    have h2 := finalInsertionSort_inv comp hsw
      (introsortLoop comp (lg l.length l.length * 2) l 0 l.length)
    rw [h1.2] at h2
    exact h2.2


theorem iterLt_map {α β : Type} (f : α → β) (comp : β → β → Bool) (v : List α) (i j : Nat) :
    iterLt comp (v.map f) i j = iterLt (fun a b => comp (f a) (f b)) v i j := by
  unfold iterLt
  rw [List.getElem?_map, List.getElem?_map]
  cases v[i]? <;> cases v[j]? <;> rfl

theorem valLt_map {α β : Type} (f : α → β) (comp : β → β → Bool) (val : α) (v : List α) (j : Nat) :
    valLt comp (f val) (v.map f) j = valLt (fun a b => comp (f a) (f b)) val v j := by
  unfold valLt
  rw [List.getElem?_map]
  cases v[j]? <;> rfl

theorem iterLtVal_map {α β : Type} (f : α → β) (comp : β → β → Bool)
    (v : List α) (i : Nat) (val : α) :
    iterLtVal comp (v.map f) i (f val) = iterLtVal (fun a b => comp (f a) (f b)) v i val := by
  unfold iterLtVal
  rw [List.getElem?_map]
  cases v[i]? <;> rfl

theorem iterMove_map {α β : Type} (f : α → β) (v : List α) (dst src : Nat) :
    iterMove (v.map f) dst src = (iterMove v dst src).map f := by
  unfold iterMove
  rw [List.getElem?_map]
  cases v[src]? with
  | none => rfl
  | some x => exact List.map_set.symm

theorem iterSwap_map {α β : Type} (f : α → β) (v : List α) (i j : Nat) :
    iterSwap (v.map f) i j = (iterSwap v i j).map f := by
  unfold iterSwap
  rw [List.getElem?_map, List.getElem?_map]
  cases v[i]? with
  | none => rfl
  | some x =>
    cases v[j]? with
    | none => rfl
    | some y =>
      show ((v.map f).set i (f y)).set j (f x) = ((v.set i y).set j x).map f
      rw [List.map_set, List.map_set]

theorem moveMedianToFirst_map {α β : Type} (f : α → β) (comp : β → β → Bool)
    (v : List α) (result a b c : Nat) :
    moveMedianToFirst comp (v.map f) result a b c =
      (moveMedianToFirst (fun a b => comp (f a) (f b)) v result a b c).map f := by
  unfold moveMedianToFirst
  simp only [iterLt_map, iterSwap_map]
  repeat' split
  all_goals rfl

theorem scanUp_map {α β : Type} (f : α → β) (comp : β → β → Bool)
    (v : List α) (pivot : Nat) : ∀ (left first : Nat),
    scanUp comp (v.map f) pivot left first =
      scanUp (fun a b => comp (f a) (f b)) v pivot left first := by
  intro left
  induction left with
  | zero => intro first; rfl
  | succ n ih => intro first; simp only [scanUp, iterLt_map, ih]

theorem scanDown_map {α β : Type} (f : α → β) (comp : β → β → Bool)
    (v : List α) (pivot : Nat) : ∀ (last : Nat),
    scanDown comp (v.map f) pivot last =
      scanDown (fun a b => comp (f a) (f b)) v pivot last := by
  intro last
  induction last with
  | zero => rfl
  | succ n ih => simp only [scanDown, iterLt_map, ih]

theorem unguardedPartition_map {α β : Type} (f : α → β) (comp : β → β → Bool)
    (pivot : Nat) : ∀ (turns : Nat) (v : List α) (first last : Nat),
    unguardedPartition comp pivot turns (v.map f) first last =
      ((unguardedPartition (fun a b => comp (f a) (f b)) pivot turns v first last).1.map f,
       (unguardedPartition (fun a b => comp (f a) (f b)) pivot turns v first last).2) := by
  intro turns
  induction turns with
  | zero => intro v first last; simp only [unguardedPartition, scanUp_map, List.length_map]
  | succ n ih =>
    intro v first last
    simp only [unguardedPartition, scanUp_map, scanDown_map, List.length_map, iterSwap_map]
    split
    · rw [ih]
    · rfl

theorem unguardedPartitionPivot_map {α β : Type} (f : α → β) (comp : β → β → Bool)
    (v : List α) (first last : Nat) :
    unguardedPartitionPivot comp (v.map f) first last =
      ((unguardedPartitionPivot (fun a b => comp (f a) (f b)) v first last).1.map f,
       (unguardedPartitionPivot (fun a b => comp (f a) (f b)) v first last).2) := by
  unfold unguardedPartitionPivot
  simp only [moveMedianToFirst_map, unguardedPartition_map]

theorem pushHeap_map {α β : Type} (f : α → β) (comp : β → β → Bool)
    (first : Nat) : ∀ (turns : Nat) (v : List α) (hole top : Nat) (value : α),
    pushHeap comp first turns (v.map f) hole top (f value) =
      (pushHeap (fun a b => comp (f a) (f b)) first turns v hole top value).map f := by
  intro turns
  induction turns with
  | zero => intro v hole top value; simp only [pushHeap, List.map_set]
  | succ n ih =>
    intro v hole top value
    simp only [pushHeap, iterLtVal_map, iterMove_map, ih]
    split
    · rfl
    · exact List.map_set.symm

theorem adjustHeapLoop_map {α β : Type} (f : α → β) (comp : β → β → Bool)
    (first len : Nat) : ∀ (turns : Nat) (v : List α) (hole sc : Nat),
    adjustHeapLoop comp first len turns (v.map f) hole sc =
      ((adjustHeapLoop (fun a b => comp (f a) (f b)) first len turns v hole sc).1.map f,
       (adjustHeapLoop (fun a b => comp (f a) (f b)) first len turns v hole sc).2) := by
  intro turns
  induction turns with
  | zero => intro v hole sc; rfl
  | succ n ih =>
    intro v hole sc
    simp only [adjustHeapLoop, iterLt_map, iterMove_map, ih]
    split <;> rfl

theorem adjustHeap_map {α β : Type} (f : α → β) (comp : β → β → Bool)
    (v : List α) (first hole len : Nat) (value : α) :
    adjustHeap comp (v.map f) first hole len (f value) =
      (adjustHeap (fun a b => comp (f a) (f b)) v first hole len value).map f := by
  unfold adjustHeap
  simp only [adjustHeapLoop_map, iterMove_map, pushHeap_map]
  split <;> rfl

theorem popHeap_map {α β : Type} (f : α → β) (comp : β → β → Bool)
    (v : List α) (first last result : Nat) :
    popHeap comp (v.map f) first last result =
      (popHeap (fun a b => comp (f a) (f b)) v first last result).map f := by
  unfold popHeap
  rw [List.getElem?_map]
  cases v[result]? with
  | none => rfl
  | some value =>
    show adjustHeap comp (iterMove (v.map f) result first) first 0 (last - first) (f value) = _
    rw [iterMove_map, adjustHeap_map]

theorem makeHeapLoop_map {α β : Type} (f : α → β) (comp : β → β → Bool)
    (first len : Nat) : ∀ (parent : Nat) (v : List α),
    makeHeapLoop comp first len parent (v.map f) =
      (makeHeapLoop (fun a b => comp (f a) (f b)) first len parent v).map f := by
  intro parent
  induction parent with
  | zero =>
    intro v
    simp only [makeHeapLoop]
    rw [List.getElem?_map]
    cases v[first]? with
    | none => rfl
    | some value => exact adjustHeap_map f comp v first 0 len value
  | succ n ih =>
    intro v
    simp only [makeHeapLoop]
    rw [List.getElem?_map]
    cases v[first + (n + 1)]? with
    | none => rfl
    | some value =>
      show makeHeapLoop comp first len n (adjustHeap comp (v.map f) first (n + 1) len (f value)) = _
      rw [adjustHeap_map, ih]

theorem makeHeap_map {α β : Type} (f : α → β) (comp : β → β → Bool)
    (v : List α) (first last : Nat) :
    makeHeap comp (v.map f) first last =
      (makeHeap (fun a b => comp (f a) (f b)) v first last).map f := by
  unfold makeHeap
  split
  · rfl
  · exact makeHeapLoop_map f comp first _ _ v

theorem sortHeap_map {α β : Type} (f : α → β) (comp : β → β → Bool)
    (first : Nat) : ∀ (n : Nat) (v : List α),
    sortHeap comp first n (v.map f) =
      (sortHeap (fun a b => comp (f a) (f b)) first n v).map f := by
  intro n
  induction n with
  | zero => intro v; rfl
  | succ n ih =>
    intro v
    simp only [sortHeap, popHeap_map, ih]
    split <;> rfl

theorem heapSelectLoop_map {α β : Type} (f : α → β) (comp : β → β → Bool)
    (first middle : Nat) : ∀ (n i : Nat) (v : List α),
    heapSelectLoop comp first middle n i (v.map f) =
      (heapSelectLoop (fun a b => comp (f a) (f b)) first middle n i v).map f := by
  intro n
  induction n with
  | zero => intro i v; rfl
  | succ n ih =>
    intro i v
    simp only [heapSelectLoop, iterLt_map, popHeap_map]
    split
    · rw [ih]
    · rw [ih]

theorem partialSort_map {α β : Type} (f : α → β) (comp : β → β → Bool)
    (v : List α) (first middle last : Nat) :
    partialSort comp (v.map f) first middle last =
      (partialSort (fun a b => comp (f a) (f b)) v first middle last).map f := by
  unfold partialSort heapSelect
  rw [makeHeap_map, heapSelectLoop_map, sortHeap_map]

theorem introsortLoop_map {α β : Type} (f : α → β) (comp : β → β → Bool)
    : ∀ (depth : Nat) (v : List α) (first last : Nat),
    introsortLoop comp depth (v.map f) first last =
      (introsortLoop (fun a b => comp (f a) (f b)) depth v first last).map f := by
  intro depth
  induction depth with
  | zero =>
    intro v first last
    simp only [introsortLoop, partialSort_map]
    split <;> rfl
  | succ d ih =>
    intro v first last
    simp only [introsortLoop, unguardedPartitionPivot_map, ih]
    split <;> rfl

theorem unguardedLinearInsertLoop_map {α β : Type} (f : α → β) (comp : β → β → Bool)
    (val : α) : ∀ (h : Nat) (v : List α),
    unguardedLinearInsertLoop comp (f val) h (v.map f) =
      (unguardedLinearInsertLoop (fun a b => comp (f a) (f b)) val h v).map f := by
  intro h
  induction h with
  | zero => intro v; simp only [unguardedLinearInsertLoop, List.map_set]
  | succ n ih =>
    intro v
    simp only [unguardedLinearInsertLoop, valLt_map, iterMove_map, ih]
    split
    · rfl
    · exact List.map_set.symm

theorem unguardedLinearInsert_map {α β : Type} (f : α → β) (comp : β → β → Bool)
    (v : List α) (last : Nat) :
    unguardedLinearInsert comp (v.map f) last =
      (unguardedLinearInsert (fun a b => comp (f a) (f b)) v last).map f := by
  unfold unguardedLinearInsert
  rw [List.getElem?_map]
  cases v[last]? with
  | none => rfl
  | some val => exact unguardedLinearInsertLoop_map f comp val last v

theorem moveToFirst_map {α β : Type} (f : α → β) (v : List α) (first i : Nat) :
    moveToFirst (v.map f) first i = (moveToFirst v first i).map f := by
  unfold moveToFirst
  rw [List.getElem?_map]
  cases v[i]? with
  | none => rfl
  | some val => simp [List.map_take, List.map_drop]

theorem insertionSortLoop_map {α β : Type} (f : α → β) (comp : β → β → Bool)
    (first : Nat) : ∀ (n i : Nat) (v : List α),
    insertionSortLoop comp first n i (v.map f) =
      (insertionSortLoop (fun a b => comp (f a) (f b)) first n i v).map f := by
  intro n
  induction n with
  | zero => intro i v; rfl
  | succ n ih =>
    intro i v
    simp only [insertionSortLoop, iterLt_map, moveToFirst_map, unguardedLinearInsert_map]
    split
    · rw [ih]
    · rw [ih]

theorem insertionSort_map {α β : Type} (f : α → β) (comp : β → β → Bool)
    (v : List α) (first last : Nat) :
    insertionSort comp (v.map f) first last =
      (insertionSort (fun a b => comp (f a) (f b)) v first last).map f := by
  unfold insertionSort
  split
  · rfl
  · exact insertionSortLoop_map f comp first _ _ v

theorem unguardedInsertionSort_map {α β : Type} (f : α → β) (comp : β → β → Bool)
    : ∀ (n i : Nat) (v : List α),
    unguardedInsertionSort comp n i (v.map f) =
      (unguardedInsertionSort (fun a b => comp (f a) (f b)) n i v).map f := by
  intro n
  induction n with
  | zero => intro i v; rfl
  | succ n ih =>
    intro i v
    simp only [unguardedInsertionSort, unguardedLinearInsert_map, ih]

theorem finalInsertionSort_map {α β : Type} (f : α → β) (comp : β → β → Bool)
    (v : List α) (first last : Nat) :
    finalInsertionSort comp (v.map f) first last =
      (finalInsertionSort (fun a b => comp (f a) (f b)) v first last).map f := by
  unfold finalInsertionSort
  split
  · rw [insertionSort_map, unguardedInsertionSort_map]
  · exact insertionSort_map f comp v first last

/-- The template `std::sort` reads its elements through `comp` only: sorting the images
under `f` rearranges as sorting the originals by the images does. -/
theorem libstdcxxSortBy_map {α β : Type} (f : α → β) (comp : β → β → Bool) (l : List α) :
    libstdcxxSortBy comp (l.map f) =
      (libstdcxxSortBy (fun a b => comp (f a) (f b)) l).map f := by
  unfold libstdcxxSortBy
  rw [List.length_map]
  split
  · rfl
  · rw [introsortLoop_map, finalInsertionSort_map]



theorem insertBackward_filter {α : Type} (comp : α → α → Bool) (q : α → Bool)
    (hq : ∀ a b, q a = true → q b = true → comp a b = false)
    (val : α) : ∀ rs : List α,
      (insertBackward comp val rs).filter q = (val :: rs).filter q := by
  intro rs
  induction rs with
  | nil => rfl
  | cons x rs ih =>
    simp only [insertBackward]
    split
    · next hc =>
      rw [List.filter_cons, ih]
      cases hx : q x
      · simp [List.filter_cons, hx]
      · cases hv : q val
        · simp [List.filter_cons, hx, hv]
        · rw [hq val x hv hx] at hc
          exact absurd hc (by decide)
    · rfl

theorem unguardedLinearInsert_filter {α : Type} (comp : α → α → Bool) (q : α → Bool)
    (hq : ∀ a b, q a = true → q b = true → comp a b = false)
    (v : List α) (i : Nat) : (unguardedLinearInsert comp v i).filter q = v.filter q := by
  by_cases h : i < v.length
  · rw [unguardedLinearInsert_eq comp v i h, List.filter_append, List.filter_reverse,
      insertBackward_filter comp q hq, ← List.filter_reverse, List.reverse_cons,
      List.reverse_reverse, ← List.filter_append, List.append_assoc, List.singleton_append,
      List.getElem_cons_drop, List.take_append_drop]
  · unfold unguardedLinearInsert
    rw [List.getElem?_eq_none (by omega)]

theorem moveToFirst_filter {α : Type} (comp : α → α → Bool) (q : α → Bool) (hsw : StrictWeak comp)
    (hq : ∀ a b, q a = true → q b = true → comp a b = false)
    (v : List α) (i : Nat) (h : i < v.length) (hc : iterLt comp v i 0 = true)
    (hs : (v.take i).Pairwise (fun a b => comp b a = false)) :
    (moveToFirst v 0 i).filter q = v.filter q := by
  rw [moveToFirst_zero v i h]
  have key : v.filter q = (v.take i).filter q ++ (v[i] :: v.drop (i + 1)).filter q := by
    rw [← List.filter_append, List.getElem_cons_drop, List.take_append_drop]
  rw [key]
  cases hv : q v[i]
  · rw [List.filter_cons_of_neg (by rw [hv]; decide), List.filter_cons_of_neg (by rw [hv]; decide),
      List.filter_append]
  · have hnone : (v.take i).filter q = [] := by
      rw [List.filter_eq_nil_iff]
      intro x hx hqx
      cases v with
      | nil => exact absurd h (by simp)
      | cons y t =>
        cases i with
        | zero => simp at hx
        | succ j =>
          have hlt : comp (y :: t)[j + 1] y = true := by
            unfold iterLt at hc
            rw [List.getElem?_eq_getElem h] at hc
            simpa using hc
          rw [List.take_succ_cons, List.pairwise_cons] at hs
          rw [List.take_succ_cons, List.mem_cons] at hx
          have hvx := hq _ _ hv hqx
          rcases hx with hx | hx
          · rw [hx, hlt] at hvx
            exact absurd hvx (by decide)
          · have := hsw.2.2 _ _ _ hvx (hs.1 x hx)
            rw [hlt] at this
            exact absurd this (by decide)
    rw [List.filter_cons_of_pos hv, List.filter_cons_of_pos hv, List.filter_append, hnone,
      List.nil_append, List.nil_append]

theorem insertionSortLoop_filter {α : Type} (comp : α → α → Bool) (q : α → Bool)
    (hsw : StrictWeak comp)
    (hq : ∀ a b, q a = true → q b = true → comp a b = false) :
    ∀ (n i : Nat) (v : List α), i + n ≤ v.length →
      (v.take i).Pairwise (fun a b => comp b a = false) →
      (insertionSortLoop comp 0 n i v).filter q = v.filter q := by
  intro n
  induction n with
  | zero => intro i v _ _; rfl
  | succ n ih =>
    intro i v hl hs
    simp only [insertionSortLoop]
    have hi : i < v.length := by omega
    split
    · next hc =>
      have hp := moveToFirst_perm v 0 i (Nat.zero_le i)
      rw [ih (i + 1) (moveToFirst v 0 i) (by rw [hp.length_eq]; omega)
        (moveToFirst_sorted comp hsw v i hi hc hs)]
      exact moveToFirst_filter comp q hsw hq v i hi hc hs
    · have hp := unguardedLinearInsert_perm comp v i
      rw [ih (i + 1) (unguardedLinearInsert comp v i) (by rw [hp.length_eq]; omega)
        (unguardedLinearInsert_sorted comp hsw v i hi hs)]
      exact unguardedLinearInsert_filter comp q hq v i

theorem introsortLoop_short {α : Type} (comp : α → α → Bool) (depth : Nat) (v : List α)
    (first last : Nat) (h : last - first ≤ 16) : introsortLoop comp depth v first last = v := by
  cases depth with
  | zero => simp only [introsortLoop]; rw [if_neg (by omega)]
  | succ d => simp only [introsortLoop]; rw [if_neg (by omega)]

/-- On a range of at most 16 elements `std::sort` of libstdc++ is its insertion sort, which
keeps elements that `comp` does not order in their input order. -/
theorem libstdcxxSortBy_filter {α : Type} (comp : α → α → Bool) (q : α → Bool)
    (hsw : StrictWeak comp)
    (hq : ∀ a b, q a = true → q b = true → comp a b = false) (l : List α)
    (hl : l.length ≤ 16) : (libstdcxxSortBy comp l).filter q = l.filter q := by
  unfold libstdcxxSortBy
  split
  · rfl
  · next hne =>
    rw [introsortLoop_short comp _ l 0 l.length (by omega)]
    unfold finalInsertionSort
    rw [if_neg (by omega)]
    unfold insertionSort
    rw [if_neg (by omega)]
    apply insertionSortLoop_filter comp q hsw hq
    · omega
    · cases l with
      | nil => simp
      | cons x t => simp

/-! ### The bounds of the loops -/

/-- `lg` does not depend on its bound once the bound is at least `n`. -/
theorem lg_bound : ∀ (t1 t2 n : Nat), n ≤ t1 → n ≤ t2 → lg t1 n = lg t2 n := by
  intro t1
  induction t1 with
  | zero =>
    intro t2 n h1 _
    have hn : n = 0 := by omega
    subst hn
    cases t2 with
    | zero => rfl
    | succ t => simp [lg]
  | succ t ih =>
    intro t2 n h1 h2
    cases t2 with
    | zero =>
      have hn : n = 0 := by omega
      subst hn
      simp [lg]
    | succ s =>
      simp only [lg]
      split
      · rfl
      · rw [ih s (n / 2) (by omega) (by omega)]

theorem le_scanUp {α : Type} (comp : α → α → Bool) (v : List α) (pivot : Nat) :
    ∀ (left first : Nat), first ≤ scanUp comp v pivot left first := by
  intro left
  induction left with
  | zero => intro first; simp [scanUp]
  | succ n ih =>
    intro first
    simp only [scanUp]
    split
    · have := ih (first + 1)
      omega
    · omega

/-- `lg n` is the integer part of the binary logarithm of `n`. -/
theorem lg_eq_log : ∀ (t n : Nat), n ≤ t → lg t n = Nat.log 2 n := by
  intro t
  induction t with
  | zero =>
    intro n h
    have hn : n = 0 := by omega
    subst hn
    simp [lg]
  | succ t ih =>
    intro n h
    simp only [lg]
    split
    · next hlt => exact (Nat.log_of_lt hlt).symm
    · next hge =>
      rw [ih (n / 2) (by omega)]
      exact (Nat.log_of_one_lt_of_le (by decide) (by omega)).symm

/-- `unguardedPartition` does not depend on its bound once the bound is at least
`last - first`. -/
theorem unguardedPartition_bound {α : Type} (comp : α → α → Bool) (pivot : Nat) :
    ∀ (t1 t2 : Nat) (v : List α) (first last : Nat), last - first ≤ t1 → last - first ≤ t2 →
      unguardedPartition comp pivot t1 v first last
        = unguardedPartition comp pivot t2 v first last := by
  have hzero : ∀ (t : Nat) (v : List α) (first last : Nat), last ≤ first →
      unguardedPartition comp pivot t v first last
        = (v, scanUp comp v pivot (v.length - first) first) := by
    intro t v first last hle
    cases t with
    | zero => rfl
    | succ s =>
      simp only [unguardedPartition]
      have h1 := le_scanUp comp v pivot (v.length - first) first
      have h2 := scanDown_le comp v pivot (last - 1)
      rw [if_neg (by omega)]
  intro t1
  induction t1 with
  | zero =>
    intro t2 v first last h1 _
    rw [hzero 0 v first last (by omega), hzero t2 v first last (by omega)]
  | succ t ih =>
    intro t2 v first last h1 h2
    cases t2 with
    | zero => rw [hzero (t + 1) v first last (by omega), hzero 0 v first last (by omega)]
    | succ s =>
      simp only [unguardedPartition]
      have h3 := le_scanUp comp v pivot (v.length - first) first
      have h4 := scanDown_le comp v pivot (last - 1)
      split
      · exact ih s _ _ _ (by omega) (by omega)
      · rfl

/-- `pushHeap` does not depend on its bound once the bound is at least `holeIndex`. -/
theorem pushHeap_bound {α : Type} (comp : α → α → Bool) (first : Nat) :
    ∀ (t1 t2 : Nat) (v : List α) (hole top : Nat) (value : α), hole ≤ t1 → hole ≤ t2 →
      pushHeap comp first t1 v hole top value = pushHeap comp first t2 v hole top value := by
  have hzero : ∀ (t : Nat) (v : List α) (top : Nat) (value : α),
      pushHeap comp first t v 0 top value = v.set (first + 0) value := by
    intro t v top value
    cases t with
    | zero => rfl
    | succ s => simp [pushHeap]
  intro t1
  induction t1 with
  | zero =>
    intro t2 v hole top value h1 _
    have hh : hole = 0 := by omega
    subst hh
    rw [hzero, hzero]
  | succ t ih =>
    intro t2 v hole top value h1 h2
    cases t2 with
    | zero =>
      have hh : hole = 0 := by omega
      subst hh
      rw [hzero, hzero]
    | succ s =>
      simp only [pushHeap]
      split
      · next hc =>
        rw [Bool.and_eq_true, decide_eq_true_eq] at hc
        exact ih s _ _ _ _ (by omega) (by omega)
      · rfl

/-- The loop of `adjustHeap` does not depend on its bound once the bound is at least
`len - secondChild`. -/
theorem adjustHeapLoop_bound {α : Type} (comp : α → α → Bool) (first len : Nat) :
    ∀ (t1 t2 : Nat) (v : List α) (hole sc : Nat), len - sc ≤ t1 → len - sc ≤ t2 →
      adjustHeapLoop comp first len t1 v hole sc = adjustHeapLoop comp first len t2 v hole sc := by
  have hzero : ∀ (t : Nat) (v : List α) (hole sc : Nat), len ≤ sc →
      adjustHeapLoop comp first len t v hole sc = (v, hole, sc) := by
    intro t v hole sc hle
    cases t with
    | zero => rfl
    | succ s =>
      simp only [adjustHeapLoop]
      rw [if_neg (by omega)]
  intro t1
  induction t1 with
  | zero =>
    intro t2 v hole sc h1 _
    rw [hzero 0 v hole sc (by omega), hzero t2 v hole sc (by omega)]
  | succ t ih =>
    intro t2 v hole sc h1 h2
    cases t2 with
    | zero => rw [hzero (t + 1) v hole sc (by omega), hzero 0 v hole sc (by omega)]
    | succ s =>
      simp only [adjustHeapLoop]
      split
      · split
        · exact ih s _ _ _ (by omega) (by omega)
        · exact ih s _ _ _ (by omega) (by omega)
      · rfl

/-! ### The instance -/

/-- The `std::sort` of libstdc++ meets the contract of `std::sort`. -/
def libstdcxxSort : StdSort where
  sort := fun comp l => libstdcxxSortBy comp l
  perm := fun comp l h => libstdcxxSortBy_perm comp h l
  sorted := fun comp l h => libstdcxxSortBy_sorted comp h l

/-! ## Lemmas on the text of the file -/

theorem getlines_cons (c : Char) (cs : List Char) :
    getlines (c :: cs) =
      if c = '\n' then [] :: getlines cs
      else match getlines cs with
        | [] => [[c]]
        | l :: ls => (c :: l) :: ls := rfl

theorem searchFrom_cons (pat : List Char) (c : Char) (cs : List Char) (i : Nat) :
    searchFrom pat (c :: cs) i =
      if pat.isPrefixOf (c :: cs) then some i else searchFrom pat cs (i + 1) := rfl

theorem searchLastOf_cons (chars : List Char) (c : Char) (cs : List Char) (i : Nat) :
    searchLastOf chars (c :: cs) i =
      match searchLastOf chars cs (i + 1) with
      | some j => some j
      | none => if chars.contains c then some i else none := rfl

theorem isPrefixOf_cons_cons (a b : Char) (as bs : List Char) :
    List.isPrefixOf (a :: as) (b :: bs) = (a == b && List.isPrefixOf as bs) := rfl

theorem getlines_append_newline (l rest : List Char) (h : '\n' ∉ l) :
    getlines (l ++ '\n' :: rest) = l :: getlines rest := by
  induction l with
  | nil => rw [List.nil_append, getlines_cons, if_pos rfl]
  | cons c cs ih =>
    have hc : c ≠ '\n' := fun e => h (by simp [e])
    have hcs : '\n' ∉ cs := fun e => h (by simp [e])
    rw [List.cons_append, getlines_cons, if_neg hc, ih hcs]

theorem searchFrom_skip (q : Char) (pat u rest : List Char) (i : Nat) (h : q ∉ u) :
    searchFrom (q :: pat) (u ++ rest) i = searchFrom (q :: pat) rest (i + u.length) := by
  induction u generalizing i with
  | nil => simp
  | cons c cs ih =>
    have hc : (q == c) = false := by
      rw [beq_eq_false_iff_ne]; exact fun e => h (by simp [e])
    have hcs : q ∉ cs := fun e => h (by simp [e])
    rw [List.cons_append, searchFrom_cons, isPrefixOf_cons_cons, hc, Bool.false_and,
      if_neg (by decide), ih (i + 1) hcs, List.length_cons]
    congr 1
    omega

theorem isPrefixOf_quoted (q : Char) (body u rest : List Char) (hu : q ∉ u) (hb : q ∉ body) :
    List.isPrefixOf (body ++ [q]) (u ++ q :: rest) = true ↔ u = body := by
  induction body generalizing u with
  | nil =>
    cases u with
    | nil => simp
    | cons c cs =>
      have hc : q ≠ c := fun e => hu (by simp [e])
      simp [hc]
  | cons b bs ih =>
    have hb1 : q ≠ b := fun e => hb (by simp [e])
    have hbs : q ∉ bs := fun e => hb (by simp [e])
    cases u with
    | nil =>
      simp [hb1.symm]
    | cons c cs =>
      have hcs : q ∉ cs := fun e => hu (by simp [e])
      rw [List.cons_append, List.cons_append, isPrefixOf_cons_cons, Bool.and_eq_true,
        ih cs hcs hbs, beq_iff_eq, List.cons.injEq]
      constructor
      · rintro ⟨rfl, rfl⟩; exact ⟨rfl, rfl⟩
      · rintro ⟨rfl, rfl⟩; exact ⟨rfl, rfl⟩

theorem searchLastOf_append (chars a b : List Char) (i : Nat) :
    searchLastOf chars (a ++ b) i =
      match searchLastOf chars b (i + a.length) with
      | some j => some j
      | none => searchLastOf chars a i := by
  induction a generalizing i with
  | nil =>
    rw [List.nil_append, List.length_nil, Nat.add_zero]
    cases searchLastOf chars b i <;> rfl
  | cons c cs ih =>
    rw [List.cons_append, searchLastOf_cons, searchLastOf_cons, ih (i + 1), List.length_cons]
    have : i + 1 + cs.length = i + (cs.length + 1) := by omega
    rw [this]
    cases searchLastOf chars b (i + (cs.length + 1)) <;> rfl

theorem searchLastOf_none (chars u : List Char) (i : Nat)
    (h : ∀ c ∈ u, chars.contains c = false) : searchLastOf chars u i = none := by
  induction u generalizing i with
  | nil => rfl
  | cons c cs ih =>
    rw [searchLastOf_cons, ih (i + 1) (fun x hx => h x (by simp [hx])), h c (by simp)]
    rfl

theorem find_zero (s pat : List Char) :
    find s pat 0 = match searchFrom pat s 0 with
      | some i => i
      | none => npos := by
  unfold find
  rw [if_neg (Nat.not_lt_zero _)]
  rfl

theorem nil_isPrefixOf (l : List Char) : List.isPrefixOf [] l = true := by
  cases l <;> rfl

theorem cons_isPrefixOf_nil (a : Char) (as : List Char) :
    List.isPrefixOf (a :: as) [] = false := rfl

theorem find_description_key (rest : List Char) :
    find ("      \"description\": \"".toList ++ rest) "\"description\"".toList 0 = 6 := by
  rw [find_zero]
  simp [searchFrom_cons, isPrefixOf_cons_cons, nil_isPrefixOf]

theorem find_colon_quote_description (rest : List Char) :
    find ("      \"description\": \"".toList ++ rest) [':', ' ', '"'] 0 = 19 := by
  rw [find_zero]
  simp [searchFrom_cons, isPrefixOf_cons_cons, nil_isPrefixOf]

theorem find_last_of_quoted (pre d : List Char) :
    find_last_of (pre ++ d ++ "\",".toList) ['"'] = pre.length + d.length := by
  unfold find_last_of
  rw [List.append_assoc, searchLastOf_append, searchLastOf_append]
  simp [searchLastOf_cons, searchLastOf]

theorem quotedField_of (pre d : List Char)
    (hfind : find (pre ++ d ++ "\",".toList) [':', ' ', '"'] 0 + 3 = pre.length)
    (hpre : pre.length < sizeMod) (hd : d.length < sizeMod) :
    quotedField (pre ++ d ++ "\",".toList) = .ok d := by
  unfold quotedField
  simp only [hfind, find_last_of_quoted]
  rw [Nat.mod_eq_of_lt hpre]
  have hcount : (pre.length + d.length + sizeMod - pre.length) % sizeMod = d.length := by
    have : pre.length + d.length + sizeMod - pre.length = d.length + sizeMod := by omega
    rw [this, Nat.add_mod_right, Nat.mod_eq_of_lt hd]
  rw [hcount]
  unfold substr
  rw [if_neg (by simp)]
  rw [List.append_assoc, List.drop_left, List.take_left]

theorem loadLine_description (st : LoadState) (d : List Char) (hd : d.length < sizeMod) :
    loadLine st ("      \"description\": \"".toList ++ d ++ "\",".toList)
      = .ok { st with desc := d } := by
  have hq := quotedField_of "      \"description\": \"".toList d
    (by rw [List.append_assoc, find_colon_quote_description]; rfl) (by decide) hd
  unfold loadLine
  rw [List.append_assoc, find_description_key, if_pos (by decide), ← List.append_assoc, hq]

theorem loadLine_open (st : LoadState) : loadLine st "    \x7b".toList = .ok st := by
  rfl

theorem loadLine_close (st : LoadState) : loadLine st "    \x7d".toList = .ok st := by
  rfl

theorem loadLine_close_comma (st : LoadState) : loadLine st "    \x7d,".toList = .ok st := by
  rfl

theorem loadLine_isDone (st : LoadState) (b : Bool) :
    loadLine st ("      \"isDone\": ".toList ++ (if b then "true".toList else "false".toList))
      = .ok { st with tasks := st.tasks ++ [⟨st.desc, st.prio, st.due, b⟩] } := by
  cases b <;> rfl

theorem searchFrom_quoted_ne (q : Char) (body u rest : List Char) (i : Nat)
    (hu : q ∉ u) (hb : q ∉ body) (hne : u ≠ body) :
    searchFrom (q :: (body ++ [q])) (q :: (u ++ q :: rest)) i
      = searchFrom (q :: (body ++ [q])) (q :: rest) (i + 1 + u.length) := by
  have hp : List.isPrefixOf (body ++ [q]) (u ++ q :: rest) = false := by
    rw [Bool.eq_false_iff]
    intro h
    exact hne ((isPrefixOf_quoted q body u rest hu hb).mp h)
  rw [searchFrom_cons, isPrefixOf_cons_cons, hp, Bool.and_false, if_neg (by decide),
    searchFrom_skip q _ u _ _ hu]

theorem find_description_in_dueDate (u : List Char) (hu : '"' ∉ u)
    (hne : u ≠ "description".toList) :
    find ("      \"dueDate\": \"".toList ++ u ++ "\",".toList) "\"description\"".toList 0
      = npos := by
  rw [find_zero]
  have hpat : "\"description\"".toList = '"' :: ("description".toList ++ ['"']) := rfl
  have hline : "      \"dueDate\": \"".toList ++ u ++ "\",".toList
      = "      \"dueDate\": ".toList ++ '"' :: (u ++ '"' :: [',']) := by simp
  rw [hline]
  have hskip : ∀ rest : List Char,
      searchFrom "\"description\"".toList ("      \"dueDate\": ".toList ++ rest) 0
        = searchFrom "\"description\"".toList rest 17 := by
    intro rest
    simp [searchFrom_cons, isPrefixOf_cons_cons, nil_isPrefixOf]
  rw [hskip, hpat, searchFrom_quoted_ne '"' _ u _ _ hu (by decide) hne]
  simp [searchFrom_cons, isPrefixOf_cons_cons, nil_isPrefixOf, searchFrom]

theorem find_priority_in_dueDate (u : List Char) (hu : '"' ∉ u)
    (hne : u ≠ "priority".toList) :
    find ("      \"dueDate\": \"".toList ++ u ++ "\",".toList) "\"priority\"".toList 0
      = npos := by
  rw [find_zero]
  have hpat : "\"priority\"".toList = '"' :: ("priority".toList ++ ['"']) := rfl
  have hline : "      \"dueDate\": \"".toList ++ u ++ "\",".toList
      = "      \"dueDate\": ".toList ++ '"' :: (u ++ '"' :: [',']) := by simp
  rw [hline]
  have hskip : ∀ rest : List Char,
      searchFrom "\"priority\"".toList ("      \"dueDate\": ".toList ++ rest) 0
        = searchFrom "\"priority\"".toList rest 17 := by
    intro rest
    simp [searchFrom_cons, isPrefixOf_cons_cons, nil_isPrefixOf]
  rw [hskip, hpat, searchFrom_quoted_ne '"' _ u _ _ hu (by decide) hne]
  simp [searchFrom_cons, isPrefixOf_cons_cons, nil_isPrefixOf, searchFrom]

theorem find_dueDate_key (rest : List Char) :
    find ("      \"dueDate\": \"".toList ++ rest) "\"dueDate\"".toList 0 = 6 := by
  rw [find_zero]
  simp [searchFrom_cons, isPrefixOf_cons_cons, nil_isPrefixOf]

theorem find_colon_quote_dueDate (rest : List Char) :
    find ("      \"dueDate\": \"".toList ++ rest) [':', ' ', '"'] 0 = 15 := by
  rw [find_zero]
  simp [searchFrom_cons, isPrefixOf_cons_cons, nil_isPrefixOf]

theorem loadLine_dueDate (st : LoadState) (u : List Char) (hu : '"' ∉ u)
    (hlen : u.length < sizeMod) (hne1 : u ≠ "description".toList)
    (hne2 : u ≠ "priority".toList) :
    loadLine st ("      \"dueDate\": \"".toList ++ u ++ "\",".toList)
      = .ok { st with due := u } := by
  have hq := quotedField_of "      \"dueDate\": \"".toList u
    (by rw [List.append_assoc, find_colon_quote_dueDate]; rfl) (by decide) hlen
  unfold loadLine
  rw [find_description_in_dueDate u hu hne1, if_neg (by decide),
    find_priority_in_dueDate u hu hne2, if_neg (by decide), List.append_assoc,
    find_dueDate_key, if_pos (by decide), ← List.append_assoc, hq]

/-! ### Decimal numbers -/

theorem digit_props (d : Nat) (h : d < 10) :
    digitVal (Char.ofNat (48 + d)) = d ∧ (Char.ofNat (48 + d)).isDigit = true ∧
    Char.ofNat (48 + d) ≠ '"' ∧ Char.ofNat (48 + d) ≠ '\n' ∧ Char.ofNat (48 + d) ≠ '-' ∧
    Char.ofNat (48 + d) ≠ '+' ∧ isspace (Char.ofNat (48 + d)) = false := by
  interval_cases d <;> decide

theorem digitsVal_append (a : List Char) (c : Char) :
    digitsVal (a ++ [c]) = digitsVal a * 10 + digitVal c := by
  simp [digitsVal, List.foldl_append]

theorem natDigits_spec (fuel n : Nat) (h : n < fuel) :
    digitsVal (natDigits fuel n) = n ∧ natDigits fuel n ≠ [] ∧
    (natDigits fuel n).length ≤ fuel ∧
    ∀ c ∈ natDigits fuel n, c.isDigit = true ∧ c ≠ '"' ∧ c ≠ '\n' ∧ c ≠ '-' ∧ c ≠ '+' ∧
      isspace c = false := by
  induction fuel generalizing n with
  | zero => omega
  | succ f ih =>
    unfold natDigits
    by_cases hn : n < 10
    · rw [if_pos hn]
      have hp := digit_props n hn
      refine ⟨?_, by simp, by simp, ?_⟩
      · simp [digitsVal, hp.1]
      · intro c hc
        simp only [List.mem_singleton] at hc
        subst hc
        exact hp.2
    · rw [if_neg hn]
      have hlt : n / 10 < f := by omega
      obtain ⟨h1, h2, h3, h4⟩ := ih (n / 10) hlt
      have hp := digit_props (n % 10) (Nat.mod_lt _ (by decide))
      refine ⟨?_, by simp, ?_, ?_⟩
      · rw [digitsVal_append, h1, hp.1]; omega
      · simp; omega
      · intro c hc
        rw [List.mem_append] at hc
        rcases hc with hc | hc
        · exact h4 c hc
        · simp only [List.mem_singleton] at hc
          subst hc
          exact hp.2

theorem takeWhile_append_stop (p : Char → Bool) (a rest : List Char) (c : Char)
    (ha : ∀ x ∈ a, p x = true) (hc : p c = false) :
    (a ++ c :: rest).takeWhile p = a := by
  induction a with
  | nil => simp [List.takeWhile, hc]
  | cons x xs ih =>
    rw [List.cons_append, List.takeWhile_cons, ha x (by simp), if_pos rfl,
      ih (fun y hy => ha y (by simp [hy]))]

theorem stoi_digits (ds rest : List Char) (neg : Bool)
    (hne : ds ≠ [])
    (hds : ∀ c ∈ ds, c.isDigit = true ∧ c ≠ '"' ∧ c ≠ '\n' ∧ c ≠ '-' ∧ c ≠ '+' ∧
      isspace c = false) :
    stoi ((if neg then '-' :: ds else ds) ++ ',' :: rest)
      = (let v : Int := if neg then -(digitsVal ds : Int) else (digitsVal ds : Int)
         if v < -2147483648 ∨ 2147483647 < v then .error .out_of_range else .ok v) := by
  obtain ⟨c0, cs, rfl⟩ := List.exists_cons_of_ne_nil hne
  have h0 := hds c0 (by simp)
  have htw : ((c0 :: cs) ++ ',' :: rest).takeWhile Char.isDigit = c0 :: cs :=
    takeWhile_append_stop _ _ _ _ (fun x hx => (hds x hx).1) (by decide)
  cases neg with
  | true =>
    have hdw : (('-' :: c0 :: cs) ++ ',' :: rest).dropWhile isspace
        = ('-' :: c0 :: cs) ++ ',' :: rest := by
      rw [List.cons_append, List.dropWhile_cons_of_neg (by decide)]
    unfold stoi
    simp only [if_true, hdw]
    simp only [List.cons_append, List.head?_cons, true_or, if_true, List.tail_cons]
    rw [← List.cons_append, htw]
    simp
  | false =>
    have hdw : ((c0 :: cs) ++ ',' :: rest).dropWhile isspace = (c0 :: cs) ++ ',' :: rest := by
      rw [List.cons_append, List.dropWhile_cons_of_neg (by simp [h0.2.2.2.2.2])]
    unfold stoi
    simp only [Bool.false_eq_true, if_false, hdw]
    have hm : ¬ (c0 = '-') := h0.2.2.2.1
    have hp : ¬ (c0 = '+') := h0.2.2.2.2.1
    simp only [List.cons_append, List.head?_cons, Option.some.injEq, hm, hp, or_self, if_false]
    rw [← List.cons_append, htw]
    simp

theorem stoi_intToStr (p : Int) (rest : List Char)
    (h1 : -2147483648 ≤ p) (h2 : p ≤ 2147483647) :
    stoi (intToStr p ++ ',' :: rest) = .ok p := by
  obtain ⟨hv, hne, _, hds⟩ := natDigits_spec (p.natAbs + 1) p.natAbs (by omega)
  have hform : intToStr p
      = if (decide (p < 0)) then '-' :: natDigits (p.natAbs + 1) p.natAbs
        else natDigits (p.natAbs + 1) p.natAbs := by
    unfold intToStr
    by_cases hp : p < 0 <;> simp [hp]
  rw [hform, stoi_digits _ rest _ hne hds, hv]
  by_cases hp : p < 0
  · simp only [hp, decide_True, if_true]
    have : -(p.natAbs : Int) = p := by omega
    rw [this, if_neg (by omega)]
  · simp only [hp, decide_False, Bool.false_eq_true, if_false]
    have : (p.natAbs : Int) = p := by omega
    rw [this, if_neg (by omega)]

theorem intToStr_chars (p : Int) :
    (∀ c ∈ intToStr p, c ≠ '"' ∧ c ≠ '\n') ∧ (intToStr p).length ≤ p.natAbs + 2 := by
  obtain ⟨_, _, hlen, hds⟩ := natDigits_spec (p.natAbs + 1) p.natAbs (by omega)
  unfold intToStr
  by_cases hp : p < 0
  · rw [if_pos hp]
    refine ⟨?_, by simp; omega⟩
    intro c hc
    rw [List.mem_cons] at hc
    rcases hc with hc | hc
    · subst hc; decide
    · exact ⟨(hds c hc).2.1, (hds c hc).2.2.1⟩
  · rw [if_neg hp]
    refine ⟨?_, by omega⟩
    intro c hc
    exact ⟨(hds c hc).2.1, (hds c hc).2.2.1⟩

theorem find_description_in_priority (ds : List Char) (hds : '"' ∉ ds) :
    find ("      \"priority\": ".toList ++ ds ++ ",".toList) "\"description\"".toList 0
      = npos := by
  rw [find_zero]
  have hskip : ∀ rest : List Char,
      searchFrom "\"description\"".toList ("      \"priority\": ".toList ++ rest) 0
        = searchFrom "\"description\"".toList rest 18 := by
    intro rest
    simp [searchFrom_cons, isPrefixOf_cons_cons, nil_isPrefixOf]
  have hpat : "\"description\"".toList = '"' :: "description\"".toList := rfl
  rw [List.append_assoc, hskip, hpat, searchFrom_skip '"' _ ds _ _ hds]
  simp [searchFrom_cons, isPrefixOf_cons_cons, nil_isPrefixOf, searchFrom]

theorem find_priority_key (rest : List Char) :
    find ("      \"priority\": ".toList ++ rest) "\"priority\"".toList 0 = 6 := by
  rw [find_zero]
  simp [searchFrom_cons, isPrefixOf_cons_cons, nil_isPrefixOf]

theorem find_colon_priority (rest : List Char) :
    find ("      \"priority\": ".toList ++ rest) [':', ' '] 0 = 16 := by
  rw [find_zero]
  simp [searchFrom_cons, isPrefixOf_cons_cons, nil_isPrefixOf]

theorem loadLine_priority (st : LoadState) (p : Int)
    (h1 : -2147483648 ≤ p) (h2 : p ≤ 2147483647) :
    loadLine st ("      \"priority\": ".toList ++ intToStr p ++ ",".toList)
      = .ok { st with prio := p } := by
  have hc := intToStr_chars p
  have hq : '"' ∉ intToStr p := fun h => (hc.1 _ h).1 rfl
  have hsub : substr ("      \"priority\": ".toList ++ intToStr p ++ ",".toList) 18 npos
      = .ok (intToStr p ++ ",".toList) := by
    unfold substr
    rw [if_neg (by simp)]
    have hd : ("      \"priority\": ".toList ++ intToStr p ++ ",".toList).drop 18
        = intToStr p ++ ",".toList := by
      rw [List.append_assoc]
      exact List.drop_left' rfl
    rw [hd, List.take_of_length_le]
    have := hc.2
    simp only [List.length_append, npos]
    have h3 : ",".toList.length = 1 := rfl
    omega
  unfold loadLine
  rw [find_description_in_priority _ hq, if_neg (by decide), List.append_assoc,
    find_priority_key, if_pos (by decide), find_colon_priority]
  simp only []
  have hmod : (16 + 2) % sizeMod = 18 := by decide
  rw [hmod, ← List.append_assoc, hsub]
  simp only []
  have hst : stoi (intToStr p ++ ",".toList) = .ok p := stoi_intToStr p [] h1 h2
  rw [hst]

theorem split_first (q : Char) (l : List Char) (h : q ∈ l) :
    ∃ a b, l = a ++ q :: b ∧ q ∉ a := by
  induction l with
  | nil => simp at h
  | cons c cs ih =>
    by_cases hc : c = q
    · exact ⟨[], cs, by simp [hc], by simp⟩
    · have hm : q ∈ cs := by
        rcases List.mem_cons.mp h with h | h
        · exact absurd h.symm hc
        · exact h
      obtain ⟨a, b, hab, ha⟩ := ih hm
      refine ⟨c :: a, b, by simp [hab], ?_⟩
      intro hmem
      rcases List.mem_cons.mp hmem with h | h
      · exact hc h.symm
      · exact ha h

theorem find_at (a b pat : List Char) :
    find (a ++ b) pat a.length = match searchFrom pat b a.length with
      | some i => i
      | none => npos := by
  unfold find
  rw [if_neg (by simp)]
  simp only [List.drop_left]

theorem searchFrom_none_of_not_mem (q : Char) (pat u : List Char) (i : Nat) (h : q ∉ u) :
    searchFrom (q :: pat) u i = none := by
  have := searchFrom_skip q pat u [] i h
  rw [List.append_nil] at this
  rw [this]
  rfl

theorem escapeQuotes_of_not_mem (u : List Char) (h : '"' ∉ u) : escapeQuotes u = u := by
  induction u with
  | nil => rfl
  | cons c cs ih =>
    have hc : c ≠ '"' := fun e => h (by simp [e])
    have hcs : '"' ∉ cs := fun e => h (by simp [e])
    simp [escapeQuotes, hc, ih hcs]

theorem escapeQuotes_append (a b : List Char) :
    escapeQuotes (a ++ b) = escapeQuotes a ++ escapeQuotes b := by
  induction a with
  | nil => rfl
  | cons c cs ih =>
    by_cases hc : c = '"' <;> simp [escapeQuotes, hc, ih]

theorem length_escapeQuotes (u : List Char) :
    (escapeQuotes u).length = u.length + u.count '"' := by
  induction u with
  | nil => rfl
  | cons c cs ih =>
    by_cases hc : c = '"'
    · subst hc
      simp [escapeQuotes, ih]
      omega
    · have : (c == '"') = false := by simpa using hc
      simp [escapeQuotes, hc, ih, List.count_cons, this]
      omega

theorem escapeLoop_spec (fuel : Nat) (done todo : List Char)
    (hfuel : todo.count '"' < fuel)
    (hsize : done.length + todo.length + todo.count '"' < sizeMod) :
    escapeLoop fuel (done ++ todo) done.length = some (done ++ escapeQuotes todo) := by
  induction fuel generalizing done todo with
  | zero => omega
  | succ f ih =>
    unfold escapeLoop
    simp only []
    rw [find_at]
    by_cases hq : '"' ∈ todo
    · obtain ⟨a, b, hab, ha⟩ := split_first '"' todo hq
      subst hab
      have hcount : (a ++ '"' :: b).count '"' = b.count '"' + 1 := by
        rw [List.count_append, List.count_eq_zero_of_not_mem ha]
        simp
      have hs : searchFrom ['"'] (a ++ '"' :: b) done.length = some (done.length + a.length) := by
        rw [searchFrom_skip '"' [] a _ _ ha, searchFrom_cons]
        simp [isPrefixOf_cons_cons, nil_isPrefixOf]
      rw [hs]
      simp only []
      have hlen : (a ++ '"' :: b).length = a.length + b.length + 1 := by simp; omega
      rw [hcount, hlen] at hsize
      have hne : done.length + a.length ≠ npos := by
        unfold sizeMod at hsize; unfold npos; omega
      rw [if_pos hne]
      have hrep : replace (done ++ (a ++ '"' :: b)) (done.length + a.length) 1 ['\\', '"']
          = (done ++ a ++ ['\\', '"']) ++ b := by
        unfold replace
        have e1 : done ++ (a ++ '"' :: b) = (done ++ a) ++ '"' :: b := by simp
        have e2 : done.length + a.length = (done ++ a).length := by simp
        rw [e1, e2, List.take_left]
        have e3 : (done ++ a) ++ '"' :: b = ((done ++ a) ++ ['"']) ++ b := by simp
        have e4 : (done ++ a).length + 1 = ((done ++ a) ++ ['"']).length := by simp; omega
        rw [e3, e4, List.drop_left]
      have hpos : (done.length + a.length + 2) % sizeMod = (done ++ a ++ ['\\', '"']).length := by
        rw [Nat.mod_eq_of_lt (by omega)]
        simp; omega
      rw [hrep, hpos, ih (done ++ a ++ ['\\', '"']) b (by omega) (by simp; omega)]
      rw [escapeQuotes_append, escapeQuotes_of_not_mem a ha]
      simp [escapeQuotes]
    · rw [searchFrom_none_of_not_mem '"' [] todo _ hq]
      simp only []
      rw [if_neg (by simp), escapeQuotes_of_not_mem todo hq]

theorem escapeDesc_eq (d : List Char) (hsize : d.length + d.count '"' < sizeMod) :
    escapeDesc d = some (escapeQuotes d) := by
  have h := escapeLoop_spec (d.length + 1) [] d
    (Nat.lt_succ_of_le (List.count_le_length _ _)) (by simpa using hsize)
  simpa using h

theorem getlines_unlines_append (ls : List (List Char)) (rest : List Char)
    (h : ∀ l ∈ ls, '\n' ∉ l) :
    getlines (unlines ls ++ rest) = ls ++ getlines rest := by
  induction ls with
  | nil => rfl
  | cons l ls ih =>
    have e : unlines (l :: ls) ++ rest = l ++ '\n' :: (unlines ls ++ rest) := by
      simp [unlines]
    rw [e, getlines_append_newline l _ (h l (by simp)),
      ih (fun x hx => h x (by simp [hx]))]
    rfl

theorem loadLoop_cons_ok (st st1 : LoadState) (l : List Char) (rest : List (List Char))
    (h : loadLine st l = .ok st1) : loadLoop st (l :: rest) = loadLoop st1 rest := by
  rw [loadLoop, h]

theorem loadLoop_cons_error (st : LoadState) (l : List Char) (rest : List (List Char))
    (e : Exn) (h : loadLine st l = .error e) : loadLoop st (l :: rest) = .error e := by
  rw [loadLoop, h]

theorem loadLoop_append (st st1 : LoadState) (a b : List (List Char))
    (h : loadLoop st a = .ok st1) : loadLoop st (a ++ b) = loadLoop st1 b := by
  induction a generalizing st with
  | nil =>
    have : st = st1 := by simpa [loadLoop] using h
    rw [this]; rfl
  | cons l ls ih =>
    cases hl : loadLine st l with
    | ok st2 =>
      rw [loadLoop_cons_ok st st2 l ls hl] at h
      rw [List.cons_append, loadLoop_cons_ok st st2 l _ hl, ih st2 h]
    | error e =>
      rw [loadLoop_cons_error st l ls e hl] at h
      exact absurd h (by simp)

theorem saveTask_text (esc : List Char) (t : Task) (sep : List Char) :
    "    \x7b\n".toList
    ++ "      \"description\": \"".toList ++ esc ++ "\",\n".toList
    ++ "      \"priority\": ".toList ++ intToStr t.priority ++ ",\n".toList
    ++ "      \"dueDate\": \"".toList ++ t.dueDate ++ "\",\n".toList
    ++ "      \"isDone\": ".toList ++ (if t.isDone then "true".toList else "false".toList)
    ++ "\n".toList
    ++ "    \x7d".toList ++ sep
    ++ "\n".toList = unlines (taskLines esc t sep) := by
  simp only [taskLines, unlines, List.append_assoc]
  simp

theorem saveTask_eq (size i : Nat) (t : Task) :
    saveTask size i t = (escapeDesc t.description).map fun esc =>
      unlines (taskLines esc t (if i = (size + sizeMod - 1) % sizeMod then [] else ",".toList)) := by
  unfold saveTask
  simp only [saveTask_text]

theorem mem_escapeQuotes (c : Char) (u : List Char) (h : c ∈ escapeQuotes u) :
    c ∈ u ∨ c = '\\' ∨ c = '"' := by
  induction u with
  | nil => simp [escapeQuotes] at h
  | cons x xs ih =>
    unfold escapeQuotes at h
    by_cases hx : x = '"'
    · rw [if_pos hx] at h
      simp only [List.mem_cons] at h
      rcases h with h | h | h
      · exact Or.inr (Or.inl h)
      · exact Or.inr (Or.inr h)
      · rcases ih h with h | h
        · exact Or.inl (by simp [h])
        · exact Or.inr h
    · rw [if_neg hx] at h
      simp only [List.mem_cons] at h
      rcases h with h | h
      · exact Or.inl (by simp [h])
      · rcases ih h with h | h
        · exact Or.inl (by simp [h])
        · exact Or.inr h

theorem loadLoop_taskLines (st : LoadState) (t : Task) (sep : List Char)
    (hsep : sep = [] ∨ sep = ",".toList) (h : Readable t) :
    loadLoop st (taskLines (escapeQuotes t.description) t sep)
      = .ok ⟨escapeQuotes t.description, t.priority, t.dueDate,
          st.tasks ++ [⟨escapeQuotes t.description, t.priority, t.dueDate, t.isDone⟩]⟩ := by
  obtain ⟨_, hdl, huq, _, hul, hk1, hk2, hp1, hp2⟩ := h
  have hel : (escapeQuotes t.description).length < sizeMod := by
    rw [length_escapeQuotes]; exact hdl
  have hclose : ∀ s : LoadState, loadLine s ("    \x7d".toList ++ sep) = .ok s := by
    intro s
    rcases hsep with rfl | rfl
    · exact loadLine_close s
    · exact loadLine_close_comma s
  unfold taskLines
  rw [loadLoop_cons_ok _ _ _ _ (loadLine_open _),
    loadLoop_cons_ok _ _ _ _ (loadLine_description _ _ hel),
    loadLoop_cons_ok _ _ _ _ (loadLine_priority _ _ hp1 hp2),
    loadLoop_cons_ok _ _ _ _ (loadLine_dueDate _ _ huq hul hk1 hk2),
    loadLoop_cons_ok _ _ _ _ (loadLine_isDone _ _),
    loadLoop_cons_ok _ _ _ _ (hclose _)]
  rfl

theorem taskLines_no_newline (t : Task) (sep : List Char)
    (hsep : sep = [] ∨ sep = ",".toList) (h : Readable t) :
    ∀ l ∈ taskLines (escapeQuotes t.description) t sep, '\n' ∉ l := by
  obtain ⟨hdn, _, _, hun, _, _, _, _, _⟩ := h
  have he : '\n' ∉ escapeQuotes t.description := by
    intro hm
    rcases mem_escapeQuotes _ _ hm with h | h | h
    · exact hdn h
    · exact absurd h (by decide)
    · exact absurd h (by decide)
  have hi : '\n' ∉ intToStr t.priority := fun hm => ((intToStr_chars t.priority).1 _ hm).2 rfl
  intro l hl
  unfold taskLines at hl
  simp only [List.mem_cons, List.mem_singleton, List.not_mem_nil, or_false] at hl
  rcases hl with rfl | rfl | rfl | rfl | rfl | rfl
  · decide
  · simp [he]
  · simp [hi]
  · simp [hun]
  · cases t.isDone <;> decide
  · rcases hsep with rfl | rfl <;> decide

theorem load_saveLoop (size : Nat) (ts : List Task) (i : Nat) (st : LoadState)
    (rest : List Char) (h : ∀ t ∈ ts, Readable t) :
    ∃ body st1, saveLoop size i ts = some body ∧
      st1.tasks = st.tasks ++ ts.map reloaded ∧
      loadLoop st (getlines (body ++ rest)) = loadLoop st1 (getlines rest) := by
  induction ts generalizing i st with
  | nil => exact ⟨[], st, rfl, by simp, rfl⟩
  | cons t ts ih =>
    have ht : Readable t := h t (by simp)
    have hsep : (if i = (size + sizeMod - 1) % sizeMod then ([] : List Char) else ",".toList) = []
        ∨ (if i = (size + sizeMod - 1) % sizeMod then ([] : List Char) else ",".toList)
            = ",".toList := by
      by_cases hi : i = (size + sizeMod - 1) % sizeMod
      · left; rw [if_pos hi]
      · right; rw [if_neg hi]
    have hload := loadLoop_taskLines st t _ hsep ht
    have hnl := taskLines_no_newline t _ hsep ht
    obtain ⟨body, st1, hb, htasks, hloop⟩ := ih (i + 1)
      ⟨escapeQuotes t.description, t.priority, t.dueDate,
        st.tasks ++ [⟨escapeQuotes t.description, t.priority, t.dueDate, t.isDone⟩]⟩
      (fun x hx => h x (by simp [hx]))
    refine ⟨unlines (taskLines (escapeQuotes t.description) t
        (if i = (size + sizeMod - 1) % sizeMod then [] else ",".toList)) ++ body, st1, ?_, ?_, ?_⟩
    · rw [saveLoop, saveTask_eq, escapeDesc_eq _ ht.2.1, hb]
      rfl
    · rw [htasks]
      simp [reloaded]
    · rw [List.append_assoc, getlines_unlines_append _ _ hnl, loadLoop_append _ _ _ _ hload,
        hloop]

theorem saveTasksToFile_text (body : List Char) :
    "\x7b\n".toList ++ "  \"tasks\": [\n".toList ++ body ++ "  ]\n".toList ++ "\x7d\n".toList
      = unlines ["\x7b".toList, "  \"tasks\": [".toList]
          ++ (body ++ unlines ["  ]".toList, "\x7d".toList]) := by
  simp only [unlines, List.append_assoc]
  simp

theorem load_save (S old : List Task) (h : ∀ t ∈ S, Readable t) :
    ∃ text, saveTasksToFile S = some text ∧
      loadTasksFromFile (some text) old = .ok (S.map reloaded) := by
  obtain ⟨body, st1, hb, htasks, hloop⟩ :=
    load_saveLoop S.length S 0 ⟨[], 0, [], []⟩ (unlines ["  ]".toList, "\x7d".toList]) h
  refine ⟨"\x7b\n".toList ++ "  \"tasks\": [\n".toList ++ body ++ "  ]\n".toList
    ++ "\x7d\n".toList, ?_, ?_⟩
  · unfold saveTasksToFile
    rw [hb]
    rfl
  · unfold loadTasksFromFile
    simp only []
    rw [saveTasksToFile_text, getlines_unlines_append _ _ (by decide)]
    have h1 : loadLoop ⟨[], 0, [], []⟩ ["\x7b".toList, "  \"tasks\": [".toList]
        = .ok ⟨[], 0, [], []⟩ := by rfl
    rw [loadLoop_append _ _ _ _ h1, hloop]
    have h2 : loadLoop st1 (getlines (unlines ["  ]".toList, "\x7d".toList])) = .ok st1 := by
      rfl
    rw [h2]
    simp only []
    rw [htasks]
    rfl

/-! ## Lemmas on index resolution and the mutations -/

theorem strictWeak_byPriority_comap {α : Type} (f : α → Task) :
    StrictWeak (fun a b => byPriority (f a) (f b)) := by
  refine ⟨?_, ?_, ?_⟩
  · intro a; simp [byPriority]
  · intro a b c; simp only [byPriority, decide_eq_true_eq]; omega
  · intro a b c; simp only [byPriority, decide_eq_false_iff_not]; omega

theorem strictWeak_byPriority : StrictWeak byPriority :=
  strictWeak_byPriority_comap id

theorem mem_collectIndices (tasks : List Task) (p : Bool) (i : Fin tasks.length) :
    i ∈ collectIndices tasks p ↔ (tasks.get i).isDone = !p := by
  simp only [collectIndices, List.mem_filter, List.mem_finRange, true_and]
  cases (tasks.get i).isDone <;> cases p <;> simp

theorem map_get_collectIndices (tasks : List Task) (p : Bool) :
    (collectIndices tasks p).map tasks.get = tasks.filter (fun t => t.isDone == !p) := by
  have h := List.finRange_map_get tasks
  conv_rhs => rw [← h]
  rw [List.filter_map]
  unfold collectIndices
  congr 1
  apply List.filter_congr
  intro i _
  simp only [Function.comp]
  cases (tasks.get i).isDone <;> cases p <;> rfl

theorem sortedIndices_perm (S : StdSort) (tasks : List Task) (p : Bool) :
    (sortedIndices S tasks p).Perm (collectIndices tasks p) :=
  S.perm _ _ (strictWeak_byPriority_comap tasks.get)

theorem length_sortedIndices (S : StdSort) (tasks : List Task) (p : Bool) :
    (sortedIndices S tasks p).length = tasks.countP (fun t => t.isDone == !p) := by
  rw [(sortedIndices_perm S tasks p).length_eq, ← List.length_map (collectIndices tasks p) tasks.get,
    map_get_collectIndices, List.countP_eq_length_filter]

/-- Unfolding of `getOriginalIndex` on an index in range. -/
theorem getOriginalIndex_of_range (S : StdSort) (tasks : List Task) (i : Int) (p : Bool)
    (h : 0 < i ∧ i.toNat ≤ (sortedIndices S tasks p).length) :
    getOriginalIndex S tasks i p
      = (((sortedIndices S tasks p).get ⟨i.toNat - 1, by omega⟩ : Fin tasks.length) : Nat) := by
  unfold getOriginalIndex
  simp only
  rw [dif_pos (show i > 0 ∧ i.toNat ≤ (sortedIndices S tasks p).length from h)]

theorem getOriginalIndex_of_not_range (S : StdSort) (tasks : List Task) (i : Int) (p : Bool)
    (h : ¬ (0 < i ∧ i.toNat ≤ (sortedIndices S tasks p).length)) :
    getOriginalIndex S tasks i p = -1 := by
  unfold getOriginalIndex
  simp only
  rw [dif_neg (show ¬ (i > 0 ∧ i.toNat ≤ (sortedIndices S tasks p).length) from h)]

/-- The two outcomes of `getOriginalIndex`. -/
theorem getOriginalIndex_cases (S : StdSort) (tasks : List Task) (i : Int) (p : Bool) :
    (getOriginalIndex S tasks i p = -1 ∧
        (i ≤ 0 ∨ (tasks.countP (fun t => t.isDone == !p) : Int) < i)) ∨
    (∃ k : Fin tasks.length, getOriginalIndex S tasks i p = ((k : Nat) : Int) ∧
        1 ≤ i ∧ i ≤ (tasks.countP (fun t => t.isDone == !p) : Int) ∧
        (tasks.get k).isDone = !p ∧
        (sortedIndices S tasks p)[i.toNat - 1]? = some k) := by
  have hlen := length_sortedIndices S tasks p
  by_cases h : 0 < i ∧ i.toNat ≤ (sortedIndices S tasks p).length
  · right
    have hlt : i.toNat - 1 < (sortedIndices S tasks p).length := by omega
    refine ⟨(sortedIndices S tasks p).get ⟨i.toNat - 1, hlt⟩,
      getOriginalIndex_of_range S tasks i p h, by omega, by omega, ?_, ?_⟩
    · have hmem : (sortedIndices S tasks p).get ⟨i.toNat - 1, hlt⟩ ∈ collectIndices tasks p :=
        (sortedIndices_perm S tasks p).mem_iff.mp (List.get_mem _ _ _)
      exact (mem_collectIndices tasks p _).mp hmem
    · rw [List.getElem?_eq_getElem hlt]
      rfl
  · left
    refine ⟨getOriginalIndex_of_not_range S tasks i p h, ?_⟩
    omega

theorem listTasks_perm (S : StdSort) (tasks : List Task) (d : Bool) :
    (listTasks S tasks d).Perm (tasks.filter fun t => t.isDone == d) := by
  unfold listTasks
  simp only
  split
  · rename_i h
    rw [List.isEmpty_iff] at h
    rw [h]
  · exact S.perm byPriority _ strictWeak_byPriority

theorem listTasks_pairwise (S : StdSort) (tasks : List Task) (d : Bool) :
    (listTasks S tasks d).Pairwise (fun a b => a.priority ≥ b.priority) := by
  unfold listTasks
  simp only
  split
  · exact List.Pairwise.nil
  · refine (S.sorted byPriority _ strictWeak_byPriority).imp ?_
    intro a b h
    simp only [byPriority, decide_eq_false_iff_not] at h
    omega

theorem length_listTasks (S : StdSort) (tasks : List Task) (d : Bool) :
    (listTasks S tasks d).length = tasks.countP (fun t => t.isDone == d) := by
  rw [(listTasks_perm S tasks d).length_eq, List.countP_eq_length_filter]

theorem modify_eq_set_get {α : Type} (f : α → α) (l : List α) (k : Fin l.length) :
    List.modify f k l = l.set k (f (l.get k)) := by
  apply List.ext_getElem
  · simp
  · intro m h₁ h₂
    simp only [List.getElem_modify, List.getElem_set, List.get_eq_getElem]
    split
    · rename_i h; subst h; rfl
    · rfl

theorem set_get_self {α : Type} (l : List α) (k : Fin l.length) :
    l.set k (l.get k) = l := by
  apply List.ext_getElem
  · simp
  · intro m h₁ h₂
    simp only [List.getElem_set, List.get_eq_getElem]
    split
    · rename_i h; subst h; rfl
    · rfl

theorem pendingCount_eq (tasks : List Task) :
    pendingCount tasks = tasks.countP (fun t => t.isDone == !true) := by
  unfold pendingCount
  congr 1
  funext t
  cases t.isDone <;> rfl

/-- The effect of `markTaskDone` in terms of the outcome of the resolution. -/
theorem markTaskDone_eq (S : StdSort) (tasks : List Task) (i : Int) :
    (getOriginalIndex S tasks i true = -1 ∧ markTaskDone S tasks i = tasks) ∨
    (∃ k : Fin tasks.length, getOriginalIndex S tasks i true = ((k : Nat) : Int) ∧
      (tasks.get k).isDone = false ∧
      markTaskDone S tasks i = tasks.set k (tasks.get k).markDone) := by
  rcases getOriginalIndex_cases S tasks i true with ⟨h, _⟩ | ⟨k, hk, h1, h2, hd, _⟩
  · left
    refine ⟨h, ?_⟩
    unfold markTaskDone
    simp [h]
  · right
    refine ⟨k, hk, by simpa using hd, ?_⟩
    have hp : pendingCount tasks ≠ 0 := by
      rw [pendingCount_eq]; omega
    unfold markTaskDone
    simp only [hp, if_false, hk]
    rw [if_pos (by omega)]
    simp only [Int.toNat_ofNat]
    exact modify_eq_set_get _ _ _

theorem deleteTask_of_found (S : StdSort) (tasks : List Task) (i : Int)
    (k : Fin tasks.length)
    (h : (if getOriginalIndex S tasks i true = -1 then getOriginalIndex S tasks i false
          else getOriginalIndex S tasks i true) = ((k : Nat) : Int)) :
    deleteTask S tasks i = tasks.eraseIdx k := by
  have hne : tasks.isEmpty = false := by
    cases tasks with
    | nil => exact k.elim0
    | cons _ _ => rfl
  unfold deleteTask
  simp only [hne, Bool.false_eq_true, if_false, h]
  rw [if_pos (by omega)]
  simp

theorem deleteTask_of_not_found (S : StdSort) (tasks : List Task) (i : Int)
    (h1 : getOriginalIndex S tasks i true = -1) (h2 : getOriginalIndex S tasks i false = -1) :
    deleteTask S tasks i = tasks := by
  unfold deleteTask
  simp [h1, h2]

theorem readable_of_plain (t : Task) (hp : Plain t) (hk : DueDateNotKey t)
    (hr : Representable t) : Readable t := by
  obtain ⟨hdq, hdn, huq, hun⟩ := hp
  obtain ⟨hdl, hul, hp1, hp2⟩ := hr
  refine ⟨hdn, ?_, huq, hun, hul, hk.1, hk.2, hp1, hp2⟩
  rw [List.count_eq_zero_of_not_mem hdq]
  exact hdl

theorem reloaded_of_plain (t : Task) (hp : Plain t) : reloaded t = t := by
  unfold reloaded
  rw [escapeQuotes_of_not_mem _ hp.1]

theorem escapeQuotes_ne (d : List Char) (h : '"' ∈ d) : escapeQuotes d ≠ d := by
  intro he
  have hl := length_escapeQuotes d
  rw [he] at hl
  have := List.count_pos_iff.mpr h
  omega

/-! ## Lemmas on the two views -/

theorem eraseIdx_perm_of_getElem? {α : Type} (l : List α) (n : Nat) (x : α)
    (h : l[n]? = some x) : (x :: l.eraseIdx n).Perm l := by
  induction l generalizing n with
  | nil => simp at h
  | cons a as ih =>
    cases n with
    | zero =>
      have : a = x := by simpa using h
      subst this
      simp
    | succ m =>
      have h1 : as[m]? = some x := by simpa using h
      rw [List.eraseIdx_cons_succ]
      exact (List.Perm.swap a x _).trans ((ih m h1).cons a)

theorem filter_set_done (tasks : List Task) (k : Fin tasks.length)
    (hk : (tasks.get k).isDone = false) :
    (tasks.get k :: (tasks.set k (tasks.get k).markDone).filter (fun t => t.isDone == false)).Perm
      (tasks.filter (fun t => t.isDone == false)) := by
  have hsplit : tasks = tasks.take k ++ tasks.get k :: tasks.drop (k + 1) := by
    rw [List.get_eq_getElem, ← List.drop_eq_getElem_cons k.isLt, List.take_append_drop]
  have hset : tasks.set k (tasks.get k).markDone
      = tasks.take k ++ (tasks.get k).markDone :: tasks.drop (k + 1) := by
    rw [List.set_eq_take_append_cons_drop, if_pos k.isLt]
  rw [hset]
  conv_rhs => rw [hsplit]
  rw [List.filter_append, List.filter_append, List.filter_cons, List.filter_cons]
  have h1 : ((tasks.get k).markDone.isDone == false) = false := rfl
  have h2 : ((tasks.get k).isDone == false) = true := by rw [hk]; rfl
  rw [h1, h2]
  simp only [Bool.false_eq_true, if_false, if_true]
  exact List.perm_middle.symm

theorem eq_of_perm_of_pairwise_ge (l1 l2 : List Task) (hp : l1.Perm l2)
    (h1 : l1.Pairwise (fun a b => a.priority ≥ b.priority))
    (h2 : l2.Pairwise (fun a b => a.priority ≥ b.priority))
    (hnd : (l1.map Task.priority).Nodup) : l1 = l2 := by
  have hnd2 : (l2.map Task.priority).Nodup := (hp.map _).nodup_iff.mp hnd
  have hs1 : l1.Pairwise (fun a b => a.priority > b.priority) := by
    have hne := List.pairwise_map.mp hnd
    exact (h1.and hne).imp (fun ⟨hge, hne⟩ => by omega)
  have hs2 : l2.Pairwise (fun a b => a.priority > b.priority) := by
    have hne := List.pairwise_map.mp hnd2
    exact (h2.and hne).imp (fun ⟨hge, hne⟩ => by omega)
  haveI : IsAntisymm Task (fun a b => a.priority > b.priority) :=
    ⟨fun a b hab hba => by exfalso; omega⟩
  exact List.eq_of_perm_of_sorted hp hs1 hs2

theorem map_get_sortedIndices_perm (S : StdSort) (tasks : List Task) (p : Bool) :
    ((sortedIndices S tasks p).map tasks.get).Perm (listTasks S tasks (!p)) := by
  have h1 := (sortedIndices_perm S tasks p).map tasks.get
  rw [map_get_collectIndices] at h1
  exact h1.trans (listTasks_perm S tasks (!p)).symm

theorem sortedIndices_pairwise (S : StdSort) (tasks : List Task) (p : Bool) :
    (sortedIndices S tasks p).Pairwise
      (fun a b => (tasks.get a).priority ≥ (tasks.get b).priority) := by
  refine (S.sorted _ _ (strictWeak_byPriority_comap tasks.get)).imp ?_
  intro a b h
  simp only [byPriority, decide_eq_false_iff_not] at h
  omega

/-- Under every `std::sort` the index view and the `listTasks` view show the same
priorities position by position. -/
theorem map_priority_sortedIndices (S : StdSort) (tasks : List Task) (p : Bool) :
    ((sortedIndices S tasks p).map tasks.get).map Task.priority
      = (listTasks S tasks (!p)).map Task.priority := by
  haveI : IsAntisymm Int (fun a b => a ≥ b) := ⟨fun a b h1 h2 => by omega⟩
  refine @List.eq_of_perm_of_sorted Int (fun a b => a ≥ b) _ _ _
    ((map_get_sortedIndices_perm S tasks p).map _) ?_ ?_
  · exact List.pairwise_map.mpr (List.pairwise_map.mpr (sortedIndices_pairwise S tasks p))
  · exact List.pairwise_map.mpr (listTasks_pairwise S tasks (!p))

/-- Under every `std::sort` the index view lists the slots of the `listTasks` view in the
same order when no two records of the partition have the same priority. -/
theorem map_get_sortedIndices_of_nodup (S : StdSort) (tasks : List Task) (p : Bool)
    (hnd : ((tasks.filter fun t => t.isDone == !p).map Task.priority).Nodup) :
    (sortedIndices S tasks p).map tasks.get = listTasks S tasks (!p) := by
  have hp := map_get_sortedIndices_perm S tasks p
  apply eq_of_perm_of_pairwise_ge _ _ hp
    (List.pairwise_map.mpr (sortedIndices_pairwise S tasks p)) (listTasks_pairwise S tasks (!p))
  exact (((hp.trans (listTasks_perm S tasks (!p))).map Task.priority).nodup_iff).mpr hnd

/-- With the `std::sort` of libstdc++ the index view lists the slots of the `listTasks` view
in the same order, ties included: both calls run the one template on the same comparison
outcomes. -/
theorem map_get_sortedIndices_libstdcxx (tasks : List Task) (p : Bool) :
    (sortedIndices libstdcxxSort tasks p).map tasks.get = listTasks libstdcxxSort tasks (!p) := by
  unfold sortedIndices listTasks
  show (libstdcxxSortBy (fun a b => byPriority (tasks.get a) (tasks.get b))
    (collectIndices tasks p)).map tasks.get = _
  rw [← libstdcxxSortBy_map tasks.get byPriority, map_get_collectIndices]
  simp only
  split
  · rename_i h
    rw [List.isEmpty_iff] at h
    rw [h]
    rfl
  · rfl

theorem resolve_of_views_agree (S : StdSort) (tasks : List Task) (wantPending : Bool) (i : Int)
    (hagree : (sortedIndices S tasks wantPending).map tasks.get = listTasks S tasks (!wantPending))
    (h1 : 1 ≤ i) (h2 : i ≤ (tasks.countP (fun t => t.isDone == !wantPending) : Int)) :
    ∃ k : Fin tasks.length,
      getOriginalIndex S tasks i wantPending = ((k : Nat) : Int) ∧
      (tasks.get k).isDone = !wantPending ∧
      (listTasks S tasks (!wantPending))[i.toNat - 1]? = some (tasks.get k) := by
  rcases getOriginalIndex_cases S tasks i wantPending with ⟨_, h⟩ | ⟨k, hk, _, _, hd, hget⟩
  · omega
  · refine ⟨k, hk, hd, ?_⟩
    rw [← hagree, List.getElem?_map, hget]
    rfl

theorem resolve_priority (S : StdSort) (tasks : List Task) (wantPending : Bool) (i : Int)
    (h1 : 1 ≤ i) (h2 : i ≤ (tasks.countP (fun t => t.isDone == !wantPending) : Int)) :
    ∃ k : Fin tasks.length,
      getOriginalIndex S tasks i wantPending = ((k : Nat) : Int) ∧
      (tasks.get k).isDone = !wantPending ∧
      ((listTasks S tasks (!wantPending))[i.toNat - 1]?).map Task.priority
        = some (tasks.get k).priority ∧
      (((tasks.filter fun t => t.isDone == !wantPending).map Task.priority).Nodup →
        (listTasks S tasks (!wantPending))[i.toNat - 1]? = some (tasks.get k)) := by
  rcases getOriginalIndex_cases S tasks i wantPending with ⟨_, h⟩ | ⟨k, hk, _, _, hd, hget⟩
  · omega
  · refine ⟨k, hk, hd, ?_, ?_⟩
    · rw [← List.getElem?_map, ← map_priority_sortedIndices, List.getElem?_map,
        List.getElem?_map, hget]
      rfl
    · intro hnd
      rw [← map_get_sortedIndices_of_nodup S tasks wantPending hnd, List.getElem?_map, hget]
      rfl

theorem listTasks_libstdcxx_stable (tasks : List Task) (d : Bool) (p : Int)
    (hlen : (tasks.filter fun t => t.isDone == d).length ≤ 16) :
    (listTasks libstdcxxSort tasks d).filter (fun t => t.priority == p)
      = (tasks.filter fun t => t.isDone == d).filter (fun t => t.priority == p) := by
  unfold listTasks
  simp only
  split
  · rename_i h
    rw [List.isEmpty_iff] at h
    rw [h]
  · apply libstdcxxSortBy_filter byPriority _ strictWeak_byPriority _ _ hlen
    intro a b ha hb
    simp only [beq_iff_eq] at ha hb
    simp only [byPriority, decide_eq_false_iff_not]
    omega

theorem sortedIndices_libstdcxx_stable (tasks : List Task) (w : Bool) (p : Int)
    (hlen : (collectIndices tasks w).length ≤ 16) :
    (sortedIndices libstdcxxSort tasks w).filter (fun k => (tasks.get k).priority == p)
      = (collectIndices tasks w).filter (fun k => (tasks.get k).priority == p) := by
  unfold sortedIndices
  apply libstdcxxSortBy_filter _ _ (strictWeak_byPriority_comap tasks.get) _ _ hlen
  intro a b ha hb
  simp only [beq_iff_eq] at ha hb
  simp only [byPriority, decide_eq_false_iff_not]
  omega

theorem length_collectIndices (tasks : List Task) (w : Bool) :
    (collectIndices tasks w).length = (tasks.filter fun t => t.isDone == !w).length := by
  rw [← map_get_collectIndices, List.length_map]

theorem markTaskDone_of_resolved (S : StdSort) (tasks : List Task) (i : Int)
    (k : Fin tasks.length) (hk : getOriginalIndex S tasks i true = ((k : Nat) : Int)) :
    markTaskDone S tasks i = tasks.set k (tasks.get k).markDone := by
  rcases markTaskDone_eq S tasks i with ⟨h, _⟩ | ⟨k2, hk2, _, he⟩
  · omega
  · have : k2 = k := Fin.ext (by omega)
    subst this
    exact he

/-- The pending view after `markTaskDone` is a rearrangement of the view before without the
position that shows the completed record. -/
theorem pending_view_perm (S : StdSort) (tasks : List Task) (i : Int) (k : Fin tasks.length)
    (hk : getOriginalIndex S tasks i true = ((k : Nat) : Int))
    (hd : (tasks.get k).isDone = false)
    (hv : (listTasks S tasks false)[i.toNat - 1]? = some (tasks.get k)) :
    (listTasks S (markTaskDone S tasks i) false).Perm
      ((listTasks S tasks false).eraseIdx (i.toNat - 1)) := by
  have p1 := eraseIdx_perm_of_getElem? _ _ _ hv
  have p2 := listTasks_perm S tasks false
  have p3 := filter_set_done tasks k hd
  have p4 := listTasks_perm S (markTaskDone S tasks i) false
  rw [markTaskDone_of_resolved S tasks i k hk] at p4 ⊢
  have p5 : (tasks.get k :: (listTasks S tasks false).eraseIdx (i.toNat - 1)).Perm
      (tasks.get k :: (tasks.set k (tasks.get k).markDone).filter
        (fun t => t.isDone == false)) := (p1.trans p2).trans p3.symm
  exact p4.trans p5.cons_inv.symm

/-- Under every `std::sort` the pending view after `markTaskDone` shows the priorities of
the view before without position `i`, and the records of the view before without position
`i` when no two pending records have the same priority. -/
theorem pending_view_after_markTaskDone (S : StdSort) (tasks : List Task) (i : Int)
    (h1 : 1 ≤ i) (h2 : i ≤ (pendingCount tasks : Int)) :
    (listTasks S (markTaskDone S tasks i) false).map Task.priority
      = ((listTasks S tasks false).map Task.priority).eraseIdx (i.toNat - 1) ∧
    (((tasks.filter fun t => t.isDone == false).map Task.priority).Nodup →
      listTasks S (markTaskDone S tasks i) false
        = (listTasks S tasks false).eraseIdx (i.toNat - 1)) := by
  rw [pendingCount_eq] at h2
  obtain ⟨k, hk, hd, hprio, hrec⟩ := resolve_priority S tasks true i h1 h2
  have hd2 : (tasks.get k).isDone = false := by simpa using hd
  have hprio2 : ((listTasks S tasks false).map Task.priority)[i.toNat - 1]?
      = some (tasks.get k).priority := by
    rw [List.getElem?_map]
    simpa using hprio
  constructor
  · have p1 := eraseIdx_perm_of_getElem? _ _ _ hprio2
    have p2 := (listTasks_perm S tasks false).map Task.priority
    have p3 := (filter_set_done tasks k hd2).map Task.priority
    have p4 := (listTasks_perm S (markTaskDone S tasks i) false).map Task.priority
    rw [markTaskDone_of_resolved S tasks i k hk] at p4 ⊢
    rw [List.map_cons] at p3
    have p5 := ((p1.trans p2).trans p3.symm).cons_inv
    refine @List.eq_of_perm_of_sorted Int (fun a b => a ≥ b) ⟨fun a b h1 h2 => by omega⟩ _ _
      (p4.trans p5.symm) ?_ ?_
    · exact List.pairwise_map.mpr (listTasks_pairwise S _ false)
    · exact (List.pairwise_map.mpr (listTasks_pairwise S tasks false)).sublist
        (List.eraseIdx_sublist _ _)
  · intro hnd
    have hv : (listTasks S tasks false)[i.toNat - 1]? = some (tasks.get k) := by
      simpa using hrec (by simpa using hnd)
    have hperm := pending_view_perm S tasks i k hk hd2 hv
    apply eq_of_perm_of_pairwise_ge _ _ hperm (listTasks_pairwise S _ false)
    · exact (listTasks_pairwise S tasks false).sublist (List.eraseIdx_sublist _ _)
    · have hsub : ((listTasks S tasks false).eraseIdx (i.toNat - 1)).map Task.priority
          |>.Sublist ((listTasks S tasks false).map Task.priority) :=
        (List.eraseIdx_sublist _ _).map _
      have hnd1 : ((listTasks S tasks false).map Task.priority).Nodup :=
        ((listTasks_perm S tasks false).map _).nodup_iff.mpr hnd
      exact ((hperm.map Task.priority).nodup_iff).mpr (hnd1.sublist hsub)

theorem pending_not_resolved (S : StdSort) (tasks : List Task) (i : Int)
    (h1 : (pendingCount tasks : Int) < i) : getOriginalIndex S tasks i true = -1 := by
  rcases getOriginalIndex_cases S tasks i true with ⟨h, _⟩ | ⟨_, _, _, h, _, _⟩
  · exact h
  · rw [← pendingCount_eq] at h; omega

/-! ## The claims -/

set_option maxRecDepth 100000


/-- C1 (amended). Round trip of persistence: for every sequence `S` of records whose
description and due date hold no double quote and no line feed, whose due date is neither
`description` nor `priority`, and whose fields are values of the C++ types, the text that
`saveTasksToFile` writes for `S` is read by `loadTasksFromFile` as exactly `S`; the empty
sequence included. -/
theorem save_load_roundtrip (S old : List Task) (hplain : ∀ t ∈ S, Plain t)
    (hkey : ∀ t ∈ S, DueDateNotKey t) (hrep : ∀ t ∈ S, Representable t) :
    ∃ text, saveTasksToFile S = some text ∧ loadTasksFromFile (some text) old = .ok S := by
  obtain ⟨text, h1, h2⟩ := load_save S old
    (fun t ht => readable_of_plain t (hplain t ht) (hkey t ht) (hrep t ht))
  refine ⟨text, h1, ?_⟩
  rw [h2]
  congr 1
  have : ∀ l : List Task, (∀ t ∈ l, Plain t) → l.map reloaded = l := by
    intro l hl
    induction l with
    | nil => rfl
    | cons t ts ih =>
      rw [List.map_cons, reloaded_of_plain t (hl t (by simp)),
        ih (fun x hx => hl x (by simp [hx]))]
  exact this S hplain

/-- C1, an instance: the five records of `sampleStore` are read back as saved, and so is
the empty sequence. -/
theorem save_load_roundtrip_witness :
    (∃ text, saveTasksToFile sampleStore = some text ∧
      loadTasksFromFile (some text) [] = .ok sampleStore) ∧
    (∃ text, saveTasksToFile [] = some text ∧
      loadTasksFromFile (some text) sampleStore = .ok []) :=
  ⟨save_load_roundtrip sampleStore [] (by decide) (by decide) (by decide),
   save_load_roundtrip [] sampleStore (by decide) (by decide) (by decide)⟩

/-- C1 as stated fails: the record with description `a` and due date `description` holds
no double quote and no line feed, yet it is read back with description `description` and
an empty due date, because its due-date line contains the text `"description"`; likewise
the due date `priority` is lost and resets the priority to 1. -/
theorem roundtrip_fails_for_key_dueDate :
    loadTasksFromFile (saveTasksToFile keyStore) []
      = .ok [⟨"description".toList, 1, [], false⟩] ∧
    loadTasksFromFile (saveTasksToFile [⟨"a".toList, 3, "priority".toList, false⟩]) []
      = .ok [⟨"a".toList, 1, [], false⟩] ∧
    ¬ ∀ (S old : List Task), (∀ t ∈ S, Plain t) → (∀ t ∈ S, Representable t) →
        ∃ text, saveTasksToFile S = some text ∧
          loadTasksFromFile (some text) old = .ok S := by
  have heval : loadTasksFromFile (saveTasksToFile keyStore) []
      = .ok [⟨"description".toList, 1, [], false⟩] := by rfl
  refine ⟨heval, by rfl, ?_⟩
  intro h
  obtain ⟨text, h1, h2⟩ := h keyStore [] (by decide) (by decide)
  rw [h1, h2] at heval
  exact absurd (Except.ok.inj heval) (by decide)

/-- C2 (fails on the code). A description with double quotes does not round-trip: for every
record that is otherwise read back field by field, the description that `loadTasksFromFile`
reads from the text saved for it is the escaped description, backslashes included, which
differs from the original; so for the description `say "hi"`. -/
theorem quoted_description_not_restored :
    (∀ (t : Task) (old : List Task), '"' ∈ t.description → Readable t →
      ∃ text, saveTasksToFile [t] = some text ∧
        loadTasksFromFile (some text) old
          = .ok [⟨escapeQuotes t.description, t.priority, t.dueDate, t.isDone⟩] ∧
        escapeQuotes t.description ≠ t.description) ∧
    loadTasksFromFile (saveTasksToFile quotedStore) []
      = .ok [⟨"say \\\"hi\\\"".toList, 3, [], false⟩] := by
  refine ⟨?_, by rfl⟩
  intro t old hq hr
  obtain ⟨text, h1, h2⟩ := load_save [t] old (fun x hx => by
    rw [List.mem_singleton] at hx
    rw [hx]
    exact hr)
  exact ⟨text, h1, h2, escapeQuotes_ne _ hq⟩

/-- C3. The view displayed by `listTasks d` is a rearrangement of exactly the stored records
whose done flag is `d`, and it is ordered by non-increasing priority: along all pairs of
positions, and so along each pair of adjacent positions. -/
theorem listTasks_perm_and_sorted (S : StdSort) (tasks : List Task) (d : Bool) :
    (listTasks S tasks d).Perm (tasks.filter fun t => t.isDone == d) ∧
    (listTasks S tasks d).Pairwise (fun a b => a.priority ≥ b.priority) ∧
    (∀ (i : Nat) (h : i + 1 < (listTasks S tasks d).length),
      ((listTasks S tasks d).get ⟨i, by omega⟩).priority
        ≥ ((listTasks S tasks d).get ⟨i + 1, h⟩).priority) := by
  refine ⟨listTasks_perm S tasks d, listTasks_pairwise S tasks d, ?_⟩
  intro i h
  exact List.pairwise_iff_get.mp (listTasks_pairwise S tasks d) ⟨i, by omega⟩ ⟨i + 1, h⟩
    (by simp)

/-- C4 as stated fails: `std::sort` does not keep records of equal priority in storage
order. The 17 pending records of `seventeenTied`, all of priority 3, are stored as `t01` to
`t17`; the `std::sort` of libstdc++ partitions a range of more than 16 elements around a
pivot, and `listTasks` displays `t09` first and `t02` last, the index view of
`getOriginalIndex` listing the slots in the same order. -/
theorem ties_not_in_storage_order :
    (listTasks libstdcxxSort seventeenTied false).map Task.description
      = ["t09".toList, "t17".toList, "t16".toList, "t15".toList, "t14".toList, "t13".toList,
         "t12".toList, "t11".toList, "t10".toList, "t01".toList, "t08".toList, "t07".toList,
         "t06".toList, "t05".toList, "t04".toList, "t03".toList, "t02".toList] ∧
    (sortedIndices libstdcxxSort seventeenTied true).map Fin.val
      = [8, 16, 15, 14, 13, 12, 11, 10, 9, 0, 7, 6, 5, 4, 3, 2, 1] ∧
    ¬ ∀ (tasks : List Task) (d : Bool) (p : Int),
        (listTasks libstdcxxSort tasks d).filter (fun t => t.priority == p)
          = (tasks.filter fun t => t.isDone == d).filter (fun t => t.priority == p) ∧
        (sortedIndices libstdcxxSort tasks (!d)).filter (fun k => (tasks.get k).priority == p)
          = (collectIndices tasks (!d)).filter (fun k => (tasks.get k).priority == p) := by
  refine ⟨by decide, by decide, ?_⟩
  intro h
  have h1 := (h seventeenTied false 3).1
  revert h1
  decide

/-- C4 (amended). The views are stable on ties when the partition has at most 16 records.
Under every `std::sort`, any two entries of different priority stand with the higher
priority first, in the `listTasks` view and in the index view of `getOriginalIndex`. With
the `std::sort` of libstdc++ the index view lists the storage slots of the records of the
`listTasks` view in the same order, ties included; and when at most 16 records have the done
flag, the records of each priority stand in both views in storage order. -/
theorem display_views_agree (tasks : List Task) (d : Bool) :
    (∀ S : StdSort,
      (listTasks S tasks d).Pairwise
        (fun a b => a.priority ≠ b.priority → a.priority > b.priority) ∧
      (sortedIndices S tasks (!d)).Pairwise
        (fun a b => (tasks.get a).priority ≠ (tasks.get b).priority →
          (tasks.get a).priority > (tasks.get b).priority)) ∧
    (sortedIndices libstdcxxSort tasks (!d)).map tasks.get = listTasks libstdcxxSort tasks d ∧
    ((tasks.filter fun t => t.isDone == d).length ≤ 16 →
      ∀ p : Int,
        (listTasks libstdcxxSort tasks d).filter (fun t => t.priority == p)
          = (tasks.filter fun t => t.isDone == d).filter (fun t => t.priority == p) ∧
        (sortedIndices libstdcxxSort tasks (!d)).filter (fun k => (tasks.get k).priority == p)
          = (collectIndices tasks (!d)).filter (fun k => (tasks.get k).priority == p)) := by
  refine ⟨?_, ?_, ?_⟩
  · intro S
    refine ⟨(listTasks_pairwise S tasks d).imp ?_, (sortedIndices_pairwise S tasks (!d)).imp ?_⟩
    · intro a b hab hne
      omega
    · intro a b hab hne
      omega
  · rw [map_get_sortedIndices_libstdcxx, Bool.not_not]
  · intro hlen p
    refine ⟨listTasks_libstdcxx_stable tasks d p hlen,
      sortedIndices_libstdcxx_stable tasks (!d) p ?_⟩
    rw [length_collectIndices, Bool.not_not]
    exact hlen

/-- C4 (amended), an instance: the 16 pending records of `sixteenTied`, all of one priority,
are displayed in storage order, and the index view lists their slots in ascending order. -/
theorem display_views_agree_witness :
    ((listTasks libstdcxxSort sixteenTied false).filter (fun t => t.priority == 3)
        = (sixteenTied.filter fun t => t.isDone == false).filter (fun t => t.priority == 3) ∧
      (sortedIndices libstdcxxSort sixteenTied (!false)).filter
          (fun k => (sixteenTied.get k).priority == 3)
        = (collectIndices sixteenTied (!false)).filter
          (fun k => (sixteenTied.get k).priority == 3)) ∧
    listTasks libstdcxxSort sixteenTied false = sixteenTied ∧
    (sortedIndices libstdcxxSort sixteenTied true).map Fin.val
      = [0, 1, 2, 3, 4, 5, 6, 7, 8, 9, 10, 11, 12, 13, 14, 15] :=
  ⟨(display_views_agree sixteenTied false).2.2 (by decide) 3, by decide, by decide⟩

/-- C5. For a display index `i` between 1 and the number of records of the partition,
`getOriginalIndex i wantPending` is a storage index `k` whose record has done flag
`!wantPending` and is the record at position `i - 1` of the view of `listTasks (!wantPending)`:
so with the `std::sort` of libstdc++, which rearranges the index vector and the record vector
alike. Under every `std::sort` the record at `k` has the done flag and the priority shown at
position `i - 1`, and it is the record shown there when no two records of the partition have
the same priority. -/
theorem getOriginalIndex_agrees_with_listTasks (tasks : List Task)
    (wantPending : Bool) (i : Int) (h1 : 1 ≤ i)
    (h2 : i ≤ (tasks.countP (fun t => t.isDone == !wantPending) : Int)) :
    (∃ k : Fin tasks.length,
      getOriginalIndex libstdcxxSort tasks i wantPending = ((k : Nat) : Int) ∧
      (tasks.get k).isDone = !wantPending ∧
      (listTasks libstdcxxSort tasks (!wantPending))[i.toNat - 1]? = some (tasks.get k)) ∧
    (∀ S : StdSort, ∃ k : Fin tasks.length,
      getOriginalIndex S tasks i wantPending = ((k : Nat) : Int) ∧
      (tasks.get k).isDone = !wantPending ∧
      ((listTasks S tasks (!wantPending))[i.toNat - 1]?).map Task.priority
        = some (tasks.get k).priority ∧
      (((tasks.filter fun t => t.isDone == !wantPending).map Task.priority).Nodup →
        (listTasks S tasks (!wantPending))[i.toNat - 1]? = some (tasks.get k))) :=
  ⟨resolve_of_views_agree libstdcxxSort tasks wantPending i
      (map_get_sortedIndices_libstdcxx tasks wantPending) h1 h2,
   fun S => resolve_priority S tasks wantPending i h1 h2⟩

/-- C5, an instance: display index 9 of the 17 pending records of `seventeenTied`, all of
one priority, resolves to slot 9, the record `t10` that `listTasks` shows as `Task #9`. -/
theorem getOriginalIndex_agrees_with_listTasks_witness :
    (∃ k : Fin seventeenTied.length,
      getOriginalIndex libstdcxxSort seventeenTied 9 true = ((k : Nat) : Int) ∧
      (seventeenTied.get k).isDone = !true ∧
      (listTasks libstdcxxSort seventeenTied (!true))[(9 : Int).toNat - 1]?
        = some (seventeenTied.get k)) ∧
    getOriginalIndex libstdcxxSort seventeenTied 9 true = 9 ∧
    (listTasks libstdcxxSort seventeenTied false)[8]? = some ⟨"t10".toList, 3, [], false⟩ :=
  ⟨(getOriginalIndex_agrees_with_listTasks seventeenTied true 9 (by decide) (by decide)).1,
   by decide, by decide⟩

/-- C6. The result of `getOriginalIndex` is `-1` exactly when `i <= 0` or `i` exceeds the
number of records of the partition; any other result is an index into `tasks`. -/
theorem getOriginalIndex_not_found_iff (S : StdSort) (tasks : List Task)
    (wantPending : Bool) (i : Int) :
    (getOriginalIndex S tasks i wantPending = -1 ↔
      (i ≤ 0 ∨ (tasks.countP (fun t => t.isDone == !wantPending) : Int) < i)) ∧
    (getOriginalIndex S tasks i wantPending = -1 ∨
      (0 ≤ getOriginalIndex S tasks i wantPending ∧
        getOriginalIndex S tasks i wantPending < (tasks.length : Int))) := by
  rcases getOriginalIndex_cases S tasks i wantPending with ⟨h, hr⟩ | ⟨k, hk, h1, h2, _, _⟩
  · exact ⟨⟨fun _ => hr, fun _ => h⟩, Or.inl h⟩
  · have hk2 := k.isLt
    refine ⟨⟨fun h => ?_, fun h => ?_⟩, Or.inr ⟨?_, ?_⟩⟩ <;> omega

/-- C7. `markTaskDone`: the length is kept; if `i` does not resolve in the pending partition
the sequence is unchanged; if it resolves to slot `k`, that slot was pending and the
result is the old sequence with only the done flag of slot `k` set to true; a record that
is already completed is left as it is, whatever `i`. -/
theorem markTaskDone_frame (S : StdSort) (tasks : List Task) (i : Int) :
    (markTaskDone S tasks i).length = tasks.length ∧
    (getOriginalIndex S tasks i true = -1 → markTaskDone S tasks i = tasks) ∧
    (∀ k : Fin tasks.length, getOriginalIndex S tasks i true = ((k : Nat) : Int) →
      (tasks.get k).isDone = false ∧
      markTaskDone S tasks i = tasks.set k
        ⟨(tasks.get k).description, (tasks.get k).priority, (tasks.get k).dueDate, true⟩) ∧
    (∀ (j : Nat) (t : Task), tasks[j]? = some t → t.isDone = true →
      (markTaskDone S tasks i)[j]? = some t) := by
  rcases markTaskDone_eq S tasks i with ⟨h, he⟩ | ⟨k, hk, hd, he⟩
  · refine ⟨by rw [he], fun _ => he, ?_, ?_⟩
    · intro k hk
      have := k.isLt
      omega
    · intro j t hj _
      rw [he]; exact hj
  · refine ⟨by rw [he]; simp, ?_, ?_, ?_⟩
    · intro h; omega
    · intro k2 hk2
      have hkk : k2 = k := Fin.ext (by omega)
      subst hkk
      exact ⟨hd, he⟩
    · intro j t hj ht
      rw [he, List.getElem?_set]
      split
      · rename_i hjk
        have : tasks[(k : Nat)]? = some (tasks.get k) := by
          rw [List.getElem?_eq_getElem k.isLt]; rfl
        rw [← hjk] at hj
        rw [hj] at this
        have : t = tasks.get k := by simpa using this
        rw [this] at ht
        rw [hd] at ht
        exact absurd ht (by decide)
      · exact hj

/-- C8. `editTask`: if `i` does not resolve in the pending partition the sequence is
unchanged; if it resolves to slot `k`, that slot was pending and the result is the old
sequence with, in slot `k` only, the description replaced by `d` when `d` is not empty and
the priority replaced by `p` when `1 <= p <= 5`; a completed record is left as it is. -/
theorem editTask_effect (S : StdSort) (tasks : List Task) (i : Int) (d : List Char)
    (p : Int) :
    (getOriginalIndex S tasks i true = -1 → editTask S tasks i d p = tasks) ∧
    (∀ k : Fin tasks.length, getOriginalIndex S tasks i true = ((k : Nat) : Int) →
      (tasks.get k).isDone = false ∧
      editTask S tasks i d p = tasks.set k
        ⟨if d = [] then (tasks.get k).description else d,
         if 1 ≤ p ∧ p ≤ 5 then p else (tasks.get k).priority,
         (tasks.get k).dueDate, (tasks.get k).isDone⟩) ∧
    (∀ (j : Nat) (t : Task), tasks[j]? = some t → t.isDone = true →
      (editTask S tasks i d p)[j]? = some t) := by
  rcases getOriginalIndex_cases S tasks i true with ⟨h, _⟩ | ⟨k, hk, h1, h2, hd, _⟩
  · have he : editTask S tasks i d p = tasks := by
      unfold editTask
      simp [h]
    refine ⟨fun _ => he, ?_, ?_⟩
    · intro k hk
      have := k.isLt
      omega
    · intro j t hj _
      rw [he]; exact hj
  · have hd' : (tasks.get k).isDone = false := by simpa using hd
    have hp : pendingCount tasks ≠ 0 := by
      rw [pendingCount_eq]; omega
    have he : editTask S tasks i d p = tasks.set k
        ⟨if d = [] then (tasks.get k).description else d,
         if 1 ≤ p ∧ p ≤ 5 then p else (tasks.get k).priority,
         (tasks.get k).dueDate, (tasks.get k).isDone⟩ := by
      unfold editTask
      simp only [hp, if_false, hk]
      rw [if_pos (by omega)]
      simp only [Int.toNat_ofNat]
      have hk1 : (k : Nat) < tasks.length := k.isLt
      by_cases hdn : d = [] <;> by_cases hpr : 1 ≤ p ∧ p ≤ 5
      · have hpr' : p ≥ 1 ∧ p ≤ 5 := hpr
        simp only [hdn, ne_eq, not_true_eq_false, if_false, if_true, hpr, hpr']
        rw [modify_eq_set_get]
        rfl
      · have hpr' : ¬ (p ≥ 1 ∧ p ≤ 5) := hpr
        simp only [hdn, ne_eq, not_true_eq_false, if_false, if_true, hpr, hpr']
        exact (set_get_self tasks k).symm
      · have hpr' : p ≥ 1 ∧ p ≤ 5 := hpr
        simp only [hdn, ne_eq, not_false_eq_true, if_false, if_true, hpr, hpr']
        rw [modify_eq_set_get _ tasks k]
        have hk2 : (k : Nat) < (tasks.set k ((tasks.get k).setDescription d)).length := by
          simp
        rw [modify_eq_set_get _ _ ⟨k, hk2⟩]
        simp [Task.setPriority, Task.setDescription]
      · have hpr' : ¬ (p ≥ 1 ∧ p ≤ 5) := hpr
        simp only [hdn, ne_eq, not_false_eq_true, if_false, if_true, hpr, hpr']
        rw [modify_eq_set_get]
        rfl
    refine ⟨fun h => by omega, ?_, ?_⟩
    · intro k2 hk2
      have hkk : k2 = k := Fin.ext (by omega)
      subst hkk
      exact ⟨hd', he⟩
    · intro j t hj ht
      rw [he, List.getElem?_set]
      split
      · rename_i hjk
        have : tasks[(k : Nat)]? = some (tasks.get k) := by
          rw [List.getElem?_eq_getElem k.isLt]; rfl
        rw [← hjk] at hj
        rw [hj] at this
        have : t = tasks.get k := by simpa using this
        rw [this] at ht
        rw [hd'] at ht
        exact absurd ht (by decide)
      · exact hj

/-- C9. `deleteTask`: with `k` the pending resolution of `i` when that is found and the
completed resolution otherwise, the result is the old sequence with exactly slot `k`
erased (one record fewer, the others in their old order); when neither partition resolves
`i` the sequence is unchanged. -/
theorem deleteTask_effect (S : StdSort) (tasks : List Task) (i : Int) :
    (∀ k : Fin tasks.length, getOriginalIndex S tasks i true = ((k : Nat) : Int) →
      deleteTask S tasks i = tasks.eraseIdx k ∧
      deleteTask S tasks i = tasks.take k ++ tasks.drop (k + 1) ∧
      (deleteTask S tasks i).length = tasks.length - 1) ∧
    (getOriginalIndex S tasks i true = -1 →
      ∀ k : Fin tasks.length, getOriginalIndex S tasks i false = ((k : Nat) : Int) →
        deleteTask S tasks i = tasks.eraseIdx k ∧
        deleteTask S tasks i = tasks.take k ++ tasks.drop (k + 1) ∧
        (deleteTask S tasks i).length = tasks.length - 1) ∧
    (getOriginalIndex S tasks i true = -1 → getOriginalIndex S tasks i false = -1 →
      deleteTask S tasks i = tasks) := by
  refine ⟨?_, ?_, deleteTask_of_not_found S tasks i⟩
  · intro k hk
    have he : deleteTask S tasks i = tasks.eraseIdx k :=
      deleteTask_of_found S tasks i k (by rw [if_neg (by omega)]; exact hk)
    refine ⟨he, ?_, ?_⟩
    · rw [he, List.eraseIdx_eq_take_drop_succ]
    · rw [he, List.length_eraseIdx_of_lt k.isLt]
  · intro h1 k hk
    have he : deleteTask S tasks i = tasks.eraseIdx k :=
      deleteTask_of_found S tasks i k (by rw [if_pos h1]; exact hk)
    refine ⟨he, ?_, ?_⟩
    · rw [he, List.eraseIdx_eq_take_drop_succ]
    · rw [he, List.length_eraseIdx_of_lt k.isLt]

/-- C10 as stated fails: in `mixedStore` the completed list shows one record as `Task #1`,
yet `deleteTask` with choice 1 erases the pending record and keeps the completed one,
because the pending partition is resolved first; so under every `std::sort`. -/
theorem deleteTask_prefers_pending :
    deleteTask libstdcxxSort mixedStore 1 = [⟨"completed".toList, 1, [], true⟩] ∧
    (listTasks libstdcxxSort mixedStore true)[(1 : Int).toNat - 1]?
      = some ⟨"completed".toList, 1, [], true⟩ ∧
    ∀ S : StdSort, ¬ ∀ (tasks : List Task) (i : Int), 1 ≤ i →
        i ≤ (tasks.countP (fun t => t.isDone == true) : Int) →
        ∃ k : Fin tasks.length,
          (tasks.get k).isDone = true ∧
          (listTasks S tasks true)[i.toNat - 1]? = some (tasks.get k) ∧
          deleteTask S tasks i = tasks.eraseIdx k := by
  refine ⟨by decide, by decide, ?_⟩
  intro S h
  obtain ⟨k, hd, _, he⟩ := h mixedStore 1 (by decide) (by decide)
  rcases getOriginalIndex_cases S mixedStore 1 true with ⟨_, hr⟩ | ⟨k2, hk2, _, _, hd2, _⟩
  · revert hr; decide
  · have he2 := deleteTask_of_found S mixedStore 1 k2 (by rw [if_neg (by omega)]; exact hk2)
    rw [he] at he2
    have hfin : ∀ k k2 : Fin mixedStore.length, (mixedStore.get k).isDone = true →
        (mixedStore.get k2).isDone = !true →
        mixedStore.eraseIdx k = mixedStore.eraseIdx k2 → False := by decide
    exact hfin k k2 hd hd2 he2

/-- C10 (amended). For a display number `i` of the completed list that is larger than the
number of pending records, `deleteTask` with choice `i` erases the storage slot of the
record shown as `Task #i` in the completed list (with the `std::sort` of libstdc++). Under
every `std::sort` the erased slot is the one that `getOriginalIndex` resolves `i` to in the
completed partition, its record is completed and has the priority shown for `Task #i`, and
it is the record shown as `Task #i` when no two completed records have the same priority. -/
theorem deleteTask_completed_beyond_pending (tasks : List Task) (i : Int)
    (h1 : (pendingCount tasks : Int) < i)
    (h2 : i ≤ (tasks.countP (fun t => t.isDone == true) : Int)) :
    (∃ k : Fin tasks.length,
      (tasks.get k).isDone = true ∧
      (listTasks libstdcxxSort tasks true)[i.toNat - 1]? = some (tasks.get k) ∧
      deleteTask libstdcxxSort tasks i = tasks.eraseIdx k) ∧
    (∀ S : StdSort, ∃ k : Fin tasks.length,
      getOriginalIndex S tasks i false = ((k : Nat) : Int) ∧
      (tasks.get k).isDone = true ∧
      ((listTasks S tasks true)[i.toNat - 1]?).map Task.priority
        = some (tasks.get k).priority ∧
      (((tasks.filter fun t => t.isDone == true).map Task.priority).Nodup →
        (listTasks S tasks true)[i.toNat - 1]? = some (tasks.get k)) ∧
      deleteTask S tasks i = tasks.eraseIdx k) := by
  have hpos : 1 ≤ i := by omega
  constructor
  · obtain ⟨k, hk, hd, hv⟩ := resolve_of_views_agree libstdcxxSort tasks false i
      (map_get_sortedIndices_libstdcxx tasks false) hpos (by simpa using h2)
    refine ⟨k, by simpa using hd, by simpa using hv, ?_⟩
    exact deleteTask_of_found libstdcxxSort tasks i k
      (by rw [if_pos (pending_not_resolved libstdcxxSort tasks i h1)]; exact hk)
  · intro S
    obtain ⟨k, hk, hd, hp, hr⟩ := resolve_priority S tasks false i hpos (by simpa using h2)
    refine ⟨k, hk, by simpa using hd, by simpa using hp, ?_, ?_⟩
    · intro hnd
      simpa using hr (by simpa using hnd)
    · exact deleteTask_of_found S tasks i k
        (by rw [if_pos (pending_not_resolved S tasks i h1)]; exact hk)

/-- C10 (amended), an instance: `sampleStore` has two pending records, and choice 3 erases
slot 3, the record `Call bank` shown as `Task #3` of its completed list. -/
theorem deleteTask_completed_beyond_pending_witness :
    (∃ k : Fin sampleStore.length,
      (sampleStore.get k).isDone = true ∧
      (listTasks libstdcxxSort sampleStore true)[(3 : Int).toNat - 1]?
        = some (sampleStore.get k) ∧
      deleteTask libstdcxxSort sampleStore 3 = sampleStore.eraseIdx k) ∧
    (listTasks libstdcxxSort sampleStore true)[2]? = some ⟨"Call bank".toList, 2, [], true⟩ ∧
    deleteTask libstdcxxSort sampleStore 3 = sampleStore.eraseIdx 3 :=
  ⟨(deleteTask_completed_beyond_pending sampleStore 3 (by decide) (by decide)).1,
   by decide, by decide⟩

/-! ## Lemmas and claims on the mutations, the display numbers and the loader -/

theorem readPriority_range (attempts : List (Option Int)) (prio : Int)
    (h : readPriority attempts = some prio) : 1 ≤ prio ∧ prio ≤ 5 := by
  induction attempts with
  | nil => simp [readPriority] at h
  | cons a rest ih =>
    cases a with
    | none => exact ih (by simpa [readPriority] using h)
    | some p =>
      unfold readPriority at h
      by_cases hp : p < 1 ∨ p > 5
      · rw [if_pos hp] at h; exact ih h
      · rw [if_neg hp] at h
        have : p = prio := by simpa using h
        omega

theorem forall_mem_modify {α : Type} (P : α → Prop) (f : α → α) (hf : ∀ a, P a → P (f a))
    (l : List α) (n : Nat) (h : ∀ a ∈ l, P a) : ∀ a ∈ List.modify f n l, P a := by
  induction l generalizing n with
  | nil => intro a ha; cases n <;> simp [List.modify] at ha
  | cons x xs ih =>
    cases n with
    | zero =>
      intro a ha
      simp only [List.modify_zero_cons, List.mem_cons] at ha
      rcases ha with rfl | ha
      · exact hf x (h x (by simp))
      · exact h a (by simp [ha])
    | succ m =>
      intro a ha
      simp only [List.modify_succ_cons, List.mem_cons] at ha
      rcases ha with rfl | ha
      · exact h a (by simp)
      · exact ih m (fun b hb => h b (by simp [hb])) a ha

theorem inRange_addTask (tasks : List Task) (desc : List Char) (prio : Int) (due : List Char)
    (h : InRange tasks) (hp : 1 ≤ prio ∧ prio ≤ 5) : InRange (addTask tasks desc prio due) := by
  intro t ht
  unfold addTask at ht
  rw [List.mem_append, List.mem_singleton] at ht
  rcases ht with ht | rfl
  · exact h t ht
  · exact hp

theorem inRange_markTaskDone (S : StdSort) (tasks : List Task) (choice : Int)
    (h : InRange tasks) : InRange (markTaskDone S tasks choice) := by
  unfold markTaskDone
  split
  · exact h
  · simp only []
    split
    · exact forall_mem_modify (fun a => 1 ≤ a.priority ∧ a.priority ≤ 5) Task.markDone
        (fun a ha => ha) tasks _ h
    · exact h

theorem inRange_editTask (S : StdSort) (tasks : List Task) (choice : Int)
    (new_desc : List Char) (new_prio : Int) (h : InRange tasks) :
    InRange (editTask S tasks choice new_desc new_prio) := by
  unfold editTask
  split
  · exact h
  · simp only []
    split
    · have h1 : InRange (if new_desc ≠ [] then
          List.modify (fun t => t.setDescription new_desc)
            (getOriginalIndex S tasks choice true).toNat tasks
          else tasks) := by
        split
        · exact forall_mem_modify (fun a => 1 ≤ a.priority ∧ a.priority ≤ 5)
            (fun t => t.setDescription new_desc) (fun a ha => ha) tasks _ h
        · exact h
      split
      · rename_i hp
        exact forall_mem_modify (fun a : Task => 1 ≤ a.priority ∧ a.priority ≤ 5)
          (fun t : Task => t.setPriority new_prio) (fun a _ => ⟨hp.1, hp.2⟩) _ _ h1
      · exact h1
    · exact h

theorem inRange_deleteTask (S : StdSort) (tasks : List Task) (choice : Int)
    (h : InRange tasks) : InRange (deleteTask S tasks choice) := by
  have he : ∀ n : Nat, InRange (tasks.eraseIdx n) :=
    fun n t ht => h t (List.mem_of_mem_eraseIdx ht)
  unfold deleteTask
  split
  · exact h
  · simp only []
    split
    · split
      · exact he _
      · exact h
    · exact he _

/-- C11. The priority range is an invariant of the mutation API: from a store whose
records all have a priority from 1 to 5, `addTask` with a priority that has left its input
loop, `markTaskDone`, `editTask` with any new priority and `deleteTask` with any display
index give a store whose records all have a priority from 1 to 5; the empty store is such a
store, and so is every store reached from it by these operations. -/
theorem priority_range_invariant (S : StdSort) :
    (∀ tasks : List Task, InRange tasks →
      (∀ desc prio due, 1 ≤ prio ∧ prio ≤ 5 → InRange (addTask tasks desc prio due)) ∧
      (∀ desc attempts due tasks1, addTaskFromInput tasks desc attempts due = some tasks1 →
        InRange tasks1) ∧
      (∀ choice, InRange (markTaskDone S tasks choice)) ∧
      (∀ choice new_desc new_prio, InRange (editTask S tasks choice new_desc new_prio)) ∧
      (∀ choice, InRange (deleteTask S tasks choice))) ∧
    InRange [] ∧
    (∀ tasks : List Task, Reachable S tasks → InRange tasks) := by
  have hadd : ∀ (tasks : List Task) desc attempts due tasks1, InRange tasks →
      addTaskFromInput tasks desc attempts due = some tasks1 → InRange tasks1 := by
    intro tasks desc attempts due tasks1 h he
    unfold addTaskFromInput at he
    cases hr : readPriority attempts with
    | none => rw [hr] at he; simp at he
    | some p =>
      rw [hr] at he
      have : addTask tasks desc p due = tasks1 := by simpa using he
      rw [← this]
      exact inRange_addTask tasks desc p due h (readPriority_range attempts p hr)
  refine ⟨?_, fun t ht => absurd ht (List.not_mem_nil t), ?_⟩
  · intro tasks h
    exact ⟨fun desc prio due hp => inRange_addTask tasks desc prio due h hp,
      fun desc attempts due tasks1 he => hadd tasks desc attempts due tasks1 h he,
      fun c => inRange_markTaskDone S tasks c h,
      fun c d p => inRange_editTask S tasks c d p h,
      fun c => inRange_deleteTask S tasks c h⟩
  · intro tasks hr
    induction hr with
    | empty => exact fun t ht => absurd ht (List.not_mem_nil t)
    | add tasks desc attempts due tasks1 _ he ih => exact hadd tasks desc attempts due tasks1 ih he
    | markDone tasks c _ ih => exact inRange_markTaskDone S tasks c ih
    | edit tasks c d p _ ih => exact inRange_editTask S tasks c d p ih
    | delete tasks c _ ih => exact inRange_deleteTask S tasks c ih

/-- C14. `addTask` with description `desc`, priority `prio` and due date `due` turns the
sequence into the sequence followed by the one record `(desc, prio, due, false)`: the
length grows by 1, the new record is last, every stored record keeps its position and its
fields; the priority that the input loop hands over is one from 1 to 5. -/
theorem addTask_appends (tasks : List Task) (desc : List Char) (prio : Int)
    (due : List Char) :
    addTask tasks desc prio due = tasks ++ [⟨desc, prio, due, false⟩] ∧
    (addTask tasks desc prio due).length = tasks.length + 1 ∧
    (addTask tasks desc prio due).getLast? = some ⟨desc, prio, due, false⟩ ∧
    (∀ (j : Nat) (t : Task), tasks[j]? = some t →
      (addTask tasks desc prio due)[j]? = some t) ∧
    (∀ attempts tasks1, addTaskFromInput tasks desc attempts due = some tasks1 →
      ∃ p : Int, 1 ≤ p ∧ p ≤ 5 ∧ tasks1 = tasks ++ [⟨desc, p, due, false⟩]) := by
  refine ⟨rfl, by simp [addTask], by simp [addTask], ?_, ?_⟩
  · intro j t hj
    have hlt : j < tasks.length := by
      by_contra hge
      rw [List.getElem?_eq_none (by omega)] at hj
      exact absurd hj (by simp)
    unfold addTask
    rw [List.getElem?_append_left hlt]
    exact hj
  · intro attempts tasks1 he
    unfold addTaskFromInput at he
    cases hr : readPriority attempts with
    | none => rw [hr] at he; simp at he
    | some p =>
      rw [hr] at he
      have : addTask tasks desc p due = tasks1 := by simpa using he
      have hp := readPriority_range attempts p hr
      exact ⟨p, hp.1, hp.2, this.symm⟩

theorem escapeLoop_zero (fuel : Nat) (d : List Char) (hfuel : d.count '"' < fuel)
    (hsize : d.length + d.count '"' < sizeMod) :
    escapeLoop fuel d 0 = some (escapeQuotes d) := by
  have h := escapeLoop_spec fuel [] d hfuel (by simpa using hsize)
  simpa using h

/-- C17. Escaping in `saveTasksToFile`: for a description whose escaped form fits a
`std::string`, the escaping loop ends (with the fuel of `escapeDesc` and with any fuel above
the number of double quotes) and leaves the description with every double quote replaced by
backslash, double quote and every other character kept; its length is the original length
plus the number of double quotes; that text stands between the quotes of the description
line, and the due date is written as it is. -/
theorem escape_loop_result (d : List Char) (hsize : d.length + d.count '"' < sizeMod) :
    escapeDesc d = some (escapeQuotes d) ∧
    (∀ fuel, d.count '"' < fuel → escapeLoop fuel d 0 = some (escapeQuotes d)) ∧
    (escapeQuotes d).length = d.length + d.count '"' ∧
    (∀ (size i : Nat) (t : Task), t.description = d →
      saveTask size i t = some (unlines (taskLines (escapeQuotes d) t
        (if i = (size + sizeMod - 1) % sizeMod then [] else ",".toList)))) := by
  refine ⟨escapeDesc_eq d hsize, fun fuel hf => escapeLoop_zero fuel d hf hsize,
    length_escapeQuotes d, ?_⟩
  intro size i t ht
  rw [saveTask_eq, ht, escapeDesc_eq d hsize]
  rfl

theorem escape_loop_result_witness :
    escapeDesc "say \"hi\" \\ bye".toList = some (escapeQuotes "say \"hi\" \\ bye".toList) ∧
    escapeQuotes "say \"hi\" \\ bye".toList = "say \\\"hi\\\" \\ bye".toList :=
  ⟨(escape_loop_result "say \"hi\" \\ bye".toList (by decide)).1, by decide⟩

theorem nodup_sortedIndices (S : StdSort) (tasks : List Task) (p : Bool) :
    (sortedIndices S tasks p).Nodup := by
  rw [(sortedIndices_perm S tasks p).nodup_iff]
  unfold collectIndices
  exact (List.nodup_finRange _).filter _

/-- The display number of a storage slot of the partition. -/
theorem exists_display_number (S : StdSort) (tasks : List Task) (p : Bool)
    (k : Fin tasks.length) (hk : (tasks.get k).isDone = !p) :
    ∃ i : Int, 1 ≤ i ∧ i ≤ (tasks.countP (fun t => t.isDone == !p) : Int) ∧
      getOriginalIndex S tasks i p = ((k : Nat) : Int) := by
  have hmem : k ∈ sortedIndices S tasks p :=
    (sortedIndices_perm S tasks p).mem_iff.mpr ((mem_collectIndices tasks p k).mpr hk)
  obtain ⟨n, hn, hget⟩ := List.getElem_of_mem hmem
  have hlen := length_sortedIndices S tasks p
  refine ⟨(n : Int) + 1, by omega, by omega, ?_⟩
  have hr : 0 < ((n : Int) + 1) ∧ ((n : Int) + 1).toNat ≤ (sortedIndices S tasks p).length := by
    omega
  rw [getOriginalIndex_of_range S tasks _ p hr]
  have e : ((n : Int) + 1).toNat - 1 = n := by omega
  simp only [e, List.get_eq_getElem, hget]

/-- C18. Every task is selectable by exactly one display number of its partition:
`getOriginalIndex` is injective on the display numbers from 1 to the count of the partition,
a storage index is a result for such a number exactly when its record has done flag
`!wantPending`, no found pending result is a completed result, and every storage index is
the result of a pending or of a completed display number. -/
theorem display_numbers_bijective (S : StdSort) (tasks : List Task) (wantPending : Bool) :
    (∀ i j : Int, 1 ≤ i → i ≤ (tasks.countP (fun t => t.isDone == !wantPending) : Int) →
      1 ≤ j → j ≤ (tasks.countP (fun t => t.isDone == !wantPending) : Int) →
      getOriginalIndex S tasks i wantPending = getOriginalIndex S tasks j wantPending →
      i = j) ∧
    (∀ k : Fin tasks.length, (tasks.get k).isDone = !wantPending ↔
      ∃ i : Int, 1 ≤ i ∧ i ≤ (tasks.countP (fun t => t.isDone == !wantPending) : Int) ∧
        getOriginalIndex S tasks i wantPending = ((k : Nat) : Int)) ∧
    (∀ i j : Int, getOriginalIndex S tasks i true ≠ -1 →
      getOriginalIndex S tasks i true ≠ getOriginalIndex S tasks j false) ∧
    (∀ k : Fin tasks.length,
      (∃ i : Int, getOriginalIndex S tasks i true = ((k : Nat) : Int)) ∨
      (∃ i : Int, getOriginalIndex S tasks i false = ((k : Nat) : Int))) := by
  refine ⟨?_, ?_, ?_, ?_⟩
  · intro i j hi1 hi2 hj1 hj2 he
    have hlen := length_sortedIndices S tasks wantPending
    have hri : 0 < i ∧ i.toNat ≤ (sortedIndices S tasks wantPending).length := by omega
    have hrj : 0 < j ∧ j.toNat ≤ (sortedIndices S tasks wantPending).length := by omega
    rw [getOriginalIndex_of_range S tasks i _ hri, getOriginalIndex_of_range S tasks j _ hrj] at he
    have he2 := Fin.ext (Int.ofNat_inj.mp he)
    have := (List.Nodup.get_inj_iff (nodup_sortedIndices S tasks wantPending)).mp he2
    have h3 : i.toNat - 1 = j.toNat - 1 := by simpa using this
    omega
  · intro k
    constructor
    · exact exists_display_number S tasks wantPending k
    · rintro ⟨i, _, _, hi⟩
      rcases getOriginalIndex_cases S tasks i wantPending with ⟨h, _⟩ | ⟨k2, hk2, _, _, hd, _⟩
      · omega
      · have : k2 = k := Fin.ext (by omega)
        rw [← this]; exact hd
  · intro i j hi he
    rcases getOriginalIndex_cases S tasks i true with ⟨h, _⟩ | ⟨k1, hk1, _, _, hd1, _⟩
    · exact hi h
    · rcases getOriginalIndex_cases S tasks j false with ⟨h, _⟩ | ⟨k2, hk2, _, _, hd2, _⟩
      · omega
      · have : k1 = k2 := Fin.ext (by omega)
        rw [this, hd2] at hd1
        exact absurd hd1 (by decide)
  · intro k
    cases hd : (tasks.get k).isDone with
    | false =>
      left
      obtain ⟨i, _, _, hi⟩ := exists_display_number S tasks true k (by simpa using hd)
      exact ⟨i, hi⟩
    | true =>
      right
      obtain ⟨i, _, _, hi⟩ := exists_display_number S tasks false k (by simpa using hd)
      exact ⟨i, hi⟩

theorem searchFrom_eq_none_iff (pat s : List Char) (i : Nat) :
    searchFrom pat s i = none ↔ ¬ pat <:+: s := by
  induction s generalizing i with
  | nil =>
    unfold searchFrom
    by_cases hp : pat = []
    · simp [hp]
    · simp [hp]
  | cons c cs ih =>
    rw [searchFrom_cons, List.infix_cons_iff]
    by_cases hpre : pat.isPrefixOf (c :: cs) = true
    · rw [if_pos hpre]
      have : pat <+: c :: cs := List.isPrefixOf_iff_prefix.mp hpre
      simp [this]
    · rw [if_neg hpre, ih (i + 1)]
      have : ¬ pat <+: c :: cs := fun h => hpre (List.isPrefixOf_iff_prefix.mpr h)
      simp [this]

theorem searchFrom_bounds (pat s : List Char) (i j : Nat) (h : searchFrom pat s i = some j) :
    i ≤ j ∧ j + pat.length ≤ i + s.length := by
  induction s generalizing i with
  | nil =>
    unfold searchFrom at h
    by_cases hp : pat = []
    · rw [if_pos hp] at h
      have : i = j := by simpa using h
      subst this
      simp [hp]
    · rw [if_neg hp] at h
      exact absurd h (by simp)
  | cons c cs ih =>
    rw [searchFrom_cons] at h
    by_cases hpre : pat.isPrefixOf (c :: cs) = true
    · rw [if_pos hpre] at h
      have hij : i = j := by simpa using h
      subst hij
      have hl := (List.isPrefixOf_iff_prefix.mp hpre).length_le
      exact ⟨le_refl _, by omega⟩
    · rw [if_neg hpre] at h
      have := ih (i + 1) h
      simp only [List.length_cons]
      omega

theorem searchFrom_first (pat a rest : List Char) (i : Nat)
    (hfirst : ∀ a1 b1 : List Char, a1 ++ pat ++ b1 = a ++ pat ++ rest → a.length ≤ a1.length) :
    searchFrom pat (a ++ pat ++ rest) i = some (i + a.length) := by
  induction a generalizing i with
  | nil =>
    cases hs : ([] ++ pat ++ rest : List Char) with
    | nil =>
      have hp : pat = [] := by
        have := congrArg List.length hs
        simp at this
        exact this.1
      unfold searchFrom
      simp [hp]
    | cons c cs =>
      rw [searchFrom_cons, ← hs]
      have hpre : pat.isPrefixOf ([] ++ pat ++ rest) = true := by
        rw [List.isPrefixOf_iff_prefix]
        exact ⟨rest, by simp⟩
      rw [if_pos hpre]
      simp
  | cons c cs ih =>
    have hpre : ¬ pat.isPrefixOf (c :: cs ++ pat ++ rest) = true := by
      intro h
      obtain ⟨b1, hb1⟩ := List.isPrefixOf_iff_prefix.mp h
      have := hfirst [] b1 (by simpa using hb1)
      simp at this
    have e : c :: cs ++ pat ++ rest = c :: (cs ++ pat ++ rest) := by simp
    rw [e] at hpre ⊢
    rw [searchFrom_cons, if_neg hpre, ih (i + 1)]
    · simp only [List.length_cons]; congr 1; omega
    · intro a1 b1 h1
      have := hfirst (c :: a1) b1 (by simp [h1])
      simpa using this

theorem find_zero_cases (s pat : List Char) (hlen : s.length < npos) :
    (find s pat 0 = npos ∧ ¬ pat <:+: s) ∨
    (find s pat 0 ≠ npos ∧ pat <:+: s ∧ find s pat 0 + pat.length ≤ s.length) := by
  rw [find_zero]
  cases h : searchFrom pat s 0 with
  | none =>
    left
    exact ⟨rfl, (searchFrom_eq_none_iff pat s 0).mp h⟩
  | some j =>
    right
    have hb := searchFrom_bounds pat s 0 j h
    have hin : pat <:+: s := by
      by_contra hn
      rw [(searchFrom_eq_none_iff pat s 0).mpr hn] at h
      exact absurd h (by simp)
    refine ⟨?_, hin, by simpa using hb.2⟩
    simp only []
    omega

theorem find_ne_npos_iff (s pat : List Char) (hlen : s.length < npos) :
    find s pat 0 ≠ npos ↔ pat <:+: s := by
  rcases find_zero_cases s pat hlen with ⟨h1, h2⟩ | ⟨h1, h2, _⟩
  · simp [h1, h2]
  · simp [h1, h2]

theorem quotedField_ok (line : List Char) (hlen : line.length < npos)
    (h2 : 2 ≤ line.length) : ∃ d, quotedField line = .ok d := by
  have hstart : (find line [':', ' ', '"'] 0 + 3) % sizeMod ≤ line.length := by
    rcases find_zero_cases line [':', ' ', '"'] hlen with ⟨h, _⟩ | ⟨_, _, h⟩
    · rw [h]
      have : (npos + 3) % sizeMod = 2 := by decide
      rw [this]; exact h2
    · simp only [List.length_cons, List.length_nil] at h
      have hn : npos < sizeMod := by decide
      rw [Nat.mod_eq_of_lt (by omega)]
      omega
  unfold quotedField substr
  simp only []
  rw [if_neg (by omega)]
  exact ⟨_, rfl⟩

theorem prioritySub_ok (line : List Char) (hlen : line.length < npos)
    (h1 : 1 ≤ line.length) :
    ∃ sub, substr line ((find line [':', ' '] 0 + 2) % sizeMod) npos = .ok sub := by
  have hstart : (find line [':', ' '] 0 + 2) % sizeMod ≤ line.length := by
    rcases find_zero_cases line [':', ' '] hlen with ⟨h, _⟩ | ⟨_, _, h⟩
    · rw [h]
      have : (npos + 2) % sizeMod = 1 := by decide
      rw [this]; exact h1
    · simp only [List.length_cons, List.length_nil] at h
      have hn : npos < sizeMod := by decide
      rw [Nat.mod_eq_of_lt (by omega)]
      omega
  unfold substr
  rw [if_neg (by omega)]
  exact ⟨_, rfl⟩

/-- The branch that `loadLine` takes, in terms of the keys that the line contains. -/
theorem loadLine_cases (st : LoadState) (line : List Char) (hlen : line.length < npos) :
    ("\"description\"".toList <:+: line ∧
      ∃ d, quotedField line = .ok d ∧ loadLine st line = .ok { st with desc := d }) ∨
    (¬ "\"description\"".toList <:+: line ∧ "\"priority\"".toList <:+: line ∧
      ∃ sub, substr line ((find line [':', ' '] 0 + 2) % sizeMod) npos = .ok sub ∧
        ((∃ v, stoi sub = .ok v ∧ loadLine st line = .ok { st with prio := v }) ∨
         (stoi sub = .error .invalid_argument ∧ loadLine st line = .ok { st with prio := 1 }) ∨
         (stoi sub = .error .out_of_range ∧ loadLine st line = .error .out_of_range))) ∨
    (¬ "\"description\"".toList <:+: line ∧ ¬ "\"priority\"".toList <:+: line ∧
      "\"dueDate\"".toList <:+: line ∧
      ∃ d, quotedField line = .ok d ∧ loadLine st line = .ok { st with due := d }) ∨
    (¬ "\"description\"".toList <:+: line ∧ ¬ "\"priority\"".toList <:+: line ∧
      ¬ "\"dueDate\"".toList <:+: line ∧ "\"isDone\"".toList <:+: line ∧
      loadLine st line = .ok { st with tasks := st.tasks ++
        [⟨st.desc, st.prio, st.due, decide ("true".toList <:+: line)⟩] }) ∨
    (¬ "\"description\"".toList <:+: line ∧ ¬ "\"priority\"".toList <:+: line ∧
      ¬ "\"dueDate\"".toList <:+: line ∧ ¬ "\"isDone\"".toList <:+: line ∧
      loadLine st line = .ok st) := by
  by_cases hd : "\"description\"".toList <:+: line
  · left
    have hl := hd.length_le
    have h13 : "\"description\"".toList.length = 13 := rfl
    obtain ⟨d, hq⟩ := quotedField_ok line hlen (by omega)
    refine ⟨hd, d, hq, ?_⟩
    unfold loadLine
    rw [if_pos ((find_ne_npos_iff line _ hlen).mpr hd), hq]
  · right
    have hdf : ¬ find line "\"description\"".toList 0 ≠ npos :=
      fun h => hd ((find_ne_npos_iff line _ hlen).mp h)
    by_cases hp : "\"priority\"".toList <:+: line
    · left
      have hl := hp.length_le
      have h10 : "\"priority\"".toList.length = 10 := rfl
      obtain ⟨sub, hs⟩ := prioritySub_ok line hlen (by omega)
      refine ⟨hd, hp, sub, hs, ?_⟩
      have hpf := (find_ne_npos_iff line "\"priority\"".toList hlen).mpr hp
      cases hst : stoi sub with
      | ok v =>
        left
        refine ⟨v, rfl, ?_⟩
        unfold loadLine
        rw [if_neg hdf, if_pos hpf]
        simp only [hs, hst]
      | error e =>
        cases e with
        | invalid_argument =>
          right; left
          refine ⟨rfl, ?_⟩
          unfold loadLine
          rw [if_neg hdf, if_pos hpf]
          simp only [hs, hst]
        | out_of_range =>
          right; right
          refine ⟨rfl, ?_⟩
          unfold loadLine
          rw [if_neg hdf, if_pos hpf]
          simp only [hs, hst]
    · right
      have hpf : ¬ find line "\"priority\"".toList 0 ≠ npos :=
        fun h => hp ((find_ne_npos_iff line _ hlen).mp h)
      by_cases hu : "\"dueDate\"".toList <:+: line
      · left
        have hl := hu.length_le
        have h9 : "\"dueDate\"".toList.length = 9 := rfl
        obtain ⟨d, hq⟩ := quotedField_ok line hlen (by omega)
        refine ⟨hd, hp, hu, d, hq, ?_⟩
        unfold loadLine
        rw [if_neg hdf, if_neg hpf, if_pos ((find_ne_npos_iff line _ hlen).mpr hu), hq]
      · right
        have huf : ¬ find line "\"dueDate\"".toList 0 ≠ npos :=
          fun h => hu ((find_ne_npos_iff line _ hlen).mp h)
        by_cases hi : "\"isDone\"".toList <:+: line
        · left
          refine ⟨hd, hp, hu, hi, ?_⟩
          unfold loadLine
          rw [if_neg hdf, if_neg hpf, if_neg huf,
            if_pos ((find_ne_npos_iff line _ hlen).mpr hi)]
          simp only []
          have : decide (find line "true".toList 0 ≠ npos) = decide ("true".toList <:+: line) := by
            rw [decide_eq_decide]
            exact find_ne_npos_iff line _ hlen
          rw [this]
        · right
          have hif : ¬ find line "\"isDone\"".toList 0 ≠ npos :=
            fun h => hi ((find_ne_npos_iff line _ hlen).mp h)
          refine ⟨hd, hp, hu, hi, ?_⟩
          unfold loadLine
          rw [if_neg hdf, if_neg hpf, if_neg huf, if_neg hif]

theorem stoi_invalid (s : List Char) (h : NoLeadingDigit s) :
    stoi s = .error .invalid_argument := by
  have htw : (afterSign s).takeWhile Char.isDigit = [] := by
    cases hs : afterSign s with
    | nil => rfl
    | cons c cs =>
      rw [NoLeadingDigit, hs] at h
      have hc : c.isDigit = false := by
        cases hd : c.isDigit
        · rfl
        · exact absurd (by simp [hd]) h
      rw [List.takeWhile_cons, hc]
      rfl
  unfold stoi
  unfold afterSign at htw
  simp only [htw, if_true]

theorem loadLine_priorityOneLine (st : LoadState) :
    loadLine st priorityOneLine = .ok { st with prio := 1 } := by
  rfl

theorem loadLine_unparsable (st : LoadState) (a rest : List Char)
    (hlen : (a ++ [':', ' '] ++ rest).length < npos)
    (hkey : "\"priority\"".toList <:+: a ++ [':', ' '] ++ rest)
    (hnd : ¬ "\"description\"".toList <:+: a ++ [':', ' '] ++ rest)
    (hfirst : ∀ a1 b1 : List Char,
      a1 ++ [':', ' '] ++ b1 = a ++ [':', ' '] ++ rest → a.length ≤ a1.length)
    (hnum : NoLeadingDigit rest) :
    loadLine st (a ++ [':', ' '] ++ rest) = .ok { st with prio := 1 } := by
  have hfind : find (a ++ [':', ' '] ++ rest) [':', ' '] 0 = a.length := by
    rw [find_zero, searchFrom_first [':', ' '] a rest 0 hfirst]
    simp
  have hl : (a ++ [':', ' '] ++ rest).length = a.length + 2 + rest.length := by
    simp; omega
  have hn : npos < sizeMod := by decide
  have hsub : substr (a ++ [':', ' '] ++ rest) ((a.length + 2) % sizeMod) npos = .ok rest := by
    rw [Nat.mod_eq_of_lt (by omega)]
    unfold substr
    rw [if_neg (by omega)]
    have e : a.length + 2 = (a ++ [':', ' ']).length := by simp
    rw [e, List.drop_left, List.take_of_length_le (by omega)]
  rcases loadLine_cases st _ hlen with ⟨h, _⟩ | ⟨_, _, sub, hs, h⟩ | ⟨_, h, _⟩ | ⟨_, h, _⟩ |
    ⟨_, h, _⟩
  · exact absurd h hnd
  · rw [hfind, hsub] at hs
    have hsr : rest = sub := by simpa using hs
    subst hsr
    have hinv := stoi_invalid rest hnum
    rcases h with ⟨v, hv, _⟩ | ⟨_, h⟩ | ⟨hv, _⟩
    · rw [hinv] at hv; exact absurd hv (by simp)
    · exact h
    · rw [hinv] at hv; exact absurd hv (by simp)
  · exact absurd hkey h
  · exact absurd hkey h
  · exact absurd hkey h

theorem loadLoop_replace_line (line1 line2 : List Char)
    (h : ∀ st, loadLine st line1 = loadLine st line2) (pre post : List (List Char))
    (st : LoadState) :
    loadLoop st (pre ++ line1 :: post) = loadLoop st (pre ++ line2 :: post) := by
  induction pre generalizing st with
  | nil =>
    simp only [List.nil_append]
    rw [loadLoop, loadLoop, h st]
  | cons l ls ih =>
    simp only [List.cons_append]
    rw [loadLoop, loadLoop]
    cases loadLine st l with
    | ok st1 => exact ih st1
    | error e => rfl

theorem first_of_no_earlier_match (pat a rest : List Char) (hp : pat ≠ [])
    (h : ¬ pat <:+: a ++ pat.dropLast) :
    ∀ a1 b1 : List Char, a1 ++ pat ++ b1 = a ++ pat ++ rest → a.length ≤ a1.length := by
  intro a1 b1 he
  by_contra hlt
  apply h
  have h1 : a1 ++ pat <+: a ++ pat ++ rest := ⟨b1, he⟩
  have h2 : a ++ pat.dropLast <+: a ++ pat ++ rest := by
    refine ⟨pat.getLast hp :: rest, ?_⟩
    have : pat.dropLast ++ pat.getLast hp :: rest = pat ++ rest := by
      rw [← List.singleton_append, ← List.append_assoc, List.dropLast_append_getLast hp]
    rw [List.append_assoc, this, List.append_assoc]
  have hlen : (a1 ++ pat).length ≤ (a ++ pat.dropLast).length := by
    have hpos : 0 < pat.length := List.length_pos.mpr hp
    simp only [List.length_append, List.length_dropLast]
    omega
  have h3 : a1 ++ pat <+: a ++ pat.dropLast := List.prefix_of_prefix_length_le h1 h2 hlen
  obtain ⟨t, ht⟩ := h3
  exact ⟨a1, t, ht⟩

theorem not_digit_of_head (rest : List Char) (h : rest.head?.map Char.isDigit ≠ some true)
    (a : List Char) (ha : ∀ x ∈ a, x.isDigit = true) :
    (a ++ rest).takeWhile Char.isDigit = a := by
  induction a with
  | nil =>
    cases rest with
    | nil => rfl
    | cons c cs =>
      have hc : c.isDigit = false := by
        cases hd : c.isDigit
        · rfl
        · exact absurd (by simp [hd]) h
      rw [List.nil_append, List.takeWhile_cons, hc]
      rfl
  | cons x xs ih =>
    rw [List.cons_append, List.takeWhile_cons, ha x (by simp), if_pos rfl,
      ih (fun y hy => ha y (by simp [hy]))]

theorem stoi_signed (ds rest : List Char) (neg : Bool) (hne : ds ≠ [])
    (hds : ∀ c ∈ ds, c.isDigit = true)
    (hrest : rest.head?.map Char.isDigit ≠ some true) :
    stoi ((if neg then '-' :: ds else ds) ++ rest)
      = (if (if neg then -(digitsVal ds : Int) else (digitsVal ds : Int)) < -2147483648 ∨
            2147483647 < (if neg then -(digitsVal ds : Int) else (digitsVal ds : Int))
         then .error .out_of_range
         else .ok (if neg then -(digitsVal ds : Int) else (digitsVal ds : Int))) := by
  obtain ⟨c0, cs, rfl⟩ := List.exists_cons_of_ne_nil hne
  have h0 : c0.isDigit = true := hds c0 (by simp)
  have hsp : isspace c0 = false := by
    cases hs : isspace c0
    · rfl
    · exfalso
      simp only [isspace, Bool.or_eq_true, decide_eq_true_eq] at hs
      rcases hs with ((((h | h) | h) | h) | h) | h <;> (subst h; exact absurd h0 (by decide))
  have hm : ¬ (c0 = '-') := fun h => by subst h; exact absurd h0 (by decide)
  have hp : ¬ (c0 = '+') := fun h => by subst h; exact absurd h0 (by decide)
  have htw : ((c0 :: cs) ++ rest).takeWhile Char.isDigit = c0 :: cs :=
    not_digit_of_head rest hrest _ hds
  cases neg with
  | true =>
    have hdw : (('-' :: c0 :: cs) ++ rest).dropWhile isspace = ('-' :: c0 :: cs) ++ rest := by
      rw [List.cons_append, List.dropWhile_cons_of_neg (by decide)]
    unfold stoi
    simp only [if_true, hdw]
    simp only [List.cons_append, List.head?_cons, true_or, if_true, List.tail_cons]
    rw [← List.cons_append, htw]
    simp
  | false =>
    have hdw : ((c0 :: cs) ++ rest).dropWhile isspace = (c0 :: cs) ++ rest := by
      rw [List.cons_append, List.dropWhile_cons_of_neg (by simp [hsp])]
    unfold stoi
    simp only [Bool.false_eq_true, if_false, hdw]
    simp only [List.cons_append, List.head?_cons, Option.some.injEq, hm, hp, or_self, if_false]
    rw [← List.cons_append, htw]
    simp

theorem not_description_in_priority (body : List Char) (hb : '"' ∉ body) :
    ¬ "\"description\"".toList <:+: "      \"priority\": ".toList ++ body := by
  rw [← searchFrom_eq_none_iff _ _ 0]
  have hskip : ∀ rest : List Char,
      searchFrom "\"description\"".toList ("      \"priority\": ".toList ++ rest) 0
        = searchFrom "\"description\"".toList rest 18 := by
    intro rest
    simp [searchFrom_cons, isPrefixOf_cons_cons, nil_isPrefixOf]
  have hpat : "\"description\"".toList = '"' :: "description\"".toList := rfl
  rw [hskip, hpat]
  exact searchFrom_none_of_not_mem '"' _ body _ hb

/-- The priority line in the layout of `saveTasksToFile`, with any text for the number. -/
theorem loadLine_priority_body (st : LoadState) (body : List Char) (hb : '"' ∉ body)
    (hlen : body.length + 18 < npos) :
    (∃ v, stoi body = .ok v ∧
      loadLine st ("      \"priority\": ".toList ++ body) = .ok { st with prio := v }) ∨
    (stoi body = .error .invalid_argument ∧
      loadLine st ("      \"priority\": ".toList ++ body) = .ok { st with prio := 1 }) ∨
    (stoi body = .error .out_of_range ∧
      loadLine st ("      \"priority\": ".toList ++ body) = .error .out_of_range) := by
  have hl : ("      \"priority\": ".toList ++ body).length < npos := by
    have : "      \"priority\": ".toList.length = 18 := rfl
    rw [List.length_append, this]; omega
  have hsub : substr ("      \"priority\": ".toList ++ body)
      ((find ("      \"priority\": ".toList ++ body) [':', ' '] 0 + 2) % sizeMod) npos
      = .ok body := by
    rw [find_colon_priority]
    have hmod : (16 + 2) % sizeMod = 18 := by decide
    rw [hmod]
    unfold substr
    rw [if_neg (by simp)]
    have hd : ("      \"priority\": ".toList ++ body).drop 18 = body := List.drop_left' rfl
    rw [hd, List.take_of_length_le (by omega)]
  rcases loadLine_cases st _ hl with ⟨h, _⟩ | ⟨_, _, sub, hs, h⟩ | ⟨_, h, _⟩ | ⟨_, h, _⟩ |
    ⟨_, h, _⟩
  · exact absurd h (not_description_in_priority body hb)
  · rw [hsub] at hs
    have hsr : body = sub := by simpa using hs
    subst hsr
    exact h
  all_goals
    exact absurd (show "\"priority\"".toList <:+: "      \"priority\": ".toList ++ body from
      ⟨"      ".toList, ": ".toList ++ body, by simp⟩) h

/-- C12 (amended). An unparsable priority is defaulted, not fatal: a line that contains
`"priority"` and not `"description"` and whose text after its first `: ` does not begin,
after optional white space and an optional sign, with a decimal digit sets the priority
variable to 1 and changes nothing else; so a file with such a line is loaded exactly as the
file with that line replaced by `"priority": 1,`. -/
theorem unparsable_priority_defaults (a rest : List Char)
    (hlen : (a ++ [':', ' '] ++ rest).length < npos)
    (hkey : "\"priority\"".toList <:+: a ++ [':', ' '] ++ rest)
    (hnd : ¬ "\"description\"".toList <:+: a ++ [':', ' '] ++ rest)
    (hfirst : ¬ [':', ' '] <:+: a ++ [':'])
    (hnum : NoLeadingDigit rest) :
    (∀ st : LoadState, loadLine st (a ++ [':', ' '] ++ rest) = .ok { st with prio := 1 }) ∧
    (∀ (pre post : List (List Char)) (st : LoadState),
      loadLoop st (pre ++ (a ++ [':', ' '] ++ rest) :: post)
        = loadLoop st (pre ++ priorityOneLine :: post)) ∧
    (∀ (text text1 : List Char) (old : List Task) (pre post : List (List Char)),
      getlines text = pre ++ (a ++ [':', ' '] ++ rest) :: post →
      getlines text1 = pre ++ priorityOneLine :: post →
      loadTasksFromFile (some text) old = loadTasksFromFile (some text1) old) := by
  have hline : ∀ st : LoadState,
      loadLine st (a ++ [':', ' '] ++ rest) = .ok { st with prio := 1 } :=
    fun st => loadLine_unparsable st a rest hlen hkey hnd
      (first_of_no_earlier_match [':', ' '] a rest (by simp) hfirst) hnum
  have hloop : ∀ (pre post : List (List Char)) (st : LoadState),
      loadLoop st (pre ++ (a ++ [':', ' '] ++ rest) :: post)
        = loadLoop st (pre ++ priorityOneLine :: post) :=
    loadLoop_replace_line _ _ (fun st => by rw [hline st, loadLine_priorityOneLine])
  refine ⟨hline, hloop, ?_⟩
  intro text text1 old pre post h1 h2
  unfold loadTasksFromFile
  simp only [h1, h2, hloop]

/-- C12, an instance: the line `"priority": abc,` sets the priority to 1, and the file of
the spec's scenario loads its record with priority 1. -/
theorem unparsable_priority_defaults_witness :
    loadLine ⟨"x".toList, 4, [], []⟩ ("      \"priority\"".toList ++ [':', ' '] ++ "abc,".toList)
      = .ok ⟨"x".toList, 1, [], []⟩ ∧
    loadTasksFromFile (some (sampleFile "      \"priority\": abc,".toList)) []
      = .ok [⟨"x".toList, 1, [], false⟩] :=
  ⟨(unparsable_priority_defaults "      \"priority\"".toList "abc,".toList
      (by decide) (by decide) (by decide) (by decide) (by decide)).1 ⟨"x".toList, 4, [], []⟩,
   by rfl⟩

/-- C12 as stated fails: the priority line `"priority": "description",` has no digit after
its separator, yet it is read by the description branch: the record loads with description
`description` and the priority 0 left from before, not with priority 1. -/
theorem priority_line_with_description_key :
    loadTasksFromFile (some (sampleFile "      \"priority\": \"description\",".toList)) []
      = .ok [⟨"description".toList, 0, [], false⟩] ∧
    ¬ ∀ (a rest : List Char), (a ++ [':', ' '] ++ rest).length < npos →
        "\"priority\"".toList <:+: a ++ [':', ' '] ++ rest →
        ¬ [':', ' '] <:+: a ++ [':'] → NoLeadingDigit rest →
        ∀ st : LoadState, loadLine st (a ++ [':', ' '] ++ rest) = .ok { st with prio := 1 } := by
  refine ⟨by rfl, ?_⟩
  intro h
  have h1 := h "      \"priority\"".toList "\"description\",".toList
    (by decide) (by decide) (by decide) (by decide) ⟨"x".toList, 0, [], []⟩
  have h2 : loadLine ⟨"x".toList, 0, [], []⟩
      ("      \"priority\"".toList ++ [':', ' '] ++ "\"description\",".toList)
      = .ok ⟨"description".toList, 0, [], []⟩ := by rfl
  rw [h2] at h1
  exact absurd (Except.ok.inj h1) (by decide)

theorem loadLine_error_cases (st : LoadState) (line : List Char) (e : Exn)
    (hlen : line.length < npos) (he : loadLine st line = .error e) :
    e = .out_of_range ∧ ¬ "\"description\"".toList <:+: line ∧
    "\"priority\"".toList <:+: line ∧
    ∃ sub, substr line ((find line [':', ' '] 0 + 2) % sizeMod) npos = .ok sub ∧
      stoi sub = .error .out_of_range := by
  rcases loadLine_cases st line hlen with ⟨_, _, _, h⟩ | ⟨h1, h2, sub, hs, h⟩ |
    ⟨_, _, _, _, _, h⟩ | ⟨_, _, _, _, h⟩ | ⟨_, _, _, _, h⟩
  · rw [h] at he; exact absurd he (by simp)
  · rcases h with ⟨v, _, h⟩ | ⟨_, h⟩ | ⟨hv, h⟩
    · rw [h] at he; exact absurd he (by simp)
    · rw [h] at he; exact absurd he (by simp)
    · rw [h] at he
      have : Exn.out_of_range = e := by simpa using he
      exact ⟨this.symm, h1, h2, sub, hs, hv⟩
  · rw [h] at he; exact absurd he (by simp)
  · rw [h] at he; exact absurd he (by simp)
  · rw [h] at he; exact absurd he (by simp)

theorem loadLoop_ok_of_no_overflow (st : LoadState) (lines : List (List Char))
    (hlen : ∀ l ∈ lines, l.length < npos)
    (hno : ∀ l ∈ lines, ∀ sub,
      substr l ((find l [':', ' '] 0 + 2) % sizeMod) npos = .ok sub →
      stoi sub ≠ .error .out_of_range) :
    ∃ st1, loadLoop st lines = .ok st1 := by
  induction lines generalizing st with
  | nil => exact ⟨st, rfl⟩
  | cons l ls ih =>
    cases hl : loadLine st l with
    | ok st1 =>
      rw [loadLoop_cons_ok st st1 l ls hl]
      exact ih st1 (fun x hx => hlen x (by simp [hx])) (fun x hx => hno x (by simp [hx]))
    | error e =>
      obtain ⟨_, _, _, sub, hs, hv⟩ := loadLine_error_cases st l e (hlen l (by simp)) hl
      exact absurd hv (hno l (by simp) sub hs)

/-- C13 (fails on the code). Loading can fail: on a file whose priority line reads
`"priority": 99999999999,` the conversion `std::stoi` throws `std::out_of_range`, which the
handler for `std::invalid_argument` does not catch. That is the only way out: a line on
which the loader throws is a priority line whose extracted text `std::stoi` rejects as out
of range (no `substr` call throws), and the loader returns on every file without such a
line. -/
theorem loader_aborts_on_large_priority :
    loadTasksFromFile (some (sampleFile "      \"priority\": 99999999999,".toList)) []
      = .error .out_of_range ∧
    (∀ (st : LoadState) (line : List Char) (e : Exn), line.length < npos →
      loadLine st line = .error e →
      e = .out_of_range ∧ ¬ "\"description\"".toList <:+: line ∧
      "\"priority\"".toList <:+: line ∧
      ∃ sub, substr line ((find line [':', ' '] 0 + 2) % sizeMod) npos = .ok sub ∧
        stoi sub = .error .out_of_range) ∧
    (∀ (st : LoadState) (lines : List (List Char)), (∀ l ∈ lines, l.length < npos) →
      (∀ l ∈ lines, ∀ sub, substr l ((find l [':', ' '] 0 + 2) % sizeMod) npos = .ok sub →
        stoi sub ≠ .error .out_of_range) →
      ∃ st1, loadLoop st lines = .ok st1) :=
  ⟨by rfl, loadLine_error_cases, loadLoop_ok_of_no_overflow⟩

/-- C19. The loader does not range-check priorities: the files whose priority line reads
`"priority": 9,` and `"priority": -3,` load with priority 9 and -3, outside 1 to 5; and on
a priority line in the saved layout the loaded priority is the `int` that the optional
minus sign and the leading digits denote. -/
theorem loader_keeps_out_of_range_priority :
    (∃ (text : List Char) (tasks : List Task),
      loadTasksFromFile (some text) [] = .ok tasks ∧
      ∃ t ∈ tasks, ¬ (1 ≤ t.priority ∧ t.priority ≤ 5)) ∧
    loadTasksFromFile (some (sampleFile "      \"priority\": 9,".toList)) []
      = .ok [⟨"x".toList, 9, [], false⟩] ∧
    loadTasksFromFile (some (sampleFile "      \"priority\": -3,".toList)) []
      = .ok [⟨"x".toList, -3, [], false⟩] ∧
    (∀ (st : LoadState) (neg : Bool) (ds rest : List Char), ds ≠ [] →
      (∀ c ∈ ds, c.isDigit = true) → rest.head?.map Char.isDigit ≠ some true →
      '"' ∉ rest → ds.length + rest.length + 19 < npos →
      -2147483648 ≤ (if neg then -(digitsVal ds : Int) else (digitsVal ds : Int)) →
      (if neg then -(digitsVal ds : Int) else (digitsVal ds : Int)) ≤ 2147483647 →
      loadLine st ("      \"priority\": ".toList ++ ((if neg then '-' :: ds else ds) ++ rest))
        = .ok { st with prio := if neg then -(digitsVal ds : Int) else (digitsVal ds : Int) }) := by
  have h9 : loadTasksFromFile (some (sampleFile "      \"priority\": 9,".toList)) []
      = .ok [⟨"x".toList, 9, [], false⟩] := by rfl
  refine ⟨⟨_, _, h9, _, List.mem_singleton.mpr rfl, by decide⟩, h9, by rfl, ?_⟩
  intro st neg ds rest hne hds hrest hq hlen hlo hhi
  have hdq : '"' ∉ ds := fun hm => absurd (hds _ hm) (by decide)
  have hbq : '"' ∉ (if neg then '-' :: ds else ds) ++ rest := by
    cases neg
    · simp [hdq, hq]
    · simp [hdq, hq]
  have hbl : ((if neg then '-' :: ds else ds) ++ rest).length + 18 < npos := by
    cases neg
    · simp only [Bool.false_eq_true, if_false, List.length_append]; omega
    · simp only [if_true, List.length_append, List.length_cons]; omega
  have hst := stoi_signed ds rest neg hne hds hrest
  have hrange : ¬ ((if neg then -(digitsVal ds : Int) else (digitsVal ds : Int)) < -2147483648 ∨
      2147483647 < (if neg then -(digitsVal ds : Int) else (digitsVal ds : Int))) := by
    omega
  rw [if_neg hrange] at hst
  rcases loadLine_priority_body st _ hbq hbl with ⟨v, hv, h⟩ | ⟨hv, _⟩ | ⟨hv, _⟩
  · rw [hst] at hv
    have : (if neg then -(digitsVal ds : Int) else (digitsVal ds : Int)) = v := by
      simpa using hv
    rw [this]; exact h
  · rw [hst] at hv; exact absurd hv (by simp)
  · rw [hst] at hv; exact absurd hv (by simp)

theorem loadLine_isDoneLine (st : LoadState) (line : List Char) (hlen : line.length < npos)
    (h : IsDoneLine line) :
    loadLine st line = .ok { st with tasks := st.tasks ++
      [⟨st.desc, st.prio, st.due, decide ("true".toList <:+: line)⟩] } := by
  obtain ⟨hi, hd, hp, hu⟩ := h
  rcases loadLine_cases st line hlen with ⟨h, _⟩ | ⟨_, h, _⟩ | ⟨_, _, h, _⟩ | ⟨_, _, _, _, h⟩ |
    ⟨_, _, _, h, _⟩
  · exact absurd h hd
  · exact absurd h hp
  · exact absurd h hu
  · exact h
  · exact absurd hi h

theorem loadLine_not_isDoneLine (st st1 : LoadState) (line : List Char)
    (hlen : line.length < npos) (h : ¬ IsDoneLine line) (he : loadLine st line = .ok st1) :
    st1.tasks = st.tasks ∧
    (¬ "\"description\"".toList <:+: line → st1.desc = st.desc) ∧
    (¬ "\"priority\"".toList <:+: line → st1.prio = st.prio) ∧
    (¬ "\"dueDate\"".toList <:+: line → st1.due = st.due) := by
  rcases loadLine_cases st line hlen with ⟨h1, d, _, h2⟩ | ⟨_, h1, sub, _, h2⟩ |
    ⟨_, _, h1, d, _, h2⟩ | ⟨hd, hp, hu, hi, _⟩ | ⟨_, _, _, _, h2⟩
  · rw [h2] at he
    have := Except.ok.inj he
    subst this
    exact ⟨rfl, fun hn => absurd h1 hn, fun _ => rfl, fun _ => rfl⟩
  · rcases h2 with ⟨v, _, h2⟩ | ⟨_, h2⟩ | ⟨_, h2⟩
    · rw [h2] at he
      have := Except.ok.inj he
      subst this
      exact ⟨rfl, fun _ => rfl, fun hn => absurd h1 hn, fun _ => rfl⟩
    · rw [h2] at he
      have := Except.ok.inj he
      subst this
      exact ⟨rfl, fun _ => rfl, fun hn => absurd h1 hn, fun _ => rfl⟩
    · rw [h2] at he; exact absurd he (by simp)
  · rw [h2] at he
    have := Except.ok.inj he
    subst this
    exact ⟨rfl, fun _ => rfl, fun _ => rfl, fun hn => absurd h1 hn⟩
  · exact absurd ⟨hi, hd, hp, hu⟩ h
  · rw [h2] at he
    have := Except.ok.inj he
    subst this
    exact ⟨rfl, fun _ => rfl, fun _ => rfl, fun _ => rfl⟩

theorem loadLoop_tasks (st st1 : LoadState) (lines : List (List Char))
    (hlen : ∀ l ∈ lines, l.length < npos) (he : loadLoop st lines = .ok st1) :
    ∃ recs, st1.tasks = st.tasks ++ recs ∧
      recs.length = lines.countP (fun l => decide (IsDoneLine l)) := by
  induction lines generalizing st with
  | nil =>
    have : st = st1 := by simpa [loadLoop] using he
    exact ⟨[], by simp [this], rfl⟩
  | cons l ls ih =>
    have hl := hlen l (by simp)
    cases hline : loadLine st l with
    | error e =>
      rw [loadLoop_cons_error st l ls e hline] at he
      exact absurd he (by simp)
    | ok st2 =>
      rw [loadLoop_cons_ok st st2 l ls hline] at he
      obtain ⟨recs, hr, hc⟩ := ih st2 (fun x hx => hlen x (by simp [hx])) he
      by_cases hd : IsDoneLine l
      · rw [loadLine_isDoneLine st l hl hd] at hline
        have := Except.ok.inj hline
        subst this
        refine ⟨⟨st.desc, st.prio, st.due, decide ("true".toList <:+: l)⟩ :: recs, ?_, ?_⟩
        · rw [hr]
          exact List.append_assoc _ _ _
        · rw [List.countP_cons_of_pos _ _ (by simpa using hd), List.length_cons, hc]
      · have h2 := (loadLine_not_isDoneLine st st2 l hl hd hline).1
        refine ⟨recs, by rw [hr, h2], ?_⟩
        rw [List.countP_cons_of_neg _ _ (by simpa using hd)]
        exact hc

theorem loadLoop_take (st st1 : LoadState) (lines : List (List Char)) (n : Nat)
    (he : loadLoop st lines = .ok st1) :
    ∃ stn, loadLoop st (lines.take n) = .ok stn ∧ loadLoop stn (lines.drop n) = .ok st1 := by
  induction lines generalizing st n with
  | nil => exact ⟨st, by simp [loadLoop], by simpa using he⟩
  | cons l ls ih =>
    cases n with
    | zero => exact ⟨st, by simp [loadLoop], by simpa using he⟩
    | succ m =>
      cases hline : loadLine st l with
      | error e =>
        rw [loadLoop_cons_error st l ls e hline] at he
        exact absurd he (by simp)
      | ok st2 =>
        rw [loadLoop_cons_ok st st2 l ls hline] at he
        obtain ⟨stn, h1, h2⟩ := ih st2 m he
        refine ⟨stn, ?_, by simpa using h2⟩
        rw [List.take_succ_cons, loadLoop_cons_ok st st2 l _ hline]
        exact h1

theorem length_le_of_mem_getlines (text : List Char) :
    ∀ l ∈ getlines text, l.length ≤ text.length := by
  induction text with
  | nil => intro l hl; simp [getlines] at hl
  | cons c cs ih =>
    intro l hl
    rw [getlines_cons] at hl
    by_cases hc : c = '\n'
    · rw [if_pos hc] at hl
      rcases List.mem_cons.mp hl with rfl | hl
      · simp
      · have := ih l hl
        simp only [List.length_cons]; omega
    · rw [if_neg hc] at hl
      cases hg : getlines cs with
      | nil =>
        rw [hg] at hl
        simp only [List.mem_singleton] at hl
        subst hl
        simp
      | cons x xs =>
        rw [hg] at hl
        simp only [List.mem_cons] at hl
        rcases hl with rfl | hl
        · have := ih x (by rw [hg]; simp)
          simp only [List.length_cons]; omega
        · have := ih l (by rw [hg]; simp [hl])
          simp only [List.length_cons]; omega

/-- The record that the loader appends for line `n`. -/
theorem loadLoop_record (st st1 : LoadState) (lines : List (List Char)) (n : Nat)
    (hn : n < lines.length) (hlen : ∀ l ∈ lines, l.length < npos)
    (he : loadLoop st lines = .ok st1) (hd : IsDoneLine (lines.get ⟨n, hn⟩)) :
    ∃ stn, loadLoop st (lines.take n) = .ok stn ∧
      st1.tasks[st.tasks.length + (lines.take n).countP (fun l => decide (IsDoneLine l))]?
        = some ⟨stn.desc, stn.prio, stn.due,
            decide ("true".toList <:+: lines.get ⟨n, hn⟩)⟩ := by
  obtain ⟨stn, h1, h2⟩ := loadLoop_take st st1 lines n he
  refine ⟨stn, h1, ?_⟩
  obtain ⟨recs1, hr1, hc1⟩ := loadLoop_tasks st stn (lines.take n)
    (fun l hl => hlen l (List.mem_of_mem_take hl)) h1
  have hdrop : lines.drop n = lines.get ⟨n, hn⟩ :: lines.drop (n + 1) := by
    rw [List.get_eq_getElem, List.drop_eq_getElem_cons hn]
  rw [hdrop] at h2
  have hl := hlen (lines.get ⟨n, hn⟩) (List.get_mem _ _ _)
  have hline := loadLine_isDoneLine stn _ hl hd
  rw [loadLoop_cons_ok _ _ _ _ hline] at h2
  obtain ⟨recs2, hr2, _⟩ := loadLoop_tasks _ st1 (lines.drop (n + 1))
    (fun l hl => hlen l (List.mem_of_mem_drop hl)) h2
  have hfull : st1.tasks = (st.tasks ++ recs1) ++
      (⟨stn.desc, stn.prio, stn.due, decide ("true".toList <:+: lines.get ⟨n, hn⟩)⟩ :: recs2) := by
    rw [hr2, hr1]
    exact List.append_assoc _ _ _
  have hidx : st.tasks.length + (lines.take n).countP (fun l => decide (IsDoneLine l))
      = (st.tasks ++ recs1).length := by
    rw [List.length_append, hc1]
  rw [hfull, hidx, List.getElem?_append_right (le_refl _), Nat.sub_self]
  exact List.getElem?_cons_zero

theorem pairwise_lex_of_filter {α : Type} (key : α → Int) (lt : α → α → Prop) :
    ∀ L : List α, L.Pairwise (fun a b => key a ≥ key b) →
      (∀ p : Int, (L.filter (fun a => key a == p)).Pairwise lt) →
      L.Pairwise (fun a b => key a > key b ∨ (key a = key b ∧ lt a b)) := by
  intro L
  induction L with
  | nil => intro _ _; exact List.Pairwise.nil
  | cons x t ih =>
    intro h1 h2
    rw [List.pairwise_cons] at h1 ⊢
    refine ⟨?_, ih h1.2 ?_⟩
    · intro b hb
      have hge := h1.1 b hb
      by_cases hgt : key x > key b
      · exact Or.inl hgt
      · right
        have he : key x = key b := by omega
        refine ⟨he, ?_⟩
        have h3 := h2 (key x)
        rw [List.filter_cons_of_pos (by simp), List.pairwise_cons] at h3
        exact h3.1 b (List.mem_filter.mpr ⟨hb, by simp [he]⟩)
    · intro p
      have h3 := h2 p
      by_cases hx : key x = p
      · rw [List.filter_cons_of_pos (by simp [hx]), List.pairwise_cons] at h3
        exact h3.2
      · rw [List.filter_cons_of_neg (by simp [hx])] at h3
        exact h3

theorem priorityAt_val (tasks : List Task) (a : Fin tasks.length) :
    priorityAt tasks a = (tasks.get a).priority := by
  unfold priorityAt
  rw [List.getElem?_eq_getElem a.isLt]
  rfl

/-- On at most 16 records the index view of libstdc++ is ordered by priority and, among
equal priorities, by storage slot. -/
theorem sortedIndices_libstdcxx_lex (tasks : List Task) (w : Bool)
    (hlen : (collectIndices tasks w).length ≤ 16) :
    ((sortedIndices libstdcxxSort tasks w).map Fin.val).Pairwise
      (fun a b => priorityAt tasks a > priorityAt tasks b ∨
        (priorityAt tasks a = priorityAt tasks b ∧ a < b)) := by
  rw [List.pairwise_map]
  have h := pairwise_lex_of_filter (fun a : Fin tasks.length => (tasks.get a).priority)
    (fun a b => a < b) (sortedIndices libstdcxxSort tasks w)
    (sortedIndices_pairwise libstdcxxSort tasks w) (by
      intro p
      rw [sortedIndices_libstdcxx_stable tasks w p hlen]
      unfold collectIndices
      exact ((List.pairwise_lt_finRange tasks.length).filter _).filter _)
  refine h.imp ?_
  intro a b hab
  rw [priorityAt_val, priorityAt_val]
  exact hab

theorem priorityAt_set_markDone (tasks : List Task) (k : Fin tasks.length) (n : Nat) :
    priorityAt (tasks.set k (tasks.get k).markDone) n = priorityAt tasks n := by
  unfold priorityAt
  rw [List.getElem?_set]
  by_cases hkn : (k : Nat) = n
  · rw [if_pos hkn, if_pos k.isLt, ← hkn, List.getElem?_eq_getElem k.isLt]
    rfl
  · rw [if_neg hkn]

theorem mem_map_val_sortedIndices (S : StdSort) (tasks : List Task) (w : Bool) (n : Nat) :
    n ∈ (sortedIndices S tasks w).map Fin.val ↔
      ∃ t, tasks[n]? = some t ∧ t.isDone = !w := by
  rw [List.mem_map]
  constructor
  · rintro ⟨a, ha, rfl⟩
    rw [(sortedIndices_perm S tasks w).mem_iff, mem_collectIndices] at ha
    exact ⟨tasks.get a, List.getElem?_eq_getElem a.isLt, ha⟩
  · rintro ⟨t, ht, hd⟩
    obtain ⟨hn, hget⟩ := List.getElem?_eq_some.mp ht
    refine ⟨⟨n, hn⟩, ?_, rfl⟩
    rw [(sortedIndices_perm S tasks w).mem_iff, mem_collectIndices]
    show (tasks[n]).isDone = !w
    rw [hget]
    exact hd

theorem eraseIdx_map {α β : Type} (f : α → β) : ∀ (l : List α) (n : Nat),
    (l.map f).eraseIdx n = (l.eraseIdx n).map f := by
  intro l
  induction l with
  | nil => intro n; rfl
  | cons x t ih =>
    intro n
    cases n with
    | zero => rfl
    | succ m =>
      rw [List.map_cons, List.eraseIdx_cons_succ, List.eraseIdx_cons_succ, List.map_cons, ih]

theorem map_getElem?_val (tasks : List Task) (I : List (Fin tasks.length)) :
    (I.map Fin.val).map (fun n => tasks[n]?) = (I.map tasks.get).map some := by
  rw [List.map_map, List.map_map]
  apply List.map_congr_left
  intro a _
  exact List.getElem?_eq_getElem a.isLt

/-- With the `std::sort` of libstdc++ and at most 16 pending records, the pending view after
`markTaskDone` is the view before without position `i`, the other records in the same
order. -/
theorem pending_view_exact_libstdcxx (tasks : List Task) (i : Int)
    (h1 : 1 ≤ i) (h2 : i ≤ (pendingCount tasks : Int)) (h16 : pendingCount tasks ≤ 16) :
    listTasks libstdcxxSort (markTaskDone libstdcxxSort tasks i) false
      = (listTasks libstdcxxSort tasks false).eraseIdx (i.toNat - 1) := by
  have h2c := h2
  rw [pendingCount_eq] at h2c
  rcases getOriginalIndex_cases libstdcxxSort tasks i true with ⟨_, h⟩ | ⟨k, hk, _, _, hd, hget⟩
  · omega
  have hd2 : (tasks.get k).isDone = false := by simpa using hd
  rw [markTaskDone_of_resolved libstdcxxSort tasks i k hk]
  have hcntB : (collectIndices tasks true).length ≤ 16 := by
    rw [length_collectIndices, ← List.countP_eq_length_filter, ← pendingCount_eq]
    exact h16
  have hcntA : (collectIndices (tasks.set k (tasks.get k).markDone) true).length ≤ 16 := by
    rw [length_collectIndices]
    have hp := (filter_set_done tasks k hd2).length_eq
    rw [length_collectIndices] at hcntB
    rw [List.length_cons] at hp
    have : (!true) = false := rfl
    rw [this] at hcntB ⊢
    omega
  have hlexB := sortedIndices_libstdcxx_lex tasks true hcntB
  have hlexA := sortedIndices_libstdcxx_lex (tasks.set k (tasks.get k).markDone) true hcntA
  simp only [priorityAt_set_markDone] at hlexA
  have hndB : ((sortedIndices libstdcxxSort tasks true).map Fin.val).Nodup :=
    (nodup_sortedIndices libstdcxxSort tasks true).map Fin.val_injective
  have hndA : ((sortedIndices libstdcxxSort (tasks.set k (tasks.get k).markDone) true).map
      Fin.val).Nodup :=
    (nodup_sortedIndices libstdcxxSort _ true).map Fin.val_injective
  have hBk : ((sortedIndices libstdcxxSort tasks true).map Fin.val)[i.toNat - 1]?
      = some (k : Nat) := by
    rw [List.getElem?_map, hget]
    rfl
  obtain ⟨hBlt, hBget⟩ := List.getElem?_eq_some.mp hBk
  have hmemE : ∀ n : Nat,
      n ∈ ((sortedIndices libstdcxxSort tasks true).map Fin.val).eraseIdx (i.toNat - 1) ↔
        n ∈ (sortedIndices libstdcxxSort tasks true).map Fin.val ∧ n ≠ k := by
    intro n
    rw [List.mem_eraseIdx_iff_getElem]
    constructor
    · rintro ⟨j, hj, hne, hjn⟩
      refine ⟨hjn ▸ List.getElem_mem _, ?_⟩
      intro hnk
      apply hne
      rw [← hBget, ← hjn] at hnk
      exact (hndB.getElem_inj_iff).mp hnk
    · rintro ⟨hm, hne⟩
      obtain ⟨j, hj, hjn⟩ := List.mem_iff_getElem.mp hm
      refine ⟨j, hj, ?_, hjn⟩
      intro hji
      apply hne
      rw [← hjn, ← hBget]
      congr 1
  have hperm : ((sortedIndices libstdcxxSort (tasks.set k (tasks.get k).markDone) true).map
      Fin.val).Perm
      (((sortedIndices libstdcxxSort tasks true).map Fin.val).eraseIdx (i.toNat - 1)) := by
    rw [List.perm_ext_iff_of_nodup hndA (hndB.sublist (List.eraseIdx_sublist _ _))]
    intro n
    rw [hmemE, mem_map_val_sortedIndices, mem_map_val_sortedIndices, List.getElem?_set]
    by_cases hkn : (k : Nat) = n
    · rw [if_pos hkn, if_pos k.isLt]
      constructor
      · rintro ⟨t, ht, hdt⟩
        rw [← Option.some.inj ht] at hdt
        exact absurd hdt (by simp [Task.markDone])
      · rintro ⟨_, hne⟩
        exact absurd hkn.symm hne
    · rw [if_neg hkn]
      constructor
      · intro h
        exact ⟨h, fun hnk => hkn hnk.symm⟩
      · intro h
        exact h.1
  have heq := @List.eq_of_perm_of_sorted Nat
    (fun a b => priorityAt tasks a > priorityAt tasks b ∨
      (priorityAt tasks a = priorityAt tasks b ∧ a < b))
    ⟨fun a b hab hba => by
      rcases hab with h | ⟨h, h3⟩ <;> rcases hba with h4 | ⟨h4, h5⟩ <;> omega⟩ _ _
    hperm hlexA (hlexB.sublist (List.eraseIdx_sublist _ _))
  have hA := map_get_sortedIndices_libstdcxx (tasks.set k (tasks.get k).markDone) true
  have hB := map_get_sortedIndices_libstdcxx tasks true
  have hnt : (!true) = false := rfl
  rw [hnt] at hA hB
  rw [← hA, ← hB]
  apply List.map_injective_iff.mpr (Option.some_injective Task)
  rw [eraseIdx_map, ← map_getElem?_val, ← map_getElem?_val, ← eraseIdx_map, heq]
  apply List.map_congr_left
  intro n hn
  rw [hmemE] at hn
  rw [List.getElem?_set, if_neg (fun h => hn.2 h.symm)]

/-- C15 as stated fails: `std::sort` orders records of equal priority anew once one of them
has left the range. The 18 pending records of `eighteenTied`, all of priority 3, are shown
with `t10` as `Task #1`, then `t18` down to `t11`, `t01`, and `t09` down to `t02`; after
`markTaskDone 1` the view of the 17 records left starts with `t09`, which stood behind `t01`
before. -/
theorem pending_view_ties_reordered :
    (listTasks libstdcxxSort eighteenTied false).map Task.description
      = ["t10".toList, "t18".toList, "t17".toList, "t16".toList, "t15".toList, "t14".toList,
         "t13".toList, "t12".toList, "t11".toList, "t01".toList, "t09".toList, "t08".toList,
         "t07".toList, "t06".toList, "t05".toList, "t04".toList, "t03".toList, "t02".toList] ∧
    (listTasks libstdcxxSort (markTaskDone libstdcxxSort eighteenTied 1) false).map
        Task.description
      = ["t09".toList, "t18".toList, "t17".toList, "t16".toList, "t15".toList, "t14".toList,
         "t13".toList, "t12".toList, "t11".toList, "t01".toList, "t08".toList, "t07".toList,
         "t06".toList, "t05".toList, "t04".toList, "t03".toList, "t02".toList] ∧
    ¬ ∀ (tasks : List Task) (i : Int), 1 ≤ i → i ≤ (pendingCount tasks : Int) →
        listTasks libstdcxxSort (markTaskDone libstdcxxSort tasks i) false
          = (listTasks libstdcxxSort tasks false).eraseIdx (i.toNat - 1) := by
  refine ⟨by decide, by decide, ?_⟩
  intro h
  have h1 := h eighteenTied 1 (by decide) (by decide)
  revert h1
  decide

/-- C15 (amended). Completing a task removes exactly it from the pending view while at most
16 records are pending: for every `i` from 1 to the pending count, the pending view after
`markTaskDone i` is then the pending view before it with the element at position `i` removed,
the other elements in the same relative order (with the `std::sort` of libstdc++); with any
number of pending records it is a rearrangement of that list. Under every `std::sort` the
view after is ordered by non-increasing priority, it shows the priorities of the view before
with position `i` removed, and it is the view before with position `i` removed when no two
pending records have the same priority. -/
theorem markTaskDone_removes_from_pending_view (tasks : List Task) (i : Int)
    (h1 : 1 ≤ i) (h2 : i ≤ (pendingCount tasks : Int)) :
    (pendingCount tasks ≤ 16 →
      listTasks libstdcxxSort (markTaskDone libstdcxxSort tasks i) false
        = (listTasks libstdcxxSort tasks false).eraseIdx (i.toNat - 1)) ∧
    (listTasks libstdcxxSort (markTaskDone libstdcxxSort tasks i) false).Perm
      ((listTasks libstdcxxSort tasks false).eraseIdx (i.toNat - 1)) ∧
    (∀ S : StdSort,
      (listTasks S (markTaskDone S tasks i) false).Pairwise
        (fun a b => a.priority ≥ b.priority) ∧
      (listTasks S (markTaskDone S tasks i) false).map Task.priority
        = ((listTasks S tasks false).map Task.priority).eraseIdx (i.toNat - 1) ∧
      (((tasks.filter fun t => t.isDone == false).map Task.priority).Nodup →
        listTasks S (markTaskDone S tasks i) false
          = (listTasks S tasks false).eraseIdx (i.toNat - 1))) := by
  refine ⟨pending_view_exact_libstdcxx tasks i h1 h2, ?_, ?_⟩
  · have h2c := h2
    rw [pendingCount_eq] at h2c
    obtain ⟨k, hk, hd, hv⟩ := resolve_of_views_agree libstdcxxSort tasks true i
      (map_get_sortedIndices_libstdcxx tasks true) h1 h2c
    exact pending_view_perm libstdcxxSort tasks i k hk (by simpa using hd) (by simpa using hv)
  · intro S
    exact ⟨listTasks_pairwise S _ false, (pending_view_after_markTaskDone S tasks i h1 h2).1,
      (pending_view_after_markTaskDone S tasks i h1 h2).2⟩

/-- C15 (amended), an instance: of the 16 pending records of `sixteenTied`, all of one
priority, `markTaskDone 1` removes `t01` from the view and leaves `t02` to `t16` in their
order; and with `Ship release` (priority 5) and `Buy milk` (priority 3) pending in
`sampleStore`, `markTaskDone 1` leaves only `Buy milk` in the pending view. -/
theorem markTaskDone_removes_from_pending_view_witness :
    listTasks libstdcxxSort (markTaskDone libstdcxxSort sixteenTied 1) false
      = (listTasks libstdcxxSort sixteenTied false).eraseIdx ((1 : Int).toNat - 1) ∧
    listTasks libstdcxxSort (markTaskDone libstdcxxSort sixteenTied 1) false
      = sixteenTied.eraseIdx 0 ∧
    listTasks libstdcxxSort (markTaskDone libstdcxxSort sampleStore 1) false
      = [⟨"Buy milk".toList, 3, "2024-01-01".toList, false⟩] :=
  ⟨(markTaskDone_removes_from_pending_view sixteenTied 1 (by decide) (by decide)).1 (by decide),
   by decide, by decide⟩

/-- C16 (fails on the code). Streaming accumulation: whenever `loadTasksFromFile` returns,
it has appended exactly one record per line that contains `"isDone"` and none of the three
other keys, in file order; the record of such a line carries the values that the variables
`desc`, `prio`, `due` hold after the lines before it (at first empty, 0, empty) and is done
exactly when the line contains `true`; a line of another kind appends nothing and changes
at most the variable of its own key. But the loader does not return for every text: on
`abortingText` the conversion of the priority throws before the `"isDone"` line is read. -/
theorem streaming_accumulation :
    (∀ (text : List Char) (old tasks : List Task), text.length < npos →
      loadTasksFromFile (some text) old = .ok tasks →
      tasks.length = (getlines text).countP (fun l => decide (IsDoneLine l)) ∧
      ∀ (n : Nat) (hn : n < (getlines text).length), IsDoneLine ((getlines text).get ⟨n, hn⟩) →
        ∃ stn, loadLoop ⟨[], 0, [], []⟩ ((getlines text).take n) = .ok stn ∧
          tasks[((getlines text).take n).countP (fun l => decide (IsDoneLine l))]?
            = some ⟨stn.desc, stn.prio, stn.due,
                decide ("true".toList <:+: (getlines text).get ⟨n, hn⟩)⟩) ∧
    (∀ (st st1 : LoadState) (line : List Char), line.length < npos →
      loadLine st line = .ok st1 →
      (IsDoneLine line → st1 = { st with tasks := st.tasks ++
        [⟨st.desc, st.prio, st.due, decide ("true".toList <:+: line)⟩] }) ∧
      (¬ IsDoneLine line → st1.tasks = st.tasks ∧
        (¬ "\"description\"".toList <:+: line → st1.desc = st.desc) ∧
        (¬ "\"priority\"".toList <:+: line → st1.prio = st.prio) ∧
        (¬ "\"dueDate\"".toList <:+: line → st1.due = st.due))) ∧
    loadTasksFromFile (some inheritingText) []
      = .ok [⟨"a".toList, 2, "d".toList, false⟩, ⟨"a".toList, 2, "d".toList, true⟩] ∧
    (getlines abortingText).countP (fun l => decide (IsDoneLine l)) = 1 ∧
    loadTasksFromFile (some abortingText) [] = .error .out_of_range := by
  refine ⟨?_, ?_, by rfl, by decide, by rfl⟩
  · intro text old tasks hlen he
    have hlines : ∀ l ∈ getlines text, l.length < npos :=
      fun l hl => lt_of_le_of_lt (length_le_of_mem_getlines text l hl) hlen
    unfold loadTasksFromFile at he
    simp only [] at he
    cases hloop : loadLoop ⟨[], 0, [], []⟩ (getlines text) with
    | error e => rw [hloop] at he; exact absurd he (by simp)
    | ok st1 =>
      rw [hloop] at he
      have ht : st1.tasks = tasks := by simpa using he
      subst ht
      refine ⟨?_, ?_⟩
      · obtain ⟨recs, hr, hc⟩ := loadLoop_tasks _ _ _ hlines hloop
        rw [hr, ← hc]
        simp
      · intro n hn hd
        obtain ⟨stn, h1, h2⟩ := loadLoop_record _ _ _ n hn hlines hloop hd
        refine ⟨stn, h1, ?_⟩
        simpa using h2
  · intro st st1 line hlen he
    refine ⟨?_, fun hd => loadLine_not_isDoneLine st st1 line hlen hd he⟩
    intro hd
    rw [loadLine_isDoneLine st line hlen hd] at he
    exact (Except.ok.inj he).symm

end TaskMaster
